import Mathlib

/-!
BusTub storage substrate: leaf and internal B+-tree pages, LRU-K replacer, extendible hash table.

Shallow embedding of
* `src/storage/page/b_plus_tree_leaf_page.cpp`
* `src/storage/page/b_plus_tree_internal_page.cpp`
* `src/buffer/lru_k_replacer.cpp`
* `src/container/hash/extendible_hash_table.cpp`

Conventions.
* The in-page array `array_` is raw memory addressed by slot number, so it is a total map
  `Nat → K × V`; `size_` says how many leading slots are live.  Slots at and beyond `size_`
  keep whatever was written there last.
* The key comparator is the injected three-way comparator: negative, zero or positive.
* `std::lower_bound`, `std::move`, `std::move_backward` are the library algorithms.
-/

/-! ## Library algorithms used by the pages -/

/-- The halving loop of `std::lower_bound` on the slot range `[first, first + len)`:
`lt i` is the value of the comparison functor on slot `i` (element strictly before the key).
The first argument bounds the number of iterations; `len` iterations always suffice. -/
def lower_bound_loop (lt : Nat → Bool) : Nat → Nat → Nat → Nat
  | 0, first, _ => first
  | fuel + 1, first, len =>
    if len = 0 then first
    else
      let half := len / 2
      let mid := first + half
      if lt mid then lower_bound_loop lt fuel (mid + 1) (len - half - 1)
      else lower_bound_loop lt fuel first half

/-- The call `std::lower_bound(array_ + first, array_ + last, key, lt)`, as a slot number. -/
def lower_bound (lt : Nat → Bool) (first last : Nat) : Nat :=
  lower_bound_loop lt (last - first) first (last - first)

/-- The call `std::move_backward(a + first, a + last, a + d_last)` inside one array: the slots
`[first, last)` are copied so that the copy ends right before slot `d_last`. -/
def move_backward {α : Type} (a : Nat → α) (first last d_last : Nat) : Nat → α :=
  fun j => if d_last - (last - first) ≤ j ∧ j < d_last then a (last - (d_last - j)) else a j

/-- The call `std::move(a + first, a + last, a + d_first)` inside one array (`d_first ≤ first`):
the slots `[first, last)` are copied to the slots starting at `d_first`. -/
def move_forward {α : Type} (a : Nat → α) (first last d_first : Nat) : Nat → α :=
  fun j => if d_first ≤ j ∧ j < d_first + (last - first) then a (first + (j - d_first)) else a j

/-- The assignment `array_[idx] = x`. -/
def store {α : Type} (a : Nat → α) (idx : Nat) (x : α) : Nat → α :=
  fun j => if j = idx then x else a j

/-- The call `std::copy(src + first, src + first + n, dst + d_first)` between the arrays of two
different pages: the result is the new content of the destination array. -/
def copy_range {α : Type} (src : Nat → α) (first n : Nat) (dst : Nat → α) (d_first : Nat) :
    Nat → α :=
  fun j => if d_first ≤ j ∧ j < d_first + n then src (first + (j - d_first)) else dst j

/-! ## Leaf page (`b_plus_tree_leaf_page.cpp`) -/

/-- The fields of a leaf page that the page operations read or write. -/
structure BPlusTreeLeafPage (K V : Type) where
  size_ : Nat
  max_size_ : Nat
  array_ : Nat → K × V

namespace BPlusTreeLeafPage

variable {K V : Type}

/-- Source: `BPlusTreeLeafPage::KeyAt`. -/
def KeyAt (p : BPlusTreeLeafPage K V) (index : Nat) : K := (p.array_ index).1

/-- Source: `BPlusTreeLeafPage::KeyIndex`, lines 61-67. -/
def KeyIndex (p : BPlusTreeLeafPage K V) (key : K) (comparator : K → K → Int) : Nat :=
  lower_bound (fun i => decide (comparator (p.array_ i).1 key < 0)) 0 p.size_

/-- Source: `BPlusTreeLeafPage::Insert`, lines 69-85.  Returns the page and the returned size. -/
def Insert (p : BPlusTreeLeafPage K V) (key : K) (value : V) (comparator : K → K → Int) :
    BPlusTreeLeafPage K V × Nat :=
  let idx := p.KeyIndex key comparator
  if idx = p.size_ then
    ({ p with array_ := store p.array_ idx (key, value), size_ := p.size_ + 1 }, p.size_ + 1)
  else if comparator (p.array_ idx).1 key = 0 then
    (p, p.size_)
  else
    ({ p with
        array_ := store (move_backward p.array_ idx p.size_ (p.size_ + 1)) idx (key, value),
        size_ := p.size_ + 1 }, p.size_ + 1)

/-- Source: `BPlusTreeLeafPage::LookUp`, lines 87-98.  `value` is the content of the caller's
output cell before the call; the second component is its content after the call.  The test
`!comparator(array_[idx].first, key)` is true exactly when the comparator returns zero. -/
def LookUp (p : BPlusTreeLeafPage K V) (key : K) (value : V) (comparator : K → K → Int) :
    Bool × V :=
  let idx := p.KeyIndex key comparator
  if idx = p.size_ then (false, value)
  else if comparator (p.array_ idx).1 key = 0 then (false, value)
  else (true, (p.array_ idx).2)

/-- Source: `BPlusTreeLeafPage::RemoveAndDeleteRecord`, lines 114-123.  Returns the page and the
returned size. -/
def RemoveAndDeleteRecord (p : BPlusTreeLeafPage K V) (key : K) (comparator : K → K → Int) :
    BPlusTreeLeafPage K V × Nat :=
  let idx := p.KeyIndex key comparator
  if idx = p.size_ ∨ comparator (p.array_ idx).1 key = 0 then (p, p.size_)
  else
    ({ p with array_ := move_forward p.array_ (idx + 1) p.size_ idx, size_ := p.size_ - 1 },
      p.size_ - 1)

/-- Modelled from the spec: `GetMinSize` is defined in `b_plus_tree_page.cpp`, which is not
among the sources; the minimum occupancy of a node is `ceil(max_size / 2)`. -/
def GetMinSize (p : BPlusTreeLeafPage K V) : Nat := (p.max_size_ + 1) / 2

/-- Source: `BPlusTreeLeafPage::CopyNFrom`, lines 100-104: `src` is the array `from` points
into and `first` the slot it points at. -/
def CopyNFrom (p : BPlusTreeLeafPage K V) (src : Nat → K × V) (first size : Nat) :
    BPlusTreeLeafPage K V :=
  { p with array_ := copy_range src first size p.array_ p.size_, size_ := p.size_ + size }

/-- Source: `BPlusTreeLeafPage::MoveHalfTo`, lines 106-112, with the split slot `begin_size`
as an argument.  Returns the source page and the recipient (`to` in the source). -/
def MoveHalfToAt (p recipient : BPlusTreeLeafPage K V) (begin_size : Nat) :
    BPlusTreeLeafPage K V × BPlusTreeLeafPage K V :=
  let end_size := p.max_size_
  ({ p with size_ := begin_size }, recipient.CopyNFrom p.array_ begin_size (end_size - begin_size))

/-- Source: `BPlusTreeLeafPage::MoveHalfTo`, lines 106-112: the split slot is
`GetMinSize()`. -/
def MoveHalfTo (p recipient : BPlusTreeLeafPage K V) :
    BPlusTreeLeafPage K V × BPlusTreeLeafPage K V :=
  p.MoveHalfToAt recipient p.GetMinSize

end BPlusTreeLeafPage

/-! ## Internal page (`b_plus_tree_internal_page.cpp`) -/

/-- The fields of an internal page that the page operations read or write. -/
structure BPlusTreeInternalPage (K V : Type) where
  size_ : Nat
  max_size_ : Nat
  array_ : Nat → K × V

namespace BPlusTreeInternalPage

variable {K V : Type}

/-- Source: `BPlusTreeInternalPage::KeyAt`. -/
def KeyAt (p : BPlusTreeInternalPage K V) (index : Nat) : K := (p.array_ index).1

/-- Source: `BPlusTreeInternalPage::ValueAt`. -/
def ValueAt (p : BPlusTreeInternalPage K V) (index : Nat) : V := (p.array_ index).2

/-- The scan of `ValueIndex` from slot `i` with `n` slots left to visit. -/
def ValueIndexFrom [DecidableEq V] (p : BPlusTreeInternalPage K V) (value : V) : Nat → Nat → Nat
  | 0, i => i
  | n + 1, i => if (p.array_ i).2 = value then i else ValueIndexFrom p value n (i + 1)

/-- Source: `BPlusTreeInternalPage::ValueIndex`, lines 58-66: the first slot below `size_`
holding `value`, and `size_` when there is none. -/
def ValueIndex [DecidableEq V] (p : BPlusTreeInternalPage K V) (value : V) : Nat :=
  ValueIndexFrom p value p.size_ 0

/-- Source: `BPlusTreeInternalPage::LookUp`, lines 68-80 (for `size_ ≥ 1`). -/
def LookUp (p : BPlusTreeInternalPage K V) (key : K) (comparator : K → K → Int) : V :=
  let idx := lower_bound (fun i => decide (comparator (p.array_ i).1 key < 0)) 1 p.size_
  if idx = p.size_ then p.ValueAt (p.size_ - 1)
  else if comparator (p.array_ idx).1 key = 0 then (p.array_ idx).2
  else (p.array_ (idx - 1)).2

/-- Source: `BPlusTreeInternalPage::InsertNodeAfter`, lines 91-99.  Returns the page and the
returned size. -/
def InsertNodeAfter [DecidableEq V] (p : BPlusTreeInternalPage K V) (old_value : V) (new_key : K)
    (new_value : V) : BPlusTreeInternalPage K V × Nat :=
  let new_value_idx := p.ValueIndex old_value + 1
  ({ p with
      array_ := store (move_backward p.array_ new_value_idx p.size_ (p.size_ + 1)) new_value_idx
        (new_key, new_value),
      size_ := p.size_ + 1 }, p.size_ + 1)

/-- Modelled from the spec: `GetMinSize` is defined in `b_plus_tree_page.cpp`, which is not
among the sources; the minimum occupancy of a node is `ceil(max_size / 2)`. -/
def GetMinSize (p : BPlusTreeInternalPage K V) : Nat := (p.max_size_ + 1) / 2

/-- Source: `BPlusTreeInternalPage::SetKeyAt`, line 46. -/
def SetKeyAt (p : BPlusTreeInternalPage K V) (index : Nat) (key : K) : BPlusTreeInternalPage K V :=
  { p with array_ := store p.array_ index (key, (p.array_ index).2) }

/-- Source: `BPlusTreeInternalPage::CopyNFrom`, lines 110-121: `src` is the array `from`
points into and `first` the slot it points at.  The loop over the copied children fetches each
child page from the buffer pool, sets its parent page id and unpins it; it touches no field of
this page and is not part of the page state. -/
def CopyNFrom (p : BPlusTreeInternalPage K V) (src : Nat → K × V) (first size : Nat) :
    BPlusTreeInternalPage K V :=
  { p with array_ := copy_range src first size p.array_ p.size_, size_ := p.size_ + size }

/-- Source: `BPlusTreeInternalPage::MoveHalfTo`, lines 101-108, with the split slot
`begin_idx` as an argument.  Returns the source page and the recipient (`to` in the source). -/
def MoveHalfToAt (p recipient : BPlusTreeInternalPage K V) (begin_idx : Nat) :
    BPlusTreeInternalPage K V × BPlusTreeInternalPage K V :=
  let end_idx := p.size_
  ({ p with size_ := begin_idx }, recipient.CopyNFrom p.array_ begin_idx (end_idx - begin_idx))

/-- Source: `BPlusTreeInternalPage::MoveHalfTo`, lines 101-108: the split slot is
`GetMinSize()`. -/
def MoveHalfTo (p recipient : BPlusTreeInternalPage K V) :
    BPlusTreeInternalPage K V × BPlusTreeInternalPage K V :=
  p.MoveHalfToAt recipient p.GetMinSize

/-- Source: `BPlusTreeInternalPage::MoveAllTo`, lines 136-142.  Returns the source page and
the recipient (`to` in the source). -/
def MoveAllTo (p recipient : BPlusTreeInternalPage K V) (mid_key : K) :
    BPlusTreeInternalPage K V × BPlusTreeInternalPage K V :=
  let p1 := p.SetKeyAt 0 mid_key
  ({ p1 with size_ := 0 }, recipient.CopyNFrom p1.array_ 0 p1.size_)

/-- Source: `BPlusTreeInternalPage::CopyLastFrom`, lines 161-170 (the parent fix-up of the
moved child goes through the buffer pool and is not part of the page state). -/
def CopyLastFrom (p : BPlusTreeInternalPage K V) (item : K × V) : BPlusTreeInternalPage K V :=
  { p with array_ := store p.array_ p.size_ item, size_ := p.size_ + 1 }

/-- Source: `BPlusTreeInternalPage::CopyFirstFrom`, lines 172-182 (the parent fix-up of the
moved child goes through the buffer pool and is not part of the page state). -/
def CopyFirstFrom (p : BPlusTreeInternalPage K V) (item : K × V) : BPlusTreeInternalPage K V :=
  { p with
    array_ := store (move_backward p.array_ 0 p.size_ (p.size_ + 1)) 0 item,
    size_ := p.size_ + 1 }

/-- Source: `BPlusTreeInternalPage::MoveFirstToEndOf`, lines 144-151.  Returns the donor page
and the recipient (`to` in the source). -/
def MoveFirstToEndOf (p recipient : BPlusTreeInternalPage K V) (mid_key : K) :
    BPlusTreeInternalPage K V × BPlusTreeInternalPage K V :=
  let p1 := p.SetKeyAt 0 mid_key
  ({ p1 with array_ := move_forward p1.array_ 1 p1.size_ 0, size_ := p1.size_ - 1 },
    recipient.CopyLastFrom (p1.array_ 0))

/-- Source: `BPlusTreeInternalPage::MoveLastToFrontOf`, lines 153-159.  Returns the donor page
and the recipient (`to` in the source). -/
def MoveLastToFrontOf (p recipient : BPlusTreeInternalPage K V) (mid_key : K) :
    BPlusTreeInternalPage K V × BPlusTreeInternalPage K V :=
  ({ p with size_ := p.size_ - 1 },
    (recipient.SetKeyAt 0 mid_key).CopyFirstFrom (p.array_ (p.size_ - 1)))

/-- The child page ids in the live slots `0 .. size_ - 1`, in slot order. -/
def children (p : BPlusTreeInternalPage K V) : List V :=
  (List.range p.size_).map (fun i => (p.array_ i).2)

end BPlusTreeInternalPage

/-! ## Concrete inputs -/

/-- A three-way comparator on integer keys. -/
def intComparator (a b : Int) : Int := if a < b then -1 else if a = b then 0 else 1

/-- A page array holding the listed pairs in its leading slots and `(0, 0)` elsewhere. -/
def slotsOf (l : List (Int × Int)) : Nat → Int × Int := fun i => l.getD i (0, 0)

/-- An empty leaf page with room for four entries. -/
def emptyLeaf : BPlusTreeLeafPage Int Int := { size_ := 0, max_size_ := 4, array_ := slotsOf [] }

/-- A leaf page holding the keys 10, 20, 30. -/
def leaf3 : BPlusTreeLeafPage Int Int :=
  { size_ := 3, max_size_ := 4, array_ := slotsOf [(10, 100), (20, 200), (30, 300)] }


/-- An internal page with children 1, 2, 3 and separator keys 10, 20 (slot 0 has no key). -/
def internalNode3 : BPlusTreeInternalPage Int Int :=
  { size_ := 3, max_size_ := 4, array_ := slotsOf [(0, 1), (10, 2), (20, 3)] }

/-- A full internal page of odd capacity 3 with children 1, 2, 3 and separator keys 10, 20. -/
def internalFull3 : BPlusTreeInternalPage Int Int :=
  { size_ := 3, max_size_ := 3, array_ := slotsOf [(0, 1), (10, 2), (20, 3)] }

/-- An empty internal page of capacity 3. -/
def internalEmpty3 : BPlusTreeInternalPage Int Int :=
  { size_ := 0, max_size_ := 3, array_ := slotsOf [] }

/-- An internal page of capacity 4 holding two children 1, 2 and the separator key 10. -/
def internalNode2 : BPlusTreeInternalPage Int Int :=
  { size_ := 2, max_size_ := 4, array_ := slotsOf [(0, 1), (10, 2)] }

/-- An empty internal page of capacity 4. -/
def internalEmpty4 : BPlusTreeInternalPage Int Int :=
  { size_ := 0, max_size_ := 4, array_ := slotsOf [] }

/-- A full internal page of capacity 4 with children 1, 2, 3, 4 and keys 10, 20, 30. -/
def internalFull4 : BPlusTreeInternalPage Int Int :=
  { size_ := 4, max_size_ := 4, array_ := slotsOf [(0, 1), (10, 2), (20, 3), (30, 4)] }

/-- A full leaf page of capacity 4 holding the keys 10, 20, 30, 40. -/
def leafFull4 : BPlusTreeLeafPage Int Int :=
  { size_ := 4, max_size_ := 4,
    array_ := slotsOf [(10, 100), (20, 200), (30, 300), (40, 400)] }

/-! ## Well-formedness predicates -/

/-- The comparator is a three-way comparison for the linear order on keys. -/
structure LawfulComparator {K : Type} [LinearOrder K] (comparator : K → K → Int) : Prop where
  lt_iff : ∀ a b, comparator a b < 0 ↔ a < b
  eq_iff : ∀ a b, comparator a b = 0 ↔ a = b

/-- The keys in the slots `[lo, hi)` are strictly ascending. -/
def KeysAscending {K V : Type} [LinearOrder K] (a : Nat → K × V) (lo hi : Nat) : Prop :=
  ∀ i j, lo ≤ i → i < j → j < hi → (a i).1 < (a j).1


/-! ## LRU-K replacer (`lru_k_replacer.cpp`) -/

/-- Modelled from the spec: the per-frame record stored in `mp_` is declared in the header
`buffer/lru_k_replacer.h`, which is not among the sources.  The code uses its two members:
`list_`, the retained access timestamps (oldest first), and `evictable_`.  A record created by
`mp_[frame_id]` has an empty history and is not evictable. -/
structure FrameRecord where
  list_ : List Nat
  evictable_ : Bool
deriving DecidableEq

/-- The state of the replacer.  `mp_` lists the frame table in the order in which
`for (const auto &i : mp_)` visits it.  `frame_id_t` is a signed integer and `-1` is the
"no frame" value of `Evict`; the counters are `size_t`. -/
structure LRUKReplacer where
  mp_ : List (Int × FrameRecord)
  current_timestamp_ : Nat
  curr_size_ : Nat
  replacer_size_ : Nat
  k_ : Nat
deriving DecidableEq

/-- The number of values of a `size_t`. -/
def SIZE_T_RANGE : Nat := 2 ^ 64

/-- The increment `x++` of a `size_t`. -/
def size_t_inc (x : Nat) : Nat := (x + 1) % SIZE_T_RANGE

/-- The decrement `x--` of a `size_t`. -/
def size_t_dec (x : Nat) : Nat := (x + (SIZE_T_RANGE - 1)) % SIZE_T_RANGE

namespace LRUKReplacer

/-- Source: the constructor, line 17.  Modelled from the spec: the header's member initialisers
start the timestamp counter and the evictable count at zero. -/
def new (num_frames k : Nat) : LRUKReplacer :=
  { mp_ := [], current_timestamp_ := 0, curr_size_ := 0, replacer_size_ := num_frames, k_ := k }

/-- The map lookup `mp_.find(frame_id)`: `none` stands for `mp_.end()`. -/
def find : List (Int × FrameRecord) → Int → Option FrameRecord
  | [], _ => none
  | e :: rest, frame_id => if e.1 = frame_id then some e.2 else find rest frame_id

/-- The map removal `mp_.erase(frame_id)`. -/
def erase (mp : List (Int × FrameRecord)) (frame_id : Int) : List (Int × FrameRecord) :=
  mp.filter (fun e => decide (e.1 ≠ frame_id))

/-- An in-place update of the record stored under `frame_id`. -/
def modify (mp : List (Int × FrameRecord)) (frame_id : Int) (f : FrameRecord → FrameRecord) :
    List (Int × FrameRecord) :=
  mp.map (fun e => if e.1 = frame_id then (e.1, f e.2) else e)

/-- Source: `LRUKReplacer::Judge`, lines 19-29.  Both frames are tracked when `Evict` calls it;
the fall-back record only makes the function total. -/
def Judge (s : LRUKReplacer) (f1 f2 : Int) : Int :=
  let temp1 := (find s.mp_ f1).getD { list_ := [], evictable_ := false }
  let temp2 := (find s.mp_ f2).getD { list_ := [], evictable_ := false }
  if temp1.list_.length < s.k_ ∧ temp2.list_.length = s.k_ then f1
  else if temp1.list_.length = s.k_ ∧ temp2.list_.length < s.k_ then f2
  else if temp1.list_.headD 0 < temp2.list_.headD 0 then f1 else f2

/-- The loop of `Evict`, lines 34-42, over the entries still to visit; the last argument is the
current content of `*frame_id`. -/
def EvictScan (s : LRUKReplacer) : List (Int × FrameRecord) → Int → Int
  | [], frame_id => frame_id
  | i :: rest, frame_id =>
    if i.2.evictable_ then
      if frame_id = -1 then EvictScan s rest i.1
      else EvictScan s rest (Judge s frame_id i.1)
    else EvictScan s rest frame_id

/-- Source: `LRUKReplacer::Evict`, lines 31-49.  Returns the result, the content of `*frame_id`
after the call, and the new state. -/
def Evict (s : LRUKReplacer) : Bool × Int × LRUKReplacer :=
  let frame_id := EvictScan s s.mp_ (-1)
  if frame_id = -1 then (false, frame_id, s)
  else (true, frame_id,
    { s with curr_size_ := size_t_dec s.curr_size_, mp_ := erase s.mp_ frame_id })

/-- Source: `LRUKReplacer::RecordAccess`, lines 51-65.  `pop_front` drops the first timestamp
(`k_ ≥ 1`, so the history is not empty when it is called). -/
def RecordAccess (s : LRUKReplacer) (frame_id : Int) : LRUKReplacer :=
  if (find s.mp_ frame_id).isNone ∧ s.mp_.length = s.replacer_size_ then s
  else
    let mp1 :=
      if (find s.mp_ frame_id).isNone then
        s.mp_ ++ [(frame_id, { list_ := [], evictable_ := false })]
      else s.mp_
    { s with
      mp_ := modify mp1 frame_id (fun r =>
        { r with list_ := (if r.list_.length = s.k_ then r.list_.tail else r.list_)
            ++ [s.current_timestamp_] }),
      current_timestamp_ := size_t_inc s.current_timestamp_ }

/-- Source: `LRUKReplacer::SetEvictable`, lines 67-80. -/
def SetEvictable (s : LRUKReplacer) (frame_id : Int) (set_evictable : Bool) : LRUKReplacer :=
  match find s.mp_ frame_id with
  | none => s
  | some temp =>
    { s with
      curr_size_ :=
        if !temp.evictable_ && set_evictable then size_t_inc s.curr_size_
        else if temp.evictable_ && !set_evictable then size_t_dec s.curr_size_
        else s.curr_size_,
      mp_ := modify s.mp_ frame_id (fun r => { r with evictable_ := set_evictable }) }

/-- Source: `LRUKReplacer::Remove`, lines 82-93. -/
def Remove (s : LRUKReplacer) (frame_id : Int) : LRUKReplacer :=
  match find s.mp_ frame_id with
  | none => s
  | some temp =>
    if !temp.evictable_ then s
    else { s with mp_ := erase s.mp_ frame_id, curr_size_ := size_t_dec s.curr_size_ }

/-- Source: `LRUKReplacer::Size`, line 95. -/
def Size (s : LRUKReplacer) : Nat := s.curr_size_

/-- The states the replacer can be in: freshly constructed, or after one more call.  The last
rule lets the frame table be visited in any other order (a hash map fixes none). -/
inductive Reachable (num_frames k : Nat) : LRUKReplacer → Prop
  | init : Reachable num_frames k (LRUKReplacer.new num_frames k)
  | recordAccess (s : LRUKReplacer) (frame_id : Int) :
      Reachable num_frames k s → Reachable num_frames k (s.RecordAccess frame_id)
  | setEvictable (s : LRUKReplacer) (frame_id : Int) (set_evictable : Bool) :
      Reachable num_frames k s → Reachable num_frames k (s.SetEvictable frame_id set_evictable)
  | evict (s : LRUKReplacer) : Reachable num_frames k s → Reachable num_frames k s.Evict.2.2
  | remove (s : LRUKReplacer) (frame_id : Int) :
      Reachable num_frames k s → Reachable num_frames k (s.Remove frame_id)
  | reorder (s : LRUKReplacer) (mp : List (Int × FrameRecord)) :
      Reachable num_frames k s → mp.Perm s.mp_ → Reachable num_frames k { s with mp_ := mp }

/-- The number of entries of a frame table whose evictable flag is set. -/
def countEvictable (mp : List (Int × FrameRecord)) : Nat :=
  (mp.filter (fun e => e.2.evictable_)).length

/-- The number of tracked frames whose evictable flag is set. -/
def evictableCount (s : LRUKReplacer) : Nat := countEvictable s.mp_

/-- The bookkeeping invariant of the replacer: the counter agrees with the table, the table
holds at most `replacer_size_` frames, and no frame is listed twice. -/
structure CountInv (num_frames k : Nat) (s : LRUKReplacer) : Prop where
  size_eq : s.curr_size_ = countEvictable s.mp_
  len_le : s.mp_.length ≤ s.replacer_size_
  nodup : (s.mp_.map Prod.fst).Nodup
  cap : s.replacer_size_ = num_frames
  kk : s.k_ = k

/-- Every tracked frame retains between 1 and `k` timestamps. -/
def HistInv (k : Nat) (mp : List (Int × FrameRecord)) : Prop :=
  ∀ e ∈ mp, 1 ≤ e.2.list_.length ∧ e.2.list_.length ≤ k

/-- Record `r` is at least as good a victim as record `x`: either `r` has fewer than `k`
timestamps and `x` has exactly `k`, or both are in the same class and the oldest retained
timestamp of `r` is not above that of `x`. -/
def Beats (k : Nat) (r x : FrameRecord) : Prop :=
  (r.list_.length < k ∧ x.list_.length = k) ∨
  ((r.list_.length < k ↔ x.list_.length < k) ∧ r.list_.headD 0 ≤ x.list_.headD 0)

/-- The last `n` elements of a list (the whole list when it is shorter). -/
def mostRecent (n : Nat) (l : List Nat) : List Nat := l.drop (l.length - n)

/-- The access log with the entry of frame `f` replaced. -/
def logSet (log : Int → List Nat) (f : Int) (l : List Nat) : Int → List Nat :=
  fun g => if g = f then l else log g

/-- The access log after `RecordAccess(frame_id)` in state `s`: an ignored call (new frame, table
full) records nothing; any other call appends the timestamp it hands out to the log of the
frame. -/
def logAfterAccess (s : LRUKReplacer) (log : Int → List Nat) (frame_id : Int) : Int → List Nat :=
  if (find s.mp_ frame_id).isNone ∧ s.mp_.length = s.replacer_size_ then log
  else logSet log frame_id (log frame_id ++ [s.current_timestamp_])

/-- The access log restricted to the frames of a table: the log of a frame whose record has
been destroyed starts again from empty. -/
def pruneLog (mp : List (Int × FrameRecord)) (log : Int → List Nat) : Int → List Nat :=
  fun g => if (find mp g).isNone then [] else log g

/-- The reachable states of the replacer together with bookkeeping that is not program state:
the number of `RecordAccess` calls made so far, and for every frame the timestamps of all
accesses recorded for it since its record was last created. -/
inductive ReachableWithLog (num_frames k : Nat) :
    Nat → LRUKReplacer → (Int → List Nat) → Prop
  | init : ReachableWithLog num_frames k 0 (LRUKReplacer.new num_frames k) (fun _ => [])
  | recordAccess (n : Nat) (s : LRUKReplacer) (log : Int → List Nat) (frame_id : Int) :
      ReachableWithLog num_frames k n s log →
      ReachableWithLog num_frames k (n + 1) (s.RecordAccess frame_id)
        (logAfterAccess s log frame_id)
  | setEvictable (n : Nat) (s : LRUKReplacer) (log : Int → List Nat) (frame_id : Int)
      (set_evictable : Bool) :
      ReachableWithLog num_frames k n s log →
      ReachableWithLog num_frames k n (s.SetEvictable frame_id set_evictable) log
  | evict (n : Nat) (s : LRUKReplacer) (log : Int → List Nat) :
      ReachableWithLog num_frames k n s log →
      ReachableWithLog num_frames k n s.Evict.2.2 (pruneLog s.Evict.2.2.mp_ log)
  | remove (n : Nat) (s : LRUKReplacer) (log : Int → List Nat) (frame_id : Int) :
      ReachableWithLog num_frames k n s log →
      ReachableWithLog num_frames k n (s.Remove frame_id) (pruneLog (s.Remove frame_id).mp_ log)
  | reorder (n : Nat) (s : LRUKReplacer) (log : Int → List Nat)
      (mp : List (Int × FrameRecord)) :
      ReachableWithLog num_frames k n s log → mp.Perm s.mp_ →
      ReachableWithLog num_frames k n { s with mp_ := mp } log

/-- The history invariant: the timestamp counter has not passed the number of `RecordAccess`
calls, every logged timestamp is below the counter, frames without a record have an empty log,
every log is strictly increasing, and every record holds the last `k` timestamps of the
non-empty log of its frame. -/
structure LogInv (k n : Nat) (s : LRUKReplacer) (log : Int → List Nat) : Prop where
  kk : s.k_ = k
  ts_le : s.current_timestamp_ ≤ n
  fresh : ∀ g x, x ∈ log g → x < s.current_timestamp_
  untracked : ∀ g, find s.mp_ g = none → log g = []
  sorted : ∀ g, (log g).Pairwise (fun a b => a < b)
  hist : ∀ e ∈ s.mp_, log e.1 ≠ [] ∧ e.2.list_ = mostRecent k (log e.1)

end LRUKReplacer

/-- The replacer scenario of the specification: `k = 2`, capacity 3, accesses to frames
1, 2, 1, 3 in that order, then frames 1, 2, 3 marked evictable. -/
def replacerScenario : LRUKReplacer :=
  ((((((LRUKReplacer.new 3 2).RecordAccess 1).RecordAccess 2).RecordAccess 1).RecordAccess 3
    |>.SetEvictable 1 true).SetEvictable 2 true).SetEvictable 3 true


/-! ## Extendible hash table (`extendible_hash_table.cpp`) -/

/-- Source: the state of `ExtendibleHashTable::Bucket`: the capacity `size_`, the local depth
`depth_` and the entries `list_`. -/
structure Bucket (K V : Type) where
  size_ : Nat
  depth_ : Nat
  list_ : List (K × V)
deriving DecidableEq

namespace Bucket

variable {K V : Type} [DecidableEq K]

/-- Source: the `Bucket` constructor, line 131. -/
def new (array_size depth : Nat) : Bucket K V := { size_ := array_size, depth_ := depth, list_ := [] }

/-- Modelled from the spec: `IsFull` is defined in the header
`container/hash/extendible_hash_table.h`, which is not among the sources; a bucket is full when
it holds as many entries as its fixed capacity. -/
def IsFull (b : Bucket K V) : Bool := b.list_.length == b.size_

/-- The loop of `Bucket::Find` over the entries. -/
def findItem : List (K × V) → K → Option V
  | [], _ => none
  | i :: rest, key => if i.1 = key then some i.2 else findItem rest key

/-- Source: `Bucket::Find`, lines 133-143: `some v` is the result `true` with `v` written to the
output parameter, `none` the result `false`. -/
def Find (b : Bucket K V) (key : K) : Option V := findItem b.list_ key

/-- The loop of `Bucket::Remove`: erase the first entry with the key. -/
def removeItem : List (K × V) → K → Bool × List (K × V)
  | [], _ => (false, [])
  | i :: rest, key =>
    if i.1 = key then (true, rest)
    else ((removeItem rest key).1, i :: (removeItem rest key).2)

/-- Source: `Bucket::Remove`, lines 145-155. -/
def Remove (b : Bucket K V) (key : K) : Bool × Bucket K V :=
  ((removeItem b.list_ key).1, { b with list_ := (removeItem b.list_ key).2 })

/-- The first loop of `Bucket::Insert`: overwrite the value of the first entry with the key. -/
def overwriteItem : List (K × V) → K → V → Bool × List (K × V)
  | [], _, _ => (false, [])
  | i :: rest, key, value =>
    if i.1 = key then (true, (i.1, value) :: rest)
    else ((overwriteItem rest key value).1, i :: (overwriteItem rest key value).2)

/-- Source: `Bucket::Insert`, lines 157-171. -/
def Insert (b : Bucket K V) (key : K) (value : V) : Bool × Bucket K V :=
  if (overwriteItem b.list_ key value).1 then
    (true, { b with list_ := (overwriteItem b.list_ key value).2 })
  else if b.IsFull then (false, b)
  else (true, { b with list_ := b.list_ ++ [(key, value)] })

end Bucket

/-- The state of the table.  A `std::shared_ptr<Bucket>` is the position of the bucket in
`heap`, the list of all buckets allocated so far; `dir_` lists these references slot by slot. -/
structure ExtendibleHashTable (K V : Type) where
  global_depth_ : Nat
  bucket_size_ : Nat
  num_buckets_ : Nat
  dir_ : List Nat
  heap : List (Bucket K V)
deriving DecidableEq

namespace ExtendibleHashTable

variable {K V : Type} [DecidableEq K]

/-- Source: the constructor, lines 24-29. -/
def new (bucket_size : Nat) : ExtendibleHashTable K V :=
  { global_depth_ := 0, bucket_size_ := bucket_size, num_buckets_ := 1, dir_ := [0],
    heap := [Bucket.new bucket_size 0] }

/-- The bucket behind a reference (an empty bucket of capacity 0 for a dangling one, which the
table never holds). -/
def deref (t : ExtendibleHashTable K V) (ref : Nat) : Bucket K V :=
  t.heap.getD ref (Bucket.new 0 0)

/-- Source: `IndexOf`, lines 31-35.  `hash` is `std::hash<K>()`; the mask is computed on
unbounded naturals (the `int` arithmetic of the source is exact for depths below 31). -/
def IndexOf (hash : K → Nat) (t : ExtendibleHashTable K V) (key : K) : Nat :=
  hash key &&& ((1 <<< t.global_depth_) - 1)

/-- Source: `GetLocalDepthInternal`, lines 54-57. -/
def GetLocalDepthInternal (t : ExtendibleHashTable K V) (dir_index : Nat) : Nat :=
  (t.deref (t.dir_.getD dir_index 0)).depth_

/-- Source: `GetNumBucketsInternal`, lines 65-68. -/
def GetNumBucketsInternal (t : ExtendibleHashTable K V) : Nat := t.num_buckets_

/-- Source: `Find`, lines 70-77. -/
def Find (hash : K → Nat) (t : ExtendibleHashTable K V) (key : K) : Option V :=
  (t.deref (t.dir_.getD (IndexOf hash t key) 0)).Find key

/-- Source: `Remove`, lines 79-86.  Returns the result and the new state. -/
def Remove (hash : K → Nat) (t : ExtendibleHashTable K V) (key : K) :
    Bool × ExtendibleHashTable K V :=
  let ref := t.dir_.getD (IndexOf hash t key) 0
  (((t.deref ref).Remove key).1, { t with heap := t.heap.set ref ((t.deref ref).Remove key).2 })

/-- The loop of `RedistributeBucket`, lines 94-100, over the entries of the split bucket; the
state is the pair (new sibling `buc`, split bucket `bucket`).  An entry whose index equals
`pre_index` stays where it is.  For an entry whose index differs, the source calls
`buc->Insert` and then `bucket->Remove(i->first)`, which erases the list node the loop
iterator `i` stands on (line 150), and the loop then evaluates `i++` on the erased node: the
behaviour is undefined, which is the result `none`. -/
def RedistributeLoop (hash : K → Nat) (dep pre_index : Nat) :
    List (K × V) → Bucket K V × Bucket K V → Option (Bucket K V × Bucket K V)
  | [], st => some st
  | i :: rest, st =>
    if hash i.1 &&& ((1 <<< dep) - 1) ≠ pre_index then none
    else RedistributeLoop hash dep pre_index rest st

/-- Source: `RedistributeBucket`, lines 88-102, applied to the bucket behind `ref`.  The new
sibling is allocated at the end of `heap`.  The result is `none` when the behaviour is
undefined: in the loop (see `RedistributeLoop`), or at line 93 when the bucket is empty and
`begin()` is dereferenced (`Insert` calls the function on a full bucket only). -/
def RedistributeBucket (hash : K → Nat) (t : ExtendibleHashTable K V) (ref : Nat) :
    Option (ExtendibleHashTable K V) :=
  let bucket := { t.deref ref with depth_ := (t.deref ref).depth_ + 1 }
  let dep := bucket.depth_
  match bucket.list_ with
  | [] => none
  | first :: _ =>
    let pre_index := hash first.1 &&& ((1 <<< (dep - 1)) - 1)
    (RedistributeLoop hash dep pre_index bucket.list_
        (Bucket.new t.bucket_size_ dep, bucket)).map
      (fun st =>
        { t with
          heap := t.heap.set ref st.2 ++ [st.1],
          dir_ := t.dir_.set (pre_index ||| (1 <<< (dep - 1))) t.heap.length })

end ExtendibleHashTable

/-- What is known of an `Insert` call after a number of iterations of its loop: it has returned
and left the table in a state, or it is still in its loop with the table in a state, or it has
performed an operation whose behaviour is undefined. -/
inductive InsertResult (σ : Type) where
  | returned (t : σ) : InsertResult σ
  | running (t : σ) : InsertResult σ
  | undefined : InsertResult σ
deriving DecidableEq

/-- The table state of a result, when there is one. -/
def InsertResult.state? {σ : Type} : InsertResult σ → Option σ
  | .returned t => some t
  | .running t => some t
  | .undefined => none

namespace ExtendibleHashTable

variable {K V : Type} [DecidableEq K]

/-- Source: the loop of `Insert`, lines 108-124, run for at most the given number of
iterations. -/
def InsertLoop (hash : K → Nat) :
    Nat → ExtendibleHashTable K V → K → V → InsertResult (ExtendibleHashTable K V)
  | 0, t, _, _ => .running t
  | fuel + 1, t, key, value =>
    let index := IndexOf hash t key
    let ref := t.dir_.getD index 0
    if ((t.deref ref).Insert key value).1 then
      .returned { t with heap := t.heap.set ref ((t.deref ref).Insert key value).2 }
    else if GetLocalDepthInternal t index < t.global_depth_ then
      match RedistributeBucket hash t ref with
      | none => .undefined
      | some t2 => InsertLoop hash fuel t2 key value
    else
      match RedistributeBucket hash
          { t with global_depth_ := t.global_depth_ + 1, dir_ := t.dir_ ++ t.dir_ } ref with
      | none => .undefined
      | some t2 => InsertLoop hash fuel t2 key value

/-- The states of a table with the given hash function and bucket capacity that the code
reaches between calls: freshly constructed, after a call of `Remove`, and after a call of
`Insert` that has returned (hence with defined behaviour, after some number of iterations of
its loop). -/
inductive Reachable (hash : K → Nat) (bucket_size : Nat) : ExtendibleHashTable K V → Prop
  | init : Reachable hash bucket_size (ExtendibleHashTable.new bucket_size)
  | insert (t : ExtendibleHashTable K V) (key : K) (value : V) (fuel : Nat)
      (t2 : ExtendibleHashTable K V) :
      Reachable hash bucket_size t →
      InsertLoop hash fuel t key value = InsertResult.returned t2 →
      Reachable hash bucket_size t2
  | remove (t : ExtendibleHashTable K V) (key : K) :
      Reachable hash bucket_size t → Reachable hash bucket_size (Remove hash t key).2

/-- The number of directory slots holding the reference `ref`. -/
def slotCount (t : ExtendibleHashTable K V) (ref : Nat) : Nat := t.dir_.count ref

end ExtendibleHashTable

/-- A run of `Insert` calls, each given at most `fuel` loop iterations: the result of the last
call when all calls before it returned, and of the first call that did not return otherwise. -/
def insertAll (hash : Int → Nat) (fuel : Nat) :
    List (Int × Int) → ExtendibleHashTable Int Int → InsertResult (ExtendibleHashTable Int Int)
  | [], t => .returned t
  | kv :: rest, t =>
    match ExtendibleHashTable.InsertLoop hash fuel t kv.1 kv.2 with
    | .returned t2 => insertAll hash fuel rest t2
    | .running t2 => .running t2
    | .undefined => .undefined

/-- The hash of `std::hash<int>` in libstdc++: the value itself (non-negative keys only). -/
def intHash (key : Int) : Nat := key.toNat

/-- The directory invariant: the directory has `2 ^ global_depth_` slots, every slot holds a
reference to an allocated bucket, and every bucket has the table's capacity, a local depth not
above the global depth and no more entries than its capacity. -/
structure DirInv {K V : Type} (bucket_size : Nat) (t : ExtendibleHashTable K V) : Prop where
  cap : t.bucket_size_ = bucket_size
  dir_len : t.dir_.length = 2 ^ t.global_depth_
  refs : ∀ r ∈ t.dir_, r < t.heap.length
  buckets : ∀ b ∈ t.heap,
    b.size_ = bucket_size ∧ b.depth_ ≤ t.global_depth_ ∧ b.list_.length ≤ bucket_size

/-- The table after `Insert` of the keys 0, 6, 1, 3 (bucket capacity 2, identity hash). -/
def tableFourKeys : ExtendibleHashTable Int Int :=
  ((insertAll intHash 3 [(0, 100), (6, 106), (1, 101), (3, 103)]
    (ExtendibleHashTable.new 2)).state?).getD (ExtendibleHashTable.new 2)

/-- The table after `Insert` of the keys 0, 1, 3, 5, 4 (bucket capacity 1, identity hash). -/
def tableFiveKeys : ExtendibleHashTable Int Int :=
  ((insertAll intHash 3 [(0, 100), (1, 101), (3, 103), (5, 105), (4, 104)]
    (ExtendibleHashTable.new 1)).state?).getD (ExtendibleHashTable.new 1)

/-- Slot 6 refers to bucket 0, which holds key 0 only, has capacity 1 and has the global depth
(at least 3) as its local depth. -/
def StuckOnSlotSix (t : ExtendibleHashTable Int Int) : Prop :=
  3 ≤ t.global_depth_ ∧ t.dir_.length = 2 ^ t.global_depth_ ∧ t.dir_.getD 6 0 = 0 ∧
  t.deref 0 = { size_ := 1, depth_ := t.global_depth_, list_ := [(0, 100)] } ∧
  1 ≤ t.heap.length ∧ t.bucket_size_ = 1

/-- No bucket of the table holds two entries with the same key. -/
def BucketsNodup {K V : Type} (t : ExtendibleHashTable K V) : Prop :=
  ∀ b ∈ t.heap, (b.list_.map Prod.fst).Nodup

/-- A replacer with `k = 2` and capacity 3 after three accesses to frame 1. -/
def ringScenario : LRUKReplacer :=
  (((LRUKReplacer.new 3 2).RecordAccess 1).RecordAccess 1).RecordAccess 1

/-- The access log that goes with `ringScenario`. -/
def ringScenarioLog : Int → List Nat :=
  LRUKReplacer.logAfterAccess (((LRUKReplacer.new 3 2).RecordAccess 1).RecordAccess 1)
    (LRUKReplacer.logAfterAccess ((LRUKReplacer.new 3 2).RecordAccess 1)
      (LRUKReplacer.logAfterAccess (LRUKReplacer.new 3 2) (fun _ => []) 1) 1) 1

/-- The number of distinct buckets referenced by the directory. -/
def ExtendibleHashTable.distinctBuckets {K V : Type} (t : ExtendibleHashTable K V) : Nat :=
  t.dir_.dedup.length

/-- The table after `Insert` of the keys 0, 1 (bucket capacity 1, identity hash). -/
def tableTwoKeys : ExtendibleHashTable Int Int :=
  ((insertAll intHash 2 [(0, 100), (1, 101)] (ExtendibleHashTable.new 1)).state?).getD
    (ExtendibleHashTable.new 1)
/-! ## Facts about the library algorithms -/

theorem lower_bound_loop_spec (lt : Nat → Bool) :
    ∀ (fuel first len : Nat), len ≤ fuel →
      (∀ i j, first ≤ i → i ≤ j → j < first + len → lt j = true → lt i = true) →
      first ≤ lower_bound_loop lt fuel first len ∧
      lower_bound_loop lt fuel first len ≤ first + len ∧
      (∀ i, first ≤ i → i < lower_bound_loop lt fuel first len → lt i = true) ∧
      (∀ i, lower_bound_loop lt fuel first len ≤ i → i < first + len → lt i = false) := by
  intro fuel
  induction fuel with
  | zero =>
    intro first len hlen _
    have h0 : len = 0 := by omega
    subst h0
    refine ⟨le_refl _, le_refl _, ?_, ?_⟩
    · intro i h1 h2
      simp only [lower_bound_loop] at h2
      omega
    · intro i h1 h2
      simp only [lower_bound_loop] at h1
      omega
  | succ fuel ih =>
    intro first len hlen hmono
    by_cases h0 : len = 0
    · subst h0
      simp only [lower_bound_loop, if_true]
      refine ⟨le_refl _, le_refl _, ?_, ?_⟩ <;> intro i h1 h2 <;> omega
    · have hhalf : len / 2 < len := Nat.div_lt_self (Nat.pos_of_ne_zero h0) (by decide)
      by_cases hmid : lt (first + len / 2) = true
      · have hrec := ih (first + len / 2 + 1) (len - len / 2 - 1) (by omega)
          (fun i j h1 h2 h3 h4 => hmono i j (by omega) h2 (by omega) h4)
        have heq : lower_bound_loop lt (fuel + 1) first len
            = lower_bound_loop lt fuel (first + len / 2 + 1) (len - len / 2 - 1) := by
          simp only [lower_bound_loop, if_neg h0, hmid, if_true]
        rw [heq]
        obtain ⟨r1, r2, r3, r4⟩ := hrec
        refine ⟨by omega, by omega, ?_, ?_⟩
        · intro i h1 h2
          by_cases hi : first + len / 2 + 1 ≤ i
          · exact r3 i hi h2
          · exact hmono i (first + len / 2) h1 (by omega) (by omega) hmid
        · intro i h1 h2
          exact r4 i h1 (by omega)
      · have hrec := ih first (len / 2) (by omega)
          (fun i j h1 h2 h3 h4 => hmono i j h1 h2 (by omega) h4)
        have heq : lower_bound_loop lt (fuel + 1) first len
            = lower_bound_loop lt fuel first (len / 2) := by
          simp only [lower_bound_loop, if_neg h0, hmid]
          simp
        rw [heq]
        obtain ⟨r1, r2, r3, r4⟩ := hrec
        refine ⟨r1, by omega, r3, ?_⟩
        intro i h1 h2
        by_cases hi : i < first + len / 2
        · exact r4 i h1 hi
        · cases hv : lt i with
          | false => rfl
          | true =>
            exact absurd (hmono (first + len / 2) i (by omega) (by omega) h2 hv) hmid

/-- On a range where the comparison functor is true on a prefix and false afterwards,
`std::lower_bound` returns the end of that prefix. -/
theorem lower_bound_spec (lt : Nat → Bool) (first last : Nat) (hle : first ≤ last)
    (hmono : ∀ i j, first ≤ i → i ≤ j → j < last → lt j = true → lt i = true) :
    first ≤ lower_bound lt first last ∧ lower_bound lt first last ≤ last ∧
    (∀ i, first ≤ i → i < lower_bound lt first last → lt i = true) ∧
    (∀ i, lower_bound lt first last ≤ i → i < last → lt i = false) := by
  have h := lower_bound_loop_spec lt (last - first) first (last - first) (le_refl _)
    (fun i j h1 h2 h3 h4 => hmono i j h1 h2 (by omega) h4)
  have e : first + (last - first) = last := by omega
  rw [e] at h
  exact h

/-! ## Internal page: `LookUp` and `InsertNodeAfter` -/

/-- The child chosen by the internal `LookUp`: slot `i` is either slot 0 or holds a key not
above the query, and every later live slot holds a key above the query. -/
theorem internal_lookup_eq {K V : Type} [LinearOrder K] (p : BPlusTreeInternalPage K V)
    (comparator : K → K → Int) (hc : LawfulComparator comparator)
    (hasc : KeysAscending p.array_ 1 p.size_) (q : K) (i : Nat) (hi : i < p.size_)
    (hle : i = 0 ∨ (p.array_ i).1 ≤ q)
    (hgt : ∀ j, i < j → j < p.size_ → q < (p.array_ j).1) :
    p.LookUp q comparator = (p.array_ i).2 := by
  have hspec := lower_bound_spec (fun i => decide (comparator (p.array_ i).1 q < 0)) 1 p.size_
    (by omega)
    (by
      intro a b h1 h2 h3 h4
      simp only [decide_eq_true_eq] at h4 ⊢
      rw [hc.lt_iff] at h4 ⊢
      rcases Nat.eq_or_lt_of_le h2 with h | h
      · rw [h]; exact h4
      · exact lt_trans (hasc a b h1 h h3) h4)
  obtain ⟨s1, s2, s3, s4⟩ := hspec
  have hbelow : ∀ j, 1 ≤ j →
      j < lower_bound (fun i => decide (comparator (p.array_ i).1 q < 0)) 1 p.size_ →
      (p.array_ j).1 < q := by
    intro j h1 h2
    have := s3 j h1 h2
    simp only [decide_eq_true_eq] at this
    exact (hc.lt_iff _ _).1 this
  have habove : ∀ j,
      lower_bound (fun i => decide (comparator (p.array_ i).1 q < 0)) 1 p.size_ ≤ j →
      j < p.size_ → q ≤ (p.array_ j).1 := by
    intro j h1 h2
    have := s4 j h1 h2
    simp only [decide_eq_false_iff_not] at this
    rw [hc.lt_iff] at this
    exact not_lt.1 this
  unfold BPlusTreeInternalPage.LookUp
  simp only []
  generalize lower_bound (fun i => decide (comparator (p.array_ i).1 q < 0)) 1 p.size_ = idx
    at s1 s2 hbelow habove
  by_cases h1 : idx = p.size_
  · rw [if_pos h1]
    have : i = p.size_ - 1 := by
      by_contra hne
      have hlt : i < p.size_ - 1 := by omega
      have ha := hgt (p.size_ - 1) hlt (by omega)
      have hb := hbelow (p.size_ - 1) (by omega) (by omega)
      exact lt_asymm ha hb
    rw [this]; rfl
  · rw [if_neg h1]
    have hidx : idx < p.size_ := by omega
    by_cases h2 : comparator (p.array_ idx).1 q = 0
    · rw [if_pos h2]
      have hq : (p.array_ idx).1 = q := (hc.eq_iff _ _).1 h2
      have : i = idx := by
        rcases Nat.lt_trichotomy i idx with h | h | h
        · have := hgt idx h hidx
          rw [hq] at this
          exact absurd this (lt_irrefl _)
        · exact h
        · have hi1 : (p.array_ i).1 ≤ q := by
            rcases hle with h0 | h0
            · omega
            · exact h0
          have := hasc idx i s1 h hi
          rw [hq] at this
          exact absurd (lt_of_lt_of_le this hi1) (lt_irrefl _)
      rw [this]
    · rw [if_neg h2]
      have hq : q < (p.array_ idx).1 := by
        rcases lt_or_eq_of_le (habove idx (le_refl _) hidx) with h | h
        · exact h
        · exact absurd ((hc.eq_iff _ _).2 h.symm) h2
      have : i = idx - 1 := by
        by_contra hne
        rcases Nat.lt_or_ge i idx with h | h
        · have hlt : i < idx - 1 := by omega
          have ha := hgt (idx - 1) hlt (by omega)
          have hb := hbelow (idx - 1) (by omega) (by omega)
          exact lt_asymm ha hb
        · have hi1 : (p.array_ i).1 ≤ q := by
            rcases hle with h0 | h0
            · omega
            · exact h0
          have hge : (p.array_ idx).1 ≤ (p.array_ i).1 := by
            rcases Nat.eq_or_lt_of_le h with e | e
            · rw [e]
            · exact le_of_lt (hasc idx i s1 e hi)
          exact absurd (lt_of_lt_of_le hq (le_trans hge hi1)) (lt_irrefl _)
      rw [this]

/-- The scan of `ValueIndex` stops at the slot holding the value when children are distinct. -/
theorem internal_valueIndexFrom_eq {K V : Type} [DecidableEq V] (p : BPlusTreeInternalPage K V)
    (value : V) (i : Nat) (hv : (p.array_ i).2 = value)
    (hfirst : ∀ j, j < i → (p.array_ j).2 ≠ value) :
    ∀ (n s : Nat), s ≤ i → i < s + n → BPlusTreeInternalPage.ValueIndexFrom p value n s = i := by
  intro n
  induction n with
  | zero => intro s h1 h2; omega
  | succ n ih =>
    intro s h1 h2
    by_cases hs : s = i
    · subst hs
      simp [BPlusTreeInternalPage.ValueIndexFrom, hv]
    · have hne : (p.array_ s).2 ≠ value := hfirst s (by omega)
      simp only [BPlusTreeInternalPage.ValueIndexFrom, if_neg hne]
      exact ih (s + 1) (by omega) (by omega)

/-- The array written by `InsertNodeAfter` when the old child sits in slot `i`. -/
theorem insertNodeAfter_array {α : Type} (a : Nat → α) (i size : Nat) (x : α) (hi : i < size)
    (j : Nat) (hj : j < size + 1) :
    store (move_backward a (i + 1) size (size + 1)) (i + 1) x j
      = if j ≤ i then a j else if j = i + 1 then x else a (j - 1) := by
  unfold store move_backward
  by_cases h1 : j = i + 1
  · simp [h1]
  · by_cases h2 : j ≤ i
    · have h3 : ¬ (size + 1 - (size - (i + 1)) ≤ j ∧ j < size + 1) := by omega
      rw [if_neg h1, if_neg h3, if_pos h2]
    · have h3 : size + 1 - (size - (i + 1)) ≤ j ∧ j < size + 1 := by omega
      have h4 : size - (size + 1 - j) = j - 1 := by omega
      rw [if_neg h1, if_pos h3, if_neg h2, if_neg h1, h4]

/-- With distinct children, `ValueIndex` returns the slot of a child that is present. -/
theorem internal_valueIndex_eq {K V : Type} [DecidableEq V] (p : BPlusTreeInternalPage K V)
    (hdist : ∀ a b, a < p.size_ → b < p.size_ → (p.array_ a).2 = (p.array_ b).2 → a = b)
    (value : V) (i : Nat) (hi : i < p.size_) (hv : (p.array_ i).2 = value) :
    p.ValueIndex value = i := by
  unfold BPlusTreeInternalPage.ValueIndex
  apply internal_valueIndexFrom_eq p value i hv
  · intro j hj hjv
    have := hdist j i (by omega) hi (by rw [hjv, hv])
    omega
  · omega
  · omega

theorem intComparator_lawful : LawfulComparator intComparator := by
  constructor
  · intro a b
    unfold intComparator
    split_ifs with h1 h2
    · simp [h1]
    · simp [h1]
    · simp [h1]
  · intro a b
    unfold intComparator
    split_ifs with h1 h2
    · have : a ≠ b := ne_of_lt h1
      simp [this]
    · simp [h2]
    · simp [h2]

/-- C9. Internal-node `LookUp` on a node of size at least 1 whose keys in slots `[1, size)` are
strictly ascending: it returns the child at the greatest slot `i` in `[1, size)` whose key is
at most the query; when every stored key is above the query (in particular when `size = 1`)
it returns child 0; when every stored key is below the query it returns child `size - 1`. -/
theorem internal_lookup_spec {K V : Type} [LinearOrder K] (p : BPlusTreeInternalPage K V)
    (comparator : K → K → Int) (hc : LawfulComparator comparator) (hsize : 1 ≤ p.size_)
    (hasc : KeysAscending p.array_ 1 p.size_) (q : K) :
    (∀ i, 1 ≤ i → i < p.size_ → p.KeyAt i ≤ q →
        (∀ j, 1 ≤ j → j < p.size_ → p.KeyAt j ≤ q → j ≤ i) →
        p.LookUp q comparator = p.ValueAt i) ∧
    ((∀ j, 1 ≤ j → j < p.size_ → q < p.KeyAt j) → p.LookUp q comparator = p.ValueAt 0) ∧
    ((∀ j, 1 ≤ j → j < p.size_ → p.KeyAt j < q) →
        p.LookUp q comparator = p.ValueAt (p.size_ - 1)) := by
  refine ⟨?_, ?_, ?_⟩
  · intro i h1 h2 h3 h4
    apply internal_lookup_eq p comparator hc hasc q i h2 (Or.inr h3)
    intro j hj1 hj2
    by_contra hn
    have := h4 j (by omega) hj2 (not_lt.1 hn)
    omega
  · intro h
    apply internal_lookup_eq p comparator hc hasc q 0 (by omega) (Or.inl rfl)
    intro j hj1 hj2
    exact h j (by omega) hj2
  · intro h
    apply internal_lookup_eq p comparator hc hasc q (p.size_ - 1) (by omega)
    · by_cases h0 : p.size_ - 1 = 0
      · exact Or.inl h0
      · exact Or.inr (le_of_lt (h (p.size_ - 1) (by omega) (by omega)))
    · intro j hj1 hj2
      omega

/-- C10. `InsertNodeAfter` on an internal node with strictly ascending keys in `[1, size)`,
distinct children and room for one more entry, where `old_child` sits in slot `i` and the new
key lies strictly between the neighbouring keys: the size grows by one (and is returned), the
new pair sits in slot `i + 1`, later entries move one slot to the right, earlier entries stay,
and `LookUp` of the new key returns the new child. -/
theorem internal_insertNodeAfter_lookup {K V : Type} [LinearOrder K] [DecidableEq V]
    (p : BPlusTreeInternalPage K V) (comparator : K → K → Int) (hc : LawfulComparator comparator)
    (hasc : KeysAscending p.array_ 1 p.size_)
    (hdist : ∀ a b, a < p.size_ → b < p.size_ → (p.array_ a).2 = (p.array_ b).2 → a = b)
    (hroom : p.size_ < p.max_size_)
    (old_child : V) (i : Nat) (hi : i < p.size_) (hold : p.ValueAt i = old_child)
    (new_key : K) (new_child : V)
    (hlo : 1 ≤ i → p.KeyAt i < new_key)
    (hhi : i + 1 < p.size_ → new_key < p.KeyAt (i + 1)) :
    (p.InsertNodeAfter old_child new_key new_child).1.size_ = p.size_ + 1 ∧
    (p.InsertNodeAfter old_child new_key new_child).2 = p.size_ + 1 ∧
    (p.InsertNodeAfter old_child new_key new_child).1.size_ ≤ p.max_size_ ∧
    (p.InsertNodeAfter old_child new_key new_child).1.array_ (i + 1) = (new_key, new_child) ∧
    (∀ j, i + 1 ≤ j → j < p.size_ →
      (p.InsertNodeAfter old_child new_key new_child).1.array_ (j + 1) = p.array_ j) ∧
    (∀ j, j ≤ i → (p.InsertNodeAfter old_child new_key new_child).1.array_ j = p.array_ j) ∧
    (p.InsertNodeAfter old_child new_key new_child).1.LookUp new_key comparator = new_child := by
  have hvi : p.ValueIndex old_child = i := internal_valueIndex_eq p hdist old_child i hi hold
  have harr : ∀ j, j < p.size_ + 1 →
      (p.InsertNodeAfter old_child new_key new_child).1.array_ j
        = if j ≤ i then p.array_ j else if j = i + 1 then (new_key, new_child)
          else p.array_ (j - 1) := by
    intro j hj
    simp only [BPlusTreeInternalPage.InsertNodeAfter, hvi]
    exact insertNodeAfter_array p.array_ i p.size_ (new_key, new_child) hi j hj
  have hsz : (p.InsertNodeAfter old_child new_key new_child).1.size_ = p.size_ + 1 := rfl
  have hnew : (p.InsertNodeAfter old_child new_key new_child).1.array_ (i + 1)
      = (new_key, new_child) := by
    rw [harr (i + 1) (by omega)]; simp
  have hkey : ∀ j, 1 ≤ j → j < p.size_ + 1 → j ≠ i + 1 →
      (((p.InsertNodeAfter old_child new_key new_child).1.array_ j).1 < new_key ↔ j ≤ i) := by
    intro j h1 h2 h3
    rw [harr j h2]
    by_cases hji : j ≤ i
    · rw [if_pos hji]
      refine ⟨fun _ => hji, fun _ => ?_⟩
      rcases Nat.eq_or_lt_of_le hji with e | e
      · rw [e]; exact hlo (by omega)
      · exact lt_trans (hasc j i h1 e hi) (hlo (by omega))
    · rw [if_neg hji, if_neg h3]
      refine ⟨fun h => absurd h (not_lt.2 ?_), fun h => absurd h hji⟩
      have hn := hhi (by omega)
      rcases Nat.eq_or_lt_of_le (show i + 1 ≤ j - 1 by omega) with e | e
      · rw [← e]; exact le_of_lt hn
      · exact le_of_lt (lt_trans hn (hasc (i + 1) (j - 1) (by omega) e (by omega)))
  refine ⟨rfl, rfl, ?_, hnew, ?_, ?_, ?_⟩
  · rw [hsz]; omega
  · intro j h1 h2
    rw [harr (j + 1) (by omega)]
    have h3 : ¬ (j + 1 ≤ i) := by omega
    by_cases h4 : j + 1 = i + 1
    · omega
    · rw [if_neg h3, if_neg h4]; rfl
  · intro j h1
    rw [harr j (by omega), if_pos h1]
  · have hgtnew : ∀ j, i + 1 < j → j < p.size_ + 1 →
        new_key < ((p.InsertNodeAfter old_child new_key new_child).1.array_ j).1 := by
      intro j h1 h2
      rw [harr j h2, if_neg (by omega), if_neg (by omega)]
      have hn := hhi (by omega)
      rcases Nat.eq_or_lt_of_le (show i + 1 ≤ j - 1 by omega) with e | e
      · rw [← e]; exact hn
      · exact lt_trans hn (hasc (i + 1) (j - 1) (by omega) e (by omega))
    have hasc2 : KeysAscending (p.InsertNodeAfter old_child new_key new_child).1.array_ 1
        (p.InsertNodeAfter old_child new_key new_child).1.size_ := by
      intro a b h1 h2 h3
      rw [hsz] at h3
      by_cases hb : b = i + 1
      · rw [hb, hnew]
        exact (hkey a h1 (by omega) (by omega)).2 (by omega)
      · by_cases ha : a = i + 1
        · rw [ha, hnew]
          exact hgtnew b (by omega) h3
        · rw [harr a (by omega), harr b h3]
          by_cases hai : a ≤ i
          · by_cases hbi : b ≤ i
            · rw [if_pos hai, if_pos hbi]
              exact hasc a b h1 h2 (by omega)
            · rw [if_pos hai, if_neg hbi, if_neg hb]
              exact hasc a (b - 1) h1 (by omega) (by omega)
          · rw [if_neg hai, if_neg ha, if_neg (by omega), if_neg hb]
            exact hasc (a - 1) (b - 1) (by omega) (by omega) (by omega)
    have hl := internal_lookup_eq (p.InsertNodeAfter old_child new_key new_child).1 comparator hc
      hasc2 new_key (i + 1) (by rw [hsz]; omega) (Or.inr (by rw [hnew]))
      (by intro j h1 h2; rw [hsz] at h2; exact hgtnew j h1 h2)
    rw [hl, hnew]

theorem internalNode3_ascending : KeysAscending internalNode3.array_ 1 internalNode3.size_ := by
  intro i j h1 h2 h3
  have h3 : j < 3 := h3
  have hi : i = 1 := by omega
  have hj : j = 2 := by omega
  subst hi hj
  decide

theorem internalNode3_distinct : ∀ a b, a < internalNode3.size_ → b < internalNode3.size_ →
    (internalNode3.array_ a).2 = (internalNode3.array_ b).2 → a = b := by
  intro a b ha hb
  have ha : a < 3 := ha
  have hb : b < 3 := hb
  interval_cases a <;> interval_cases b <;> decide

/-- Witness for C9: in the node with keys 10, 20 the query 15 is routed to the child of key 10. -/
theorem internal_lookup_spec_witness :
    1 ≤ internalNode3.size_ ∧ KeysAscending internalNode3.array_ 1 internalNode3.size_ ∧
    internalNode3.LookUp 15 intComparator = 2 :=
  ⟨by decide, internalNode3_ascending,
    (internal_lookup_spec internalNode3 intComparator intComparator_lawful (by decide)
      internalNode3_ascending 15).1 1 (by decide) (by decide) (by decide)
      (by
        intro j h1 h2 h3
        have h2 : j < 3 := h2
        interval_cases j
        · exact le_refl _
        · exact absurd h3 (by decide))⟩

/-- Witness for C10: inserting `(15, 9)` after child 2 of the node with keys 10, 20. -/
theorem internal_insertNodeAfter_lookup_witness :
    (internalNode3.InsertNodeAfter 2 15 9).1.size_ = 4 ∧
    (internalNode3.InsertNodeAfter 2 15 9).1.array_ 2 = (15, 9) ∧
    (internalNode3.InsertNodeAfter 2 15 9).1.LookUp 15 intComparator = 9 :=
  have h := internal_insertNodeAfter_lookup internalNode3 intComparator intComparator_lawful
    internalNode3_ascending internalNode3_distinct (by decide) 2 1 (by decide) (by decide) 15 9
    (by intro _; decide) (by intro _; decide)
  ⟨h.1, h.2.2.2.1, h.2.2.2.2.2.2⟩

/-! ## Leaf page: `LookUp` and `RemoveAndDeleteRecord` test the comparator result with `!` -/

/-- C2 (defect in the code). After `Insert(5, 50)` into an empty leaf the pair is stored in slot
0 and the size is 1, yet `LookUp(5)` reports not-found and leaves the output cell untouched,
while `LookUp(3)`, a key that is absent, reports found and yields 50. -/
theorem leaf_lookup_after_insert_not_found :
    (emptyLeaf.Insert 5 50 intComparator).2 = 1 ∧
    (emptyLeaf.Insert 5 50 intComparator).1.array_ 0 = (5, 50) ∧
    (emptyLeaf.Insert 5 50 intComparator).1.LookUp 5 0 intComparator = (false, 0) ∧
    (emptyLeaf.Insert 5 50 intComparator).1.LookUp 3 0 intComparator = (true, 50) := by
  decide

/-- C6 (defect in the code). On the leaf with keys 10, 20, 30: `RemoveAndDeleteRecord(20)`
returns 3 and leaves all three entries in place although 20 is present;
`RemoveAndDeleteRecord(15)` returns 2 and drops the entry of key 20 although 15 is absent. -/
theorem leaf_remove_present_key_kept_absent_key_removes_neighbour :
    (leaf3.RemoveAndDeleteRecord 20 intComparator).2 = 3 ∧
    (leaf3.RemoveAndDeleteRecord 20 intComparator).1.size_ = 3 ∧
    (leaf3.RemoveAndDeleteRecord 20 intComparator).1.array_ 1 = (20, 200) ∧
    (leaf3.RemoveAndDeleteRecord 15 intComparator).2 = 2 ∧
    (leaf3.RemoveAndDeleteRecord 15 intComparator).1.size_ = 2 ∧
    (leaf3.RemoveAndDeleteRecord 15 intComparator).1.array_ 0 = (10, 100) ∧
    (leaf3.RemoveAndDeleteRecord 15 intComparator).1.array_ 1 = (30, 300) := by
  decide

/-! ## Replacer: frame-table lemmas -/

theorem replacer_find_some_mem (mp : List (Int × FrameRecord)) (f : Int) (r : FrameRecord)
    (h : LRUKReplacer.find mp f = some r) : (f, r) ∈ mp := by
  induction mp with
  | nil => simp [LRUKReplacer.find] at h
  | cons e rest ih =>
    simp only [LRUKReplacer.find] at h
    by_cases he : e.1 = f
    · rw [if_pos he] at h
      have : e = (f, r) := by
        cases e
        simp only [Option.some.injEq] at h
        simp only at he
        rw [he, h]
      rw [this]
      exact List.mem_cons_self _ _
    · rw [if_neg he] at h
      exact List.mem_cons_of_mem _ (ih h)

theorem replacer_find_none_iff (mp : List (Int × FrameRecord)) (f : Int) :
    LRUKReplacer.find mp f = none ↔ f ∉ mp.map Prod.fst := by
  induction mp with
  | nil => simp [LRUKReplacer.find]
  | cons e rest ih =>
    simp only [LRUKReplacer.find, List.map_cons, List.mem_cons, not_or]
    by_cases he : e.1 = f
    · rw [if_pos he]
      simp [he]
    · rw [if_neg he, ih]
      constructor
      · intro h; exact ⟨fun h2 => he h2.symm, h⟩
      · intro h; exact h.2

theorem replacer_find_of_mem (mp : List (Int × FrameRecord)) (hnd : (mp.map Prod.fst).Nodup)
    (e : Int × FrameRecord) (he : e ∈ mp) : LRUKReplacer.find mp e.1 = some e.2 := by
  induction mp with
  | nil => simp at he
  | cons a rest ih =>
    simp only [List.map_cons, List.nodup_cons] at hnd
    simp only [LRUKReplacer.find]
    rcases List.mem_cons.1 he with h | h
    · rw [h]; simp
    · have hne : a.1 ≠ e.1 := by
        intro heq
        apply hnd.1
        rw [heq]
        exact List.mem_map_of_mem _ h
      rw [if_neg hne]
      exact ih hnd.2 h

theorem replacer_modify_keys (mp : List (Int × FrameRecord)) (f : Int)
    (g : FrameRecord → FrameRecord) :
    (LRUKReplacer.modify mp f g).map Prod.fst = mp.map Prod.fst := by
  unfold LRUKReplacer.modify
  rw [List.map_map]
  apply List.map_congr_left
  intro e _
  simp only [Function.comp]
  split_ifs <;> rfl

theorem replacer_modify_absent (mp : List (Int × FrameRecord)) (f : Int)
    (g : FrameRecord → FrameRecord) (h : f ∉ mp.map Prod.fst) :
    LRUKReplacer.modify mp f g = mp := by
  unfold LRUKReplacer.modify
  conv_rhs => rw [← List.map_id mp]
  apply List.map_congr_left
  intro e he
  have : e.1 ≠ f := by
    intro heq
    apply h
    rw [← heq]
    exact List.mem_map_of_mem _ he
  simp [this]

theorem replacer_erase_absent (mp : List (Int × FrameRecord)) (f : Int)
    (h : f ∉ mp.map Prod.fst) : LRUKReplacer.erase mp f = mp := by
  unfold LRUKReplacer.erase
  rw [List.filter_eq_self]
  intro e he
  have : e.1 ≠ f := by
    intro heq
    apply h
    rw [← heq]
    exact List.mem_map_of_mem _ he
  simp [this]

theorem replacer_count_cons (e : Int × FrameRecord) (rest : List (Int × FrameRecord)) :
    LRUKReplacer.countEvictable (e :: rest)
      = (if e.2.evictable_ = true then 1 else 0) + LRUKReplacer.countEvictable rest := by
  unfold LRUKReplacer.countEvictable
  by_cases h : e.2.evictable_ = true
  · simp [List.filter_cons, h]; omega
  · simp [List.filter_cons, h]

theorem replacer_count_le_length (mp : List (Int × FrameRecord)) :
    LRUKReplacer.countEvictable mp ≤ mp.length := by
  unfold LRUKReplacer.countEvictable
  exact List.length_filter_le _ _

theorem replacer_count_modify_same (mp : List (Int × FrameRecord)) (f : Int)
    (g : FrameRecord → FrameRecord) (hg : ∀ r, (g r).evictable_ = r.evictable_) :
    LRUKReplacer.countEvictable (LRUKReplacer.modify mp f g) = LRUKReplacer.countEvictable mp := by
  induction mp with
  | nil => rfl
  | cons e rest ih =>
    have hm : LRUKReplacer.modify (e :: rest) f g
        = (if e.1 = f then (e.1, g e.2) else e) :: LRUKReplacer.modify rest f g := rfl
    rw [hm, replacer_count_cons, replacer_count_cons, ih]
    by_cases he : e.1 = f
    · simp [he, hg]
    · simp [he]

theorem replacer_count_set (mp : List (Int × FrameRecord)) (hnd : (mp.map Prod.fst).Nodup)
    (f : Int) (b : Bool) (temp : FrameRecord) (hf : LRUKReplacer.find mp f = some temp) :
    LRUKReplacer.countEvictable
        (LRUKReplacer.modify mp f (fun r => { r with evictable_ := b }))
      + (if temp.evictable_ = true then 1 else 0)
      = LRUKReplacer.countEvictable mp + (if b = true then 1 else 0) := by
  induction mp with
  | nil => simp [LRUKReplacer.find] at hf
  | cons e rest ih =>
    simp only [List.map_cons, List.nodup_cons] at hnd
    have hm : LRUKReplacer.modify (e :: rest) f (fun r => { r with evictable_ := b })
        = (if e.1 = f then (e.1, { e.2 with evictable_ := b }) else e)
          :: LRUKReplacer.modify rest f (fun r => { r with evictable_ := b }) := rfl
    rw [hm, replacer_count_cons, replacer_count_cons]
    simp only [LRUKReplacer.find] at hf
    by_cases he : e.1 = f
    · rw [if_pos he] at hf
      have ht : e.2 = temp := by simpa using hf
      rw [replacer_modify_absent rest f _ (by rw [← he]; exact hnd.1), if_pos he, ← ht]
      simp only []
      omega
    · rw [if_neg he] at hf
      rw [if_neg he]
      have := ih hnd.2 hf
      omega

theorem replacer_count_erase (mp : List (Int × FrameRecord)) (hnd : (mp.map Prod.fst).Nodup)
    (f : Int) (temp : FrameRecord) (hf : LRUKReplacer.find mp f = some temp) :
    LRUKReplacer.countEvictable (LRUKReplacer.erase mp f)
      + (if temp.evictable_ = true then 1 else 0)
      = LRUKReplacer.countEvictable mp := by
  induction mp with
  | nil => simp [LRUKReplacer.find] at hf
  | cons e rest ih =>
    simp only [List.map_cons, List.nodup_cons] at hnd
    simp only [LRUKReplacer.find] at hf
    by_cases he : e.1 = f
    · rw [if_pos he] at hf
      have ht : e.2 = temp := by simpa using hf
      have hm : LRUKReplacer.erase (e :: rest) f = LRUKReplacer.erase rest f := by
        simp [LRUKReplacer.erase, List.filter_cons, he]
      rw [hm, replacer_erase_absent rest f (by rw [← he]; exact hnd.1), replacer_count_cons, ht]
      omega
    · rw [if_neg he] at hf
      have hm : LRUKReplacer.erase (e :: rest) f = e :: LRUKReplacer.erase rest f := by
        simp [LRUKReplacer.erase, List.filter_cons, he]
      rw [hm, replacer_count_cons, replacer_count_cons]
      have := ih hnd.2 hf
      omega

theorem replacer_erase_nodup (mp : List (Int × FrameRecord)) (hnd : (mp.map Prod.fst).Nodup)
    (f : Int) : ((LRUKReplacer.erase mp f).map Prod.fst).Nodup := by
  unfold LRUKReplacer.erase
  exact (List.filter_sublist _).map Prod.fst |>.nodup hnd

theorem replacer_erase_length (mp : List (Int × FrameRecord)) (f : Int) :
    (LRUKReplacer.erase mp f).length ≤ mp.length := by
  unfold LRUKReplacer.erase
  exact List.length_filter_le _ _

theorem size_t_inc_eq (x : Nat) (h : x + 1 < SIZE_T_RANGE) : size_t_inc x = x + 1 := by
  unfold size_t_inc
  exact Nat.mod_eq_of_lt h

theorem size_t_dec_eq (x : Nat) (h1 : 1 ≤ x) (h2 : x < SIZE_T_RANGE) : size_t_dec x = x - 1 := by
  unfold size_t_dec
  have hpos : 1 ≤ SIZE_T_RANGE := by unfold SIZE_T_RANGE; norm_num
  have e : x + (SIZE_T_RANGE - 1) = (x - 1) + SIZE_T_RANGE := by omega
  rw [e, Nat.add_mod_right]
  exact Nat.mod_eq_of_lt (by omega)

theorem replacer_judge_cases (s : LRUKReplacer) (f1 f2 : Int) :
    s.Judge f1 f2 = f1 ∨ s.Judge f1 f2 = f2 := by
  unfold LRUKReplacer.Judge
  simp only []
  split_ifs <;> simp

/-- The loop of `Evict` leaves in `*frame_id` either its initial content or the id of an
evictable entry it visited. -/
theorem replacer_evictScan_cases (s : LRUKReplacer) (l : List (Int × FrameRecord)) :
    ∀ fid : Int, s.EvictScan l fid = fid ∨
      ∃ e ∈ l, e.2.evictable_ = true ∧ e.1 = s.EvictScan l fid := by
  induction l with
  | nil => intro fid; left; rfl
  | cons i rest ih =>
    intro fid
    simp only [LRUKReplacer.EvictScan]
    by_cases hev : i.2.evictable_ = true
    · rw [if_pos hev]
      by_cases hfid : fid = -1
      · rw [if_pos hfid]
        rcases ih i.1 with h | ⟨e, he, h1, h2⟩
        · right; exact ⟨i, List.mem_cons_self _ _, hev, h.symm⟩
        · right; exact ⟨e, List.mem_cons_of_mem _ he, h1, h2⟩
      · rw [if_neg hfid]
        rcases ih (s.Judge fid i.1) with h | ⟨e, he, h1, h2⟩
        · rcases replacer_judge_cases s fid i.1 with hj | hj
          · left; rw [h, hj]
          · right; exact ⟨i, List.mem_cons_self _ _, hev, by rw [h, hj]⟩
        · right; exact ⟨e, List.mem_cons_of_mem _ he, h1, h2⟩
    · rw [if_neg hev]
      rcases ih fid with h | ⟨e, he, h1, h2⟩
      · left; exact h
      · right; exact ⟨e, List.mem_cons_of_mem _ he, h1, h2⟩

/-! ## Replacer: the bookkeeping invariant -/

theorem replacer_countInv_recordAccess (num_frames k : Nat) (s : LRUKReplacer)
    (h : LRUKReplacer.CountInv num_frames k s) (f : Int) :
    LRUKReplacer.CountInv num_frames k (s.RecordAccess f) := by
  unfold LRUKReplacer.RecordAccess
  by_cases hfull : (LRUKReplacer.find s.mp_ f).isNone ∧ s.mp_.length = s.replacer_size_
  · rw [if_pos hfull]; exact h
  · rw [if_neg hfull]
    by_cases hnone : (LRUKReplacer.find s.mp_ f).isNone = true
    · have hlen : s.mp_.length ≠ s.replacer_size_ := fun e => hfull ⟨hnone, e⟩
      have habs : f ∉ s.mp_.map Prod.fst :=
        (replacer_find_none_iff s.mp_ f).1 (Option.isNone_iff_eq_none.1 hnone)
      simp only [hnone, if_true]
      constructor
      · simp only []
        rw [replacer_count_modify_same]
        swap
        · intro r; rfl
        unfold LRUKReplacer.countEvictable
        rw [List.filter_append]
        simp only [List.length_append]
        have := h.size_eq
        unfold LRUKReplacer.countEvictable at this
        simp [this]
      · simp only [LRUKReplacer.modify, List.length_map, List.length_append, List.length_singleton]
        have := h.len_le
        omega
      · simp only []
        rw [replacer_modify_keys, List.map_append]
        simp only [List.map_cons, List.map_nil]
        rw [List.nodup_append]
        refine ⟨h.nodup, List.nodup_singleton _, ?_⟩
        intro a ha hb
        rw [List.mem_singleton] at hb
        rw [hb] at ha
        exact habs ha
      · exact h.cap
      · exact h.kk
    · simp only [hnone, Bool.false_eq_true, if_false]
      constructor
      · simp only []
        rw [replacer_count_modify_same]
        swap
        · intro r; rfl
        exact h.size_eq
      · simp only [LRUKReplacer.modify, List.length_map]
        exact h.len_le
      · simp only []
        rw [replacer_modify_keys]
        exact h.nodup
      · exact h.cap
      · exact h.kk

theorem replacer_countInv_setEvictable (num_frames k : Nat) (hn : num_frames < SIZE_T_RANGE)
    (s : LRUKReplacer) (h : LRUKReplacer.CountInv num_frames k s) (f : Int) (b : Bool) :
    LRUKReplacer.CountInv num_frames k (s.SetEvictable f b) := by
  unfold LRUKReplacer.SetEvictable
  cases hf : LRUKReplacer.find s.mp_ f with
  | none => exact h
  | some temp =>
    simp only []
    have hcnt := replacer_count_set s.mp_ h.nodup f b temp hf
    have hle := replacer_count_le_length
      (LRUKReplacer.modify s.mp_ f (fun r => { r with evictable_ := b }))
    have hle0 := replacer_count_le_length s.mp_
    have hlen : (LRUKReplacer.modify s.mp_ f (fun r => { r with evictable_ := b })).length
        = s.mp_.length := by simp [LRUKReplacer.modify]
    have h1 := h.len_le
    have h2 := h.cap
    have h3 := h.size_eq
    constructor
    · simp only []
      cases hte : temp.evictable_ <;> cases b
      · simp only [hte] at hcnt ⊢
        simp at hcnt ⊢
        omega
      · simp only [hte] at hcnt ⊢
        simp at hcnt ⊢
        rw [size_t_inc_eq _ (by omega)]
        omega
      · simp only [hte] at hcnt ⊢
        simp at hcnt ⊢
        rw [size_t_dec_eq _ (by omega) (by omega)]
        omega
      · simp only [hte] at hcnt ⊢
        simp at hcnt ⊢
        omega
    · simp only []
      rw [hlen]; exact h1
    · simp only []
      rw [replacer_modify_keys]; exact h.nodup
    · exact h.cap
    · exact h.kk

theorem replacer_countInv_eraseEvictable (num_frames k : Nat) (hn : num_frames < SIZE_T_RANGE)
    (s : LRUKReplacer) (h : LRUKReplacer.CountInv num_frames k s) (f : Int) (temp : FrameRecord)
    (hf : LRUKReplacer.find s.mp_ f = some temp) (hev : temp.evictable_ = true) :
    LRUKReplacer.CountInv num_frames k
      { s with curr_size_ := size_t_dec s.curr_size_, mp_ := LRUKReplacer.erase s.mp_ f } := by
  have hcnt := replacer_count_erase s.mp_ h.nodup f temp hf
  rw [if_pos hev] at hcnt
  have hle0 := replacer_count_le_length s.mp_
  have h1 := h.len_le
  have h2 := h.cap
  have h3 := h.size_eq
  constructor
  · simp only []
    rw [size_t_dec_eq _ (by omega) (by omega)]
    omega
  · simp only []
    exact le_trans (replacer_erase_length _ _) h1
  · exact replacer_erase_nodup _ h.nodup _
  · exact h.cap
  · exact h.kk

theorem replacer_countInv_evict (num_frames k : Nat) (hn : num_frames < SIZE_T_RANGE)
    (s : LRUKReplacer) (h : LRUKReplacer.CountInv num_frames k s) :
    LRUKReplacer.CountInv num_frames k s.Evict.2.2 := by
  unfold LRUKReplacer.Evict
  simp only []
  by_cases hfid : s.EvictScan s.mp_ (-1) = -1
  · rw [if_pos hfid]; exact h
  · rw [if_neg hfid]
    rcases replacer_evictScan_cases s s.mp_ (-1) with h0 | ⟨e, he, hev, hid⟩
    · exact absurd h0 hfid
    · have hf := replacer_find_of_mem s.mp_ h.nodup e he
      rw [hid] at hf
      exact replacer_countInv_eraseEvictable num_frames k hn s h _ e.2 hf hev

theorem replacer_countInv_remove (num_frames k : Nat) (hn : num_frames < SIZE_T_RANGE)
    (s : LRUKReplacer) (h : LRUKReplacer.CountInv num_frames k s) (f : Int) :
    LRUKReplacer.CountInv num_frames k (s.Remove f) := by
  unfold LRUKReplacer.Remove
  cases hf : LRUKReplacer.find s.mp_ f with
  | none => exact h
  | some temp =>
    simp only []
    cases hev : temp.evictable_ with
    | false => simpa using h
    | true =>
      simp only [Bool.not_true, Bool.false_eq_true, if_false]
      have := replacer_countInv_eraseEvictable num_frames k hn s h f temp hf hev
      exact this

theorem replacer_countInv_reachable (num_frames k : Nat) (hn : num_frames < SIZE_T_RANGE)
    (s : LRUKReplacer) (hr : LRUKReplacer.Reachable num_frames k s) :
    LRUKReplacer.CountInv num_frames k s := by
  induction hr with
  | init => exact ⟨rfl, Nat.zero_le _, List.nodup_nil, rfl, rfl⟩
  | recordAccess s f _ ih => exact replacer_countInv_recordAccess num_frames k s ih f
  | setEvictable s f b _ ih => exact replacer_countInv_setEvictable num_frames k hn s ih f b
  | evict s _ ih => exact replacer_countInv_evict num_frames k hn s ih
  | remove s f _ ih => exact replacer_countInv_remove num_frames k hn s ih f
  | reorder s mp _ hp ih =>
    constructor
    · simp only []
      rw [ih.size_eq]
      unfold LRUKReplacer.countEvictable
      exact ((hp.filter _).length_eq).symm
    · simp only []
      rw [hp.length_eq]; exact ih.len_le
    · simp only []
      exact ((hp.map Prod.fst).nodup_iff).2 ih.nodup
    · exact ih.cap
    · exact ih.kk

/-- C3. Starting from a freshly constructed replacer (`k ≥ 1`, capacity a `size_t`), after every
finite sequence of `RecordAccess`, `SetEvictable`, `Evict` and `Remove` calls, in whatever order
the frame table is kept, `Size()` equals the number of tracked frames whose evictable flag is
set. -/
theorem replacer_size_eq_evictable_count (num_frames k : Nat) (_hk : 1 ≤ k)
    (hn : num_frames < SIZE_T_RANGE) (s : LRUKReplacer)
    (hr : LRUKReplacer.Reachable num_frames k s) : s.Size = s.evictableCount :=
  (replacer_countInv_reachable num_frames k hn s hr).size_eq

/-! ## Replacer: history lengths and victim selection -/

theorem replacer_histInv_reachable (num_frames k : Nat) (hk : 1 ≤ k) (s : LRUKReplacer)
    (hr : LRUKReplacer.Reachable num_frames k s) :
    s.k_ = k ∧ LRUKReplacer.HistInv k s.mp_ := by
  induction hr with
  | init => exact ⟨rfl, by intro e he; simp [LRUKReplacer.new] at he⟩
  | recordAccess s f _ ih =>
    obtain ⟨hkk, hh⟩ := ih
    unfold LRUKReplacer.RecordAccess
    split_ifs with h1 h2
    · exact ⟨hkk, hh⟩
    · refine ⟨hkk, ?_⟩
      intro e he
      simp only [LRUKReplacer.modify, List.mem_map] at he
      obtain ⟨e0, he0, heq⟩ := he
      have hlen0 : e0.2.list_.length ≤ k ∧ (e0.1 ≠ f → 1 ≤ e0.2.list_.length) := by
        rcases List.mem_append.1 he0 with hm | hm
        · exact ⟨(hh e0 hm).2, fun _ => (hh e0 hm).1⟩
        · rw [List.mem_singleton] at hm
          rw [hm]
          exact ⟨Nat.zero_le _, fun hne => absurd rfl hne⟩
      by_cases hef : e0.1 = f
      · rw [if_pos hef] at heq
        rw [← heq]
        simp only [List.length_append, List.length_singleton]
        split_ifs with hl
        · rw [List.length_tail]; omega
        · omega
      · rw [if_neg hef] at heq
        rw [← heq]
        exact ⟨hlen0.2 hef, hlen0.1⟩
    · refine ⟨hkk, ?_⟩
      intro e he
      simp only [LRUKReplacer.modify, List.mem_map] at he
      obtain ⟨e0, he0, heq⟩ := he
      have hb := hh e0 he0
      by_cases hef : e0.1 = f
      · rw [if_pos hef] at heq
        rw [← heq]
        simp only [List.length_append, List.length_singleton]
        split_ifs with hl
        · rw [List.length_tail]; omega
        · omega
      · rw [if_neg hef] at heq
        rw [← heq]
        exact hb
  | setEvictable s f b _ ih =>
    obtain ⟨hkk, hh⟩ := ih
    unfold LRUKReplacer.SetEvictable
    cases hf : LRUKReplacer.find s.mp_ f with
    | none => exact ⟨hkk, hh⟩
    | some temp =>
      refine ⟨hkk, ?_⟩
      intro e he
      simp only [LRUKReplacer.modify, List.mem_map] at he
      obtain ⟨e0, he0, heq⟩ := he
      have hb := hh e0 he0
      by_cases hef : e0.1 = f
      · rw [if_pos hef] at heq
        rw [← heq]
        exact hb
      · rw [if_neg hef] at heq
        rw [← heq]
        exact hb
  | evict s _ ih =>
    obtain ⟨hkk, hh⟩ := ih
    unfold LRUKReplacer.Evict
    simp only []
    split_ifs with h1
    · exact ⟨hkk, hh⟩
    · refine ⟨hkk, ?_⟩
      intro e he
      exact hh e (List.mem_of_mem_filter he)
  | remove s f _ ih =>
    obtain ⟨hkk, hh⟩ := ih
    unfold LRUKReplacer.Remove
    cases hf : LRUKReplacer.find s.mp_ f with
    | none => exact ⟨hkk, hh⟩
    | some temp =>
      simp only []
      split_ifs with h1
      · exact ⟨hkk, hh⟩
      · refine ⟨hkk, ?_⟩
        intro e he
        exact hh e (List.mem_of_mem_filter he)
  | reorder s mp _ hp ih =>
    obtain ⟨hkk, hh⟩ := ih
    exact ⟨hkk, fun e he => hh e (hp.mem_iff.1 he)⟩

theorem replacer_beats_refl (k : Nat) (r : FrameRecord) : LRUKReplacer.Beats k r r :=
  Or.inr ⟨Iff.rfl, le_refl _⟩

theorem replacer_beats_trans (k : Nat) (r x y : FrameRecord) (hy : y.list_.length ≤ k)
    (h1 : LRUKReplacer.Beats k r x) (h2 : LRUKReplacer.Beats k x y) :
    LRUKReplacer.Beats k r y := by
  unfold LRUKReplacer.Beats at *
  rcases h1 with ⟨a1, a2⟩ | ⟨a1, a2⟩
  · rcases h2 with ⟨b1, b2⟩ | ⟨b1, b2⟩
    · omega
    · left
      refine ⟨a1, ?_⟩
      have : ¬ y.list_.length < k := fun h => by have := b1.2 h; omega
      omega
  · rcases h2 with ⟨b1, b2⟩ | ⟨b1, b2⟩
    · left; exact ⟨a1.2 b1, b2⟩
    · right; exact ⟨a1.trans b1, le_trans a2 b2⟩

/-- The frame returned by `Judge` is one of its two frames, and it is at least as good a victim as
both. -/
theorem replacer_judge_beats (s : LRUKReplacer) (k : Nat) (hkk : s.k_ = k)
    (hnd : (s.mp_.map Prod.fst).Nodup) (hh : LRUKReplacer.HistInv k s.mp_)
    (a b : Int × FrameRecord) (ha : a ∈ s.mp_) (hb : b ∈ s.mp_) :
    (s.Judge a.1 b.1 = a.1 ∧ LRUKReplacer.Beats k a.2 b.2) ∨
    (s.Judge a.1 b.1 = b.1 ∧ LRUKReplacer.Beats k b.2 a.2) := by
  unfold LRUKReplacer.Judge
  rw [replacer_find_of_mem s.mp_ hnd a ha, replacer_find_of_mem s.mp_ hnd b hb, hkk]
  simp only [Option.getD_some]
  have la := (hh a ha).2
  have lb := (hh b hb).2
  unfold LRUKReplacer.Beats
  split_ifs with h1 h2 h3
  · left; exact ⟨rfl, Or.inl h1⟩
  · right; exact ⟨rfl, Or.inl ⟨h2.2, h2.1⟩⟩
  · left
    refine ⟨rfl, Or.inr ⟨?_, le_of_lt h3⟩⟩
    constructor <;> intro h <;> omega
  · right
    refine ⟨rfl, Or.inr ⟨?_, not_lt.1 h3⟩⟩
    constructor <;> intro h <;> omega

/-- The loop of `Evict` started with a candidate: it ends with a tracked evictable frame that is
at least as good a victim as the candidate and as every evictable entry it visited. -/
theorem replacer_evictScan_from (s : LRUKReplacer) (k : Nat) (hkk : s.k_ = k)
    (hnd : (s.mp_.map Prod.fst).Nodup) (hh : LRUKReplacer.HistInv k s.mp_)
    (hids : ∀ e ∈ s.mp_, 0 ≤ e.1) (l : List (Int × FrameRecord)) (hl : ∀ e ∈ l, e ∈ s.mp_) :
    ∀ c0, c0 ∈ s.mp_ → c0.2.evictable_ = true →
      ∃ c ∈ s.mp_, c.1 = s.EvictScan l c0.1 ∧ c.2.evictable_ = true ∧
        LRUKReplacer.Beats k c.2 c0.2 ∧
        ∀ x ∈ l, x.2.evictable_ = true → LRUKReplacer.Beats k c.2 x.2 := by
  induction l with
  | nil =>
    intro c0 h0 hev
    exact ⟨c0, h0, rfl, hev, replacer_beats_refl k _, by intro x hx; simp at hx⟩
  | cons i rest ih =>
    intro c0 h0 hev
    have hi : i ∈ s.mp_ := hl i (List.mem_cons_self _ _)
    have hrest : ∀ e ∈ rest, e ∈ s.mp_ := fun e he => hl e (List.mem_cons_of_mem _ he)
    simp only [LRUKReplacer.EvictScan]
    by_cases hiev : i.2.evictable_ = true
    · have hne : c0.1 ≠ -1 := by have := hids c0 h0; omega
      rw [if_pos hiev, if_neg hne]
      rcases replacer_judge_beats s k hkk hnd hh c0 i h0 hi with ⟨hj, hb⟩ | ⟨hj, hb⟩
      · rw [hj]
        obtain ⟨c, hc, h1, h2, h3, h4⟩ := ih hrest c0 h0 hev
        refine ⟨c, hc, h1, h2, h3, ?_⟩
        intro x hx hxev
        rcases List.mem_cons.1 hx with e | e
        · rw [e]
          exact replacer_beats_trans k _ _ _ (hh i hi).2 h3 hb
        · exact h4 x e hxev
      · rw [hj]
        obtain ⟨c, hc, h1, h2, h3, h4⟩ := ih hrest i hi hiev
        refine ⟨c, hc, h1, h2, replacer_beats_trans k _ _ _ (hh c0 h0).2 h3 hb, ?_⟩
        intro x hx hxev
        rcases List.mem_cons.1 hx with e | e
        · rw [e]; exact h3
        · exact h4 x e hxev
    · rw [if_neg hiev]
      obtain ⟨c, hc, h1, h2, h3, h4⟩ := ih hrest c0 h0 hev
      refine ⟨c, hc, h1, h2, h3, ?_⟩
      intro x hx hxev
      rcases List.mem_cons.1 hx with e | e
      · rw [e] at hxev; exact absurd hxev hiev
      · exact h4 x e hxev

/-- The loop of `Evict` started with "no frame": when some visited entry is evictable it ends
with a tracked evictable frame that is at least as good a victim as every evictable entry. -/
theorem replacer_evictScan_start (s : LRUKReplacer) (k : Nat) (hkk : s.k_ = k)
    (hnd : (s.mp_.map Prod.fst).Nodup) (hh : LRUKReplacer.HistInv k s.mp_)
    (hids : ∀ e ∈ s.mp_, 0 ≤ e.1) (l : List (Int × FrameRecord)) (hl : ∀ e ∈ l, e ∈ s.mp_)
    (hsome : ∃ e ∈ l, e.2.evictable_ = true) :
    ∃ c ∈ s.mp_, c.1 = s.EvictScan l (-1) ∧ c.2.evictable_ = true ∧
      ∀ x ∈ l, x.2.evictable_ = true → LRUKReplacer.Beats k c.2 x.2 := by
  induction l with
  | nil =>
    obtain ⟨e, he, _⟩ := hsome
    simp at he
  | cons i rest ih =>
    have hi : i ∈ s.mp_ := hl i (List.mem_cons_self _ _)
    have hrest : ∀ e ∈ rest, e ∈ s.mp_ := fun e he => hl e (List.mem_cons_of_mem _ he)
    simp only [LRUKReplacer.EvictScan]
    by_cases hiev : i.2.evictable_ = true
    · rw [if_pos hiev, if_pos trivial]
      obtain ⟨c, hc, h1, h2, h3, h4⟩ :=
        replacer_evictScan_from s k hkk hnd hh hids rest hrest i hi hiev
      refine ⟨c, hc, h1, h2, ?_⟩
      intro x hx hxev
      rcases List.mem_cons.1 hx with e | e
      · rw [e]; exact h3
      · exact h4 x e hxev
    · rw [if_neg hiev]
      have hsome2 : ∃ e ∈ rest, e.2.evictable_ = true := by
        obtain ⟨e, he, hev⟩ := hsome
        rcases List.mem_cons.1 he with h | h
        · rw [h] at hev; exact absurd hev hiev
        · exact ⟨e, h, hev⟩
      obtain ⟨c, hc, h1, h2, h4⟩ := ih hrest hsome2
      refine ⟨c, hc, h1, h2, ?_⟩
      intro x hx hxev
      rcases List.mem_cons.1 hx with e | e
      · rw [e] at hxev; exact absurd hxev hiev
      · exact h4 x e hxev

/-- On a well-formed table with an evictable frame `Evict` succeeds, and its victim is a
tracked evictable frame at least as good as every evictable frame. -/
theorem replacer_evict_best (s : LRUKReplacer) (k : Nat) (hkk : s.k_ = k)
    (hnd : (s.mp_.map Prod.fst).Nodup) (hh : LRUKReplacer.HistInv k s.mp_)
    (hids : ∀ e ∈ s.mp_, 0 ≤ e.1) (hsome : ∃ e ∈ s.mp_, e.2.evictable_ = true) :
    s.Evict.1 = true ∧ ∃ v ∈ s.mp_, v.1 = s.Evict.2.1 ∧ v.2.evictable_ = true ∧
      ∀ x ∈ s.mp_, x.2.evictable_ = true → LRUKReplacer.Beats k v.2 x.2 := by
  obtain ⟨c, hc, h1, h2, h3⟩ :=
    replacer_evictScan_start s k hkk hnd hh hids s.mp_ (fun e he => he) hsome
  have hne : s.EvictScan s.mp_ (-1) ≠ -1 := by
    rw [← h1]
    have := hids c hc
    omega
  unfold LRUKReplacer.Evict
  simp only [if_neg hne]
  exact ⟨trivial, c, hc, h1, h2, h3⟩

theorem replacerScenario_reachable : LRUKReplacer.Reachable 3 2 replacerScenario := by
  unfold replacerScenario
  exact .setEvictable _ 3 true (.setEvictable _ 2 true (.setEvictable _ 1 true
    (.recordAccess _ 3 (.recordAccess _ 1 (.recordAccess _ 2 (.recordAccess _ 1 .init))))))

theorem replacerScenario_table :
    replacerScenario.mp_ = [(1, ⟨[0, 2], true⟩), (2, ⟨[1], true⟩), (3, ⟨[3], true⟩)] := by
  decide

/-- Witness for C3: in the scenario state three frames are evictable and `Size()` is 3. -/
theorem replacer_size_eq_evictable_count_witness :
    replacerScenario.Size = replacerScenario.evictableCount ∧ replacerScenario.Size = 3 :=
  ⟨replacer_size_eq_evictable_count 3 2 (by decide) (by unfold SIZE_T_RANGE; norm_num)
    replacerScenario replacerScenario_reachable, by decide⟩

/-- C4. In every reachable replacer state (`k ≥ 1`, non-negative frame ids, any traversal order
of the frame table) in which some evictable frame has fewer than `k` recorded accesses, `Evict`
succeeds and its victim is a tracked evictable frame with fewer than `k` recorded accesses. -/
theorem replacer_evict_prefers_short_history (num_frames k : Nat) (hk : 1 ≤ k)
    (hn : num_frames < SIZE_T_RANGE) (s : LRUKReplacer)
    (hr : LRUKReplacer.Reachable num_frames k s) (hids : ∀ e ∈ s.mp_, 0 ≤ e.1)
    (hshort : ∃ e ∈ s.mp_, e.2.evictable_ = true ∧ e.2.list_.length < k) :
    s.Evict.1 = true ∧
    ∃ v ∈ s.mp_, v.1 = s.Evict.2.1 ∧ v.2.evictable_ = true ∧ v.2.list_.length < k := by
  obtain ⟨e, he, hev, hlt⟩ := hshort
  have hinv := replacer_countInv_reachable num_frames k hn s hr
  obtain ⟨hkk, hh⟩ := replacer_histInv_reachable num_frames k hk s hr
  obtain ⟨h1, v, hv, h2, h3, h4⟩ := replacer_evict_best s k hkk hinv.nodup hh hids ⟨e, he, hev⟩
  refine ⟨h1, v, hv, h2, h3, ?_⟩
  rcases h4 e he hev with ⟨a, _⟩ | ⟨a, _⟩
  · exact a
  · exact a.2 hlt

/-- Witness for C4: in the scenario state frame 2 is evictable with one access (`k = 2`). -/
theorem replacer_evict_prefers_short_history_witness :
    replacerScenario.Evict.1 = true ∧
    ∃ v ∈ replacerScenario.mp_, v.1 = replacerScenario.Evict.2.1 ∧ v.2.evictable_ = true ∧
      v.2.list_.length < 2 :=
  replacer_evict_prefers_short_history 3 2 (by decide) (by unfold SIZE_T_RANGE; norm_num)
    replacerScenario replacerScenario_reachable (by decide)
    ⟨(2, ⟨[1], true⟩), by decide, by decide, by decide⟩

/-- C5. In every reachable replacer state (`k ≥ 1`, non-negative frame ids, any traversal order
of the frame table) with at least one evictable frame, `Evict` succeeds and its victim has the
smallest oldest-retained timestamp among the evictable frames of its own class (fewer than `k`
accesses, or exactly `k`).  In the scenario of the specification (`k = 2`, capacity 3, accesses
to frames 1, 2, 1, 3, all three marked evictable) `Evict` returns frame 2, in whatever order the
frame table is traversed. -/
theorem replacer_evict_lru_within_class :
    (∀ (num_frames k : Nat) (s : LRUKReplacer), 1 ≤ k → num_frames < SIZE_T_RANGE →
      LRUKReplacer.Reachable num_frames k s → (∀ e ∈ s.mp_, 0 ≤ e.1) →
      (∃ e ∈ s.mp_, e.2.evictable_ = true) →
      s.Evict.1 = true ∧
      ∃ v ∈ s.mp_, v.1 = s.Evict.2.1 ∧ v.2.evictable_ = true ∧
        ∀ e ∈ s.mp_, e.2.evictable_ = true →
          (e.2.list_.length < k ↔ v.2.list_.length < k) →
          v.2.list_.headD 0 ≤ e.2.list_.headD 0) ∧
    (∀ mp : List (Int × FrameRecord), mp.Perm replacerScenario.mp_ →
      ({ replacerScenario with mp_ := mp } : LRUKReplacer).Evict.1 = true ∧
      ({ replacerScenario with mp_ := mp } : LRUKReplacer).Evict.2.1 = 2) := by
  have general : ∀ (num_frames k : Nat) (s : LRUKReplacer), 1 ≤ k →
      num_frames < SIZE_T_RANGE → LRUKReplacer.Reachable num_frames k s →
      (∀ e ∈ s.mp_, 0 ≤ e.1) → (∃ e ∈ s.mp_, e.2.evictable_ = true) →
      s.Evict.1 = true ∧ ∃ v ∈ s.mp_, v.1 = s.Evict.2.1 ∧ v.2.evictable_ = true ∧
        ∀ x ∈ s.mp_, x.2.evictable_ = true → LRUKReplacer.Beats k v.2 x.2 := by
    intro num_frames k s hk hn hr hids hsome
    have hinv := replacer_countInv_reachable num_frames k hn s hr
    obtain ⟨hkk, hh⟩ := replacer_histInv_reachable num_frames k hk s hr
    exact replacer_evict_best s k hkk hinv.nodup hh hids hsome
  constructor
  · intro num_frames k s hk hn hr hids hsome
    obtain ⟨h1, v, hv, h2, h3, h4⟩ := general num_frames k s hk hn hr hids hsome
    refine ⟨h1, v, hv, h2, h3, ?_⟩
    intro e he hev hcls
    rcases h4 e he hev with ⟨a, b⟩ | ⟨_, b⟩
    · have := hcls.2 a
      omega
    · exact b
  · intro mp hp
    have hr : LRUKReplacer.Reachable 3 2 ({ replacerScenario with mp_ := mp } : LRUKReplacer) :=
      .reorder replacerScenario mp replacerScenario_reachable hp
    have hmem : ∀ e, e ∈ mp ↔ e ∈ replacerScenario.mp_ := fun e => hp.mem_iff
    have h2mem : ((2 : Int), (⟨[1], true⟩ : FrameRecord)) ∈ mp :=
      (hmem _).2 (by rw [replacerScenario_table]; simp)
    obtain ⟨h1, v, hv, h2, h3, h4⟩ := general 3 2 _ (by decide)
      (by unfold SIZE_T_RANGE; norm_num) hr
      (by
        intro e he
        have := (hmem e).1 he
        rw [replacerScenario_table] at this
        simp only [List.mem_cons, List.mem_singleton, List.not_mem_nil, or_false] at this
        rcases this with h | h | h <;> rw [h] <;> decide)
      ⟨_, h2mem, rfl⟩
    refine ⟨h1, ?_⟩
    rw [← h2]
    have hb := h4 _ h2mem rfl
    have hv2 := (hmem v).1 hv
    rw [replacerScenario_table] at hv2
    simp only [List.mem_cons, List.mem_singleton, List.not_mem_nil, or_false] at hv2
    rcases hv2 with h | h | h
    · rw [h] at hb
      simp [LRUKReplacer.Beats] at hb
    · rw [h]
    · rw [h] at hb
      simp [LRUKReplacer.Beats] at hb

/-- Witness for C5: the general part applied to the scenario state. -/
theorem replacer_evict_lru_within_class_witness :
    replacerScenario.Evict.1 = true ∧
    ∃ v ∈ replacerScenario.mp_, v.1 = replacerScenario.Evict.2.1 ∧ v.2.evictable_ = true ∧
      ∀ e ∈ replacerScenario.mp_, e.2.evictable_ = true →
        (e.2.list_.length < 2 ↔ v.2.list_.length < 2) →
        v.2.list_.headD 0 ≤ e.2.list_.headD 0 :=
  replacer_evict_lru_within_class.1 3 2 replacerScenario (by decide)
    (by unfold SIZE_T_RANGE; norm_num) replacerScenario_reachable (by decide)
    ⟨(2, ⟨[1], true⟩), by decide, by decide⟩

/-! ## Hash table: `RedistributeBucket` repoints a single directory slot -/

/-- C7 (defect in the code). Bucket capacity 1, identity hash.  `Insert` of the keys
0, 1, 3, 5, 4 returns each time (no entry ever changes bucket).  Afterwards the global depth is
3 and the bucket of key 0 has local depth 3, yet it is referenced by the two slots 0 and 6
instead of `2 ^ (3 - 3) = 1`: when it was split at local depth 1 under global depth 3, only
slot 2 of the slots 2 and 6 was repointed to the sibling. -/
theorem hash_slot_count_broken_after_split :
    insertAll intHash 3 [(0, 100), (1, 101), (3, 103), (5, 105), (4, 104)]
      (ExtendibleHashTable.new 1) = InsertResult.returned tableFiveKeys ∧
    tableFiveKeys.global_depth_ = 3 ∧
    tableFiveKeys.dir_ = [0, 1, 4, 2, 5, 3, 0, 2] ∧
    (tableFiveKeys.deref 0).depth_ = 3 ∧
    (tableFiveKeys.deref 0).list_ = [(0, 100)] ∧
    tableFiveKeys.slotCount 0 = 2 ∧
    tableFiveKeys.slotCount 0 ≠ 2 ^ (tableFiveKeys.global_depth_ - (tableFiveKeys.deref 0).depth_) := by
  decide

/-! ## Hash table: the directory invariant -/

theorem bucket_overwriteItem_length {K V : Type} [DecidableEq K] (l : List (K × V)) (key : K)
    (value : V) : (Bucket.overwriteItem l key value).2.length = l.length := by
  induction l with
  | nil => rfl
  | cons i rest ih =>
    simp only [Bucket.overwriteItem]
    split_ifs
    · rfl
    · simp [ih]

theorem bucket_removeItem_length {K V : Type} [DecidableEq K] (l : List (K × V)) (key : K) :
    (Bucket.removeItem l key).2.length ≤ l.length := by
  induction l with
  | nil => simp [Bucket.removeItem]
  | cons i rest ih =>
    simp only [Bucket.removeItem]
    split_ifs
    · simp
    · simp only [List.length_cons]; omega

/-- The call `Bucket::Insert` keeps capacity and depth, and never fills a bucket beyond its capacity. -/
theorem bucket_insert_inv {K V : Type} [DecidableEq K] (b : Bucket K V) (key : K) (value : V)
    (h : b.list_.length ≤ b.size_) :
    (b.Insert key value).2.size_ = b.size_ ∧ (b.Insert key value).2.depth_ = b.depth_ ∧
    (b.Insert key value).2.list_.length ≤ b.size_ := by
  unfold Bucket.Insert
  split_ifs with h1 h2
  · exact ⟨rfl, rfl, by simp only [bucket_overwriteItem_length]; exact h⟩
  · exact ⟨rfl, rfl, h⟩
  · refine ⟨rfl, rfl, ?_⟩
    simp only [Bucket.IsFull, beq_iff_eq] at h2
    simp only [List.length_append, List.length_singleton]
    omega

/-- The call `Bucket::Remove` keeps capacity and depth and does not add entries. -/
theorem bucket_remove_inv {K V : Type} [DecidableEq K] (b : Bucket K V) (key : K) :
    (b.Remove key).2.size_ = b.size_ ∧ (b.Remove key).2.depth_ = b.depth_ ∧
    (b.Remove key).2.list_.length ≤ b.list_.length :=
  ⟨rfl, rfl, bucket_removeItem_length _ _⟩

/-- When the loop of `RedistributeBucket` has defined behaviour no entry moves, so both
buckets are as they were. -/
theorem hash_redistributeLoop_some {K V : Type} [DecidableEq K] (hash : K → Nat)
    (dep pre_index : Nat) (l : List (K × V)) (st st2 : Bucket K V × Bucket K V)
    (h : ExtendibleHashTable.RedistributeLoop hash dep pre_index l st = some st2) :
    st2 = st := by
  induction l with
  | nil =>
    simp only [ExtendibleHashTable.RedistributeLoop, Option.some.injEq] at h
    exact h.symm
  | cons i rest ih =>
    simp only [ExtendibleHashTable.RedistributeLoop] at h
    split_ifs at h with hmove
    exact ih h

/-- When `RedistributeBucket` has defined behaviour the split bucket was not empty, it keeps
its entries and gains one level of depth, an empty sibling of that depth is allocated, and one
directory slot is pointed at the sibling. -/
theorem hash_redistribute_some {K V : Type} [DecidableEq K] (hash : K → Nat)
    (t t2 : ExtendibleHashTable K V) (ref : Nat)
    (h : ExtendibleHashTable.RedistributeBucket hash t ref = some t2) :
    ∃ slot : Nat, t2 =
      { t with
        heap := t.heap.set ref
            { size_ := (t.deref ref).size_, depth_ := (t.deref ref).depth_ + 1,
              list_ := (t.deref ref).list_ }
          ++ [Bucket.new t.bucket_size_ ((t.deref ref).depth_ + 1)],
        dir_ := t.dir_.set slot t.heap.length } := by
  unfold ExtendibleHashTable.RedistributeBucket at h
  simp only [] at h
  split at h
  · exact absurd h (by simp)
  · rename_i first rest hl
    simp only [Option.map_eq_some'] at h
    obtain ⟨st, hst, heq⟩ := h
    have hst2 := hash_redistributeLoop_some hash _ _ _ _ _ hst
    rw [hst2] at heq
    exact ⟨_, heq.symm⟩

theorem hash_deref_mem {K V : Type} (t : ExtendibleHashTable K V) (ref : Nat)
    (h : ref < t.heap.length) : t.deref ref ∈ t.heap := by
  unfold ExtendibleHashTable.deref
  rw [List.getD_eq_getElem _ _ h]
  exact List.getElem_mem h

theorem hash_indexOf_lt {K V : Type} (hash : K → Nat) (t : ExtendibleHashTable K V) (key : K) :
    ExtendibleHashTable.IndexOf hash t key < 2 ^ t.global_depth_ := by
  unfold ExtendibleHashTable.IndexOf
  rw [Nat.one_shiftLeft]
  apply Nat.and_lt_two_pow
  have : 0 < 2 ^ t.global_depth_ := Nat.two_pow_pos _
  omega

theorem hash_slot_ref_lt {K V : Type} (bucket_size : Nat) (t : ExtendibleHashTable K V)
    (h : DirInv bucket_size t) (i : Nat) (hi : i < t.dir_.length) :
    t.dir_.getD i 0 < t.heap.length := by
  rw [List.getD_eq_getElem _ _ hi]
  exact h.refs _ (List.getElem_mem hi)

/-- The call `RedistributeBucket` on a bucket whose local depth is below the global depth keeps
the directory invariant. -/
theorem hash_redistribute_inv {K V : Type} [DecidableEq K] (hash : K → Nat) (bucket_size : Nat)
    (t t2 : ExtendibleHashTable K V) (h : DirInv bucket_size t) (ref : Nat)
    (href : ref < t.heap.length) (hdepth : (t.deref ref).depth_ < t.global_depth_)
    (hsome : ExtendibleHashTable.RedistributeBucket hash t ref = some t2) :
    DirInv bucket_size t2 := by
  have hb := h.buckets _ (hash_deref_mem t ref href)
  obtain ⟨slot, heq⟩ := hash_redistribute_some hash t t2 ref hsome
  rw [heq]
  constructor
  · exact h.cap
  · simp only [List.length_set]
    exact h.dir_len
  · intro r hr
    simp only [List.length_append, List.length_set, List.length_singleton]
    rcases List.mem_or_eq_of_mem_set hr with h1 | h1
    · have := h.refs r h1
      omega
    · omega
  · intro b hbm
    rcases List.mem_append.1 hbm with h1 | h1
    · rcases List.mem_or_eq_of_mem_set h1 with h2 | h2
      · exact h.buckets b h2
      · rw [h2]
        refine ⟨hb.1, ?_, hb.2.2⟩
        show (t.deref ref).depth_ + 1 ≤ t.global_depth_
        omega
    · rw [List.mem_singleton] at h1
      rw [h1]
      have := h.cap
      refine ⟨this, ?_, Nat.zero_le _⟩
      show (t.deref ref).depth_ + 1 ≤ t.global_depth_
      omega

theorem hash_set_bucket_inv {K V : Type} (bucket_size : Nat) (t : ExtendibleHashTable K V)
    (h : DirInv bucket_size t) (ref : Nat) (b : Bucket K V)
    (hb : b.size_ = bucket_size ∧ b.depth_ ≤ t.global_depth_ ∧ b.list_.length ≤ bucket_size) :
    DirInv bucket_size { t with heap := t.heap.set ref b } := by
  constructor
  · exact h.cap
  · exact h.dir_len
  · intro r hr
    simp only [List.length_set]
    exact h.refs r hr
  · intro x hx
    rcases List.mem_or_eq_of_mem_set hx with h1 | h1
    · exact h.buckets x h1
    · rw [h1]; exact hb

/-- Doubling the directory keeps the directory invariant. -/
theorem hash_double_inv {K V : Type} (bucket_size : Nat) (t : ExtendibleHashTable K V)
    (h : DirInv bucket_size t) :
    DirInv bucket_size
      { t with global_depth_ := t.global_depth_ + 1, dir_ := t.dir_ ++ t.dir_ } := by
  constructor
  · exact h.cap
  · simp only [List.length_append]
    rw [h.dir_len, pow_succ]
    omega
  · intro r hr
    rcases List.mem_append.1 hr with h3 | h3 <;> exact h.refs r h3
  · intro b hbm
    have := h.buckets b hbm
    refine ⟨this.1, ?_, this.2.2⟩
    show _ ≤ t.global_depth_ + 1
    omega

/-- Every state the loop of `Insert` passes through satisfies the directory invariant. -/
theorem hash_insertLoop_inv {K V : Type} [DecidableEq K] (hash : K → Nat) (bucket_size : Nat)
    (key : K) (value : V) :
    ∀ (fuel : Nat) (t t2 : ExtendibleHashTable K V), DirInv bucket_size t →
      (ExtendibleHashTable.InsertLoop hash fuel t key value).state? = some t2 →
      DirInv bucket_size t2 := by
  intro fuel
  induction fuel with
  | zero =>
    intro t t2 h hs
    simp only [ExtendibleHashTable.InsertLoop, InsertResult.state?, Option.some.injEq] at hs
    rw [← hs]; exact h
  | succ fuel ih =>
    intro t t2 h hs
    have hidx : ExtendibleHashTable.IndexOf hash t key < t.dir_.length := by
      rw [h.dir_len]; exact hash_indexOf_lt hash t key
    have href := hash_slot_ref_lt bucket_size t h _ hidx
    have hb := h.buckets _ (hash_deref_mem t _ href)
    simp only [ExtendibleHashTable.InsertLoop] at hs
    split_ifs at hs with h1 h2
    · simp only [InsertResult.state?, Option.some.injEq] at hs
      rw [← hs]
      have hi := bucket_insert_inv
        (t.deref (t.dir_.getD (ExtendibleHashTable.IndexOf hash t key) 0)) key value (by omega)
      exact hash_set_bucket_inv bucket_size t h _ _ ⟨by omega, by omega, by omega⟩
    · split at hs
      · simp [InsertResult.state?] at hs
      · rename_i t3 hr
        exact ih t3 t2 (hash_redistribute_inv hash bucket_size t t3 h _ href h2 hr) hs
    · split at hs
      · simp [InsertResult.state?] at hs
      · rename_i t3 hr
        refine ih t3 t2 (hash_redistribute_inv hash bucket_size _ t3
          (hash_double_inv bucket_size t h) _ href ?_ hr) hs
        show (t.deref (t.dir_.getD (ExtendibleHashTable.IndexOf hash t key) 0)).depth_
          < t.global_depth_ + 1
        omega

theorem hash_remove_inv {K V : Type} [DecidableEq K] (hash : K → Nat) (bucket_size : Nat)
    (t : ExtendibleHashTable K V) (h : DirInv bucket_size t) (key : K) :
    DirInv bucket_size (ExtendibleHashTable.Remove hash t key).2 := by
  have hidx : ExtendibleHashTable.IndexOf hash t key < t.dir_.length := by
    rw [h.dir_len]; exact hash_indexOf_lt hash t key
  have href := hash_slot_ref_lt bucket_size t h _ hidx
  have hb := h.buckets _ (hash_deref_mem t _ href)
  have hr := bucket_remove_inv
    (t.deref (t.dir_.getD (ExtendibleHashTable.IndexOf hash t key) 0)) key
  unfold ExtendibleHashTable.Remove
  exact hash_set_bucket_inv bucket_size t h _ _ ⟨by omega, by omega, by omega⟩

theorem hash_reachable_inv {K V : Type} [DecidableEq K] (hash : K → Nat) (bucket_size : Nat)
    (t : ExtendibleHashTable K V) (hr : ExtendibleHashTable.Reachable hash bucket_size t) :
    DirInv bucket_size t := by
  induction hr with
  | init =>
    constructor
    · rfl
    · rfl
    · intro r hr
      simp [ExtendibleHashTable.new] at hr
      simp [ExtendibleHashTable.new, hr]
    · intro b hb
      simp [ExtendibleHashTable.new] at hb
      simp [hb, Bucket.new]
  | insert t key value fuel t2 _ hs ih =>
    exact hash_insertLoop_inv hash bucket_size key value fuel t t2 ih (by rw [hs]; rfl)
  | remove t key _ ih => exact hash_remove_inv hash bucket_size t ih key

/-- C8. After every sequence of `Insert` and `Remove` calls on a freshly constructed table
(bucket capacity at least 1, any hash function) in which every call has returned: the directory
has exactly `2 ^ global_depth` slots, every slot refers to an allocated bucket whose local depth
is at most the global depth and which holds at most `bucket_size` entries, and the same bounds
hold for every bucket ever allocated.  (An `Insert` whose split has to move an entry erases the
list node under its own iterator and leaves no state to speak of, see `RedistributeLoop`; an
`Insert` that never leaves its loop leaves none either.) -/
theorem hash_depth_and_occupancy_invariant {K V : Type} [DecidableEq K] (hash : K → Nat)
    (bucket_size : Nat) (_hcap : 1 ≤ bucket_size) (t : ExtendibleHashTable K V)
    (hr : ExtendibleHashTable.Reachable hash bucket_size t) :
    t.dir_.length = 2 ^ t.global_depth_ ∧
    (∀ i, i < t.dir_.length →
      t.dir_.getD i 0 < t.heap.length ∧
      t.GetLocalDepthInternal i ≤ t.global_depth_ ∧
      (t.deref (t.dir_.getD i 0)).list_.length ≤ bucket_size) ∧
    (∀ b ∈ t.heap, b.depth_ ≤ t.global_depth_ ∧ b.list_.length ≤ bucket_size) := by
  have h := hash_reachable_inv hash bucket_size t hr
  refine ⟨h.dir_len, ?_, fun b hb => (h.buckets b hb).2⟩
  intro i hi
  have href := hash_slot_ref_lt bucket_size t h i hi
  have hb := h.buckets _ (hash_deref_mem t _ href)
  exact ⟨href, hb.2.1, hb.2.2⟩

theorem insertAll_reachable (bucket_size fuel : Nat) (l : List (Int × Int)) :
    ∀ t t2 : ExtendibleHashTable Int Int, ExtendibleHashTable.Reachable intHash bucket_size t →
      insertAll intHash fuel l t = InsertResult.returned t2 →
      ExtendibleHashTable.Reachable intHash bucket_size t2 := by
  induction l with
  | nil =>
    intro t t2 h hs
    simp only [insertAll, InsertResult.returned.injEq] at hs
    rw [← hs]; exact h
  | cons kv rest ih =>
    intro t t2 h hs
    simp only [insertAll] at hs
    split at hs
    · rename_i t3 hr
      exact ih t3 t2 (.insert t kv.1 kv.2 fuel t3 h hr) hs
    · exact absurd hs (by simp)
    · exact absurd hs (by simp)

theorem tableFiveKeys_run :
    insertAll intHash 3 [(0, 100), (1, 101), (3, 103), (5, 105), (4, 104)]
      (ExtendibleHashTable.new 1) = InsertResult.returned tableFiveKeys := by
  decide

theorem tableFiveKeys_reachable : ExtendibleHashTable.Reachable intHash 1 tableFiveKeys :=
  insertAll_reachable 1 3 _ _ _ .init tableFiveKeys_run

/-- Witness for C8: the table after `Insert` of the keys 0, 1, 3, 5, 4 and `Remove(4)` (bucket
capacity 1, identity hash; no entry has changed bucket) has a directory of `2 ^ 3` slots and
sound buckets. -/
theorem hash_depth_and_occupancy_invariant_witness :
    (ExtendibleHashTable.Remove intHash tableFiveKeys 4).2.global_depth_ = 3 ∧
    (ExtendibleHashTable.Remove intHash tableFiveKeys 4).2.dir_.length
      = 2 ^ (ExtendibleHashTable.Remove intHash tableFiveKeys 4).2.global_depth_ ∧
    (∀ i, i < (ExtendibleHashTable.Remove intHash tableFiveKeys 4).2.dir_.length →
      (ExtendibleHashTable.Remove intHash tableFiveKeys 4).2.dir_.getD i 0
        < (ExtendibleHashTable.Remove intHash tableFiveKeys 4).2.heap.length ∧
      (ExtendibleHashTable.Remove intHash tableFiveKeys 4).2.GetLocalDepthInternal i
        ≤ (ExtendibleHashTable.Remove intHash tableFiveKeys 4).2.global_depth_ ∧
      ((ExtendibleHashTable.Remove intHash tableFiveKeys 4).2.deref
        ((ExtendibleHashTable.Remove intHash tableFiveKeys 4).2.dir_.getD i 0)).list_.length
        ≤ 1) ∧
    (∀ b ∈ (ExtendibleHashTable.Remove intHash tableFiveKeys 4).2.heap,
      b.depth_ ≤ (ExtendibleHashTable.Remove intHash tableFiveKeys 4).2.global_depth_ ∧
      b.list_.length ≤ 1) :=
  ⟨by decide,
    hash_depth_and_occupancy_invariant intHash 1 (by decide)
      (ExtendibleHashTable.Remove intHash tableFiveKeys 4).2
      (.remove tableFiveKeys 4 tableFiveKeys_reachable)⟩

/-! ## Hash table: an `Insert` that cannot return after a one-slot repoint -/

/-- One iteration of the `Insert` loop for key 6 on a table stuck on slot 6 doubles the
directory, splits bucket 0 without moving its entry, and leaves the table stuck on slot 6. -/
theorem hash_stuck_step (t : ExtendibleHashTable Int Int) (h : StuckOnSlotSix t) (value : Int)
    (fuel : Nat) :
    ∃ t2 : ExtendibleHashTable Int Int, StuckOnSlotSix t2 ∧
      t2.global_depth_ = t.global_depth_ + 1 ∧
      ExtendibleHashTable.InsertLoop intHash (fuel + 1) t 6 value
        = ExtendibleHashTable.InsertLoop intHash fuel t2 6 value := by
  obtain ⟨hg, hlen, hslot, hbucket, hheap, hcap⟩ := h
  have hpow : 8 ≤ 2 ^ t.global_depth_ := by
    calc 8 = 2 ^ 3 := by norm_num
      _ ≤ 2 ^ t.global_depth_ := Nat.pow_le_pow_right (by decide) hg
  have hidx : ExtendibleHashTable.IndexOf intHash t 6 = 6 := by
    unfold ExtendibleHashTable.IndexOf
    rw [Nat.one_shiftLeft, Nat.and_pow_two_sub_one_eq_mod]
    exact Nat.mod_eq_of_lt (by show 6 < 2 ^ t.global_depth_; omega)
  have hins : ((t.deref 0).Insert 6 value).1 = false := by
    rw [hbucket]
    simp [Bucket.Insert, Bucket.overwriteItem, Bucket.IsFull]
  have hdepth : ¬ (ExtendibleHashTable.GetLocalDepthInternal t 6 < t.global_depth_) := by
    unfold ExtendibleHashTable.GetLocalDepthInternal
    rw [hslot, hbucket]
    simp
  have hderef : (({ t with global_depth_ := t.global_depth_ + 1, dir_ := t.dir_ ++ t.dir_ } :
      ExtendibleHashTable Int Int).deref 0) = t.deref 0 := rfl
  have hi0 : intHash 0 = 0 := rfl
  have hred : ExtendibleHashTable.RedistributeBucket intHash
      { t with global_depth_ := t.global_depth_ + 1, dir_ := t.dir_ ++ t.dir_ } 0
      = some
        { t with
          global_depth_ := t.global_depth_ + 1,
          heap := t.heap.set 0 { size_ := 1, depth_ := t.global_depth_ + 1, list_ := [(0, 100)] }
            ++ [Bucket.new t.bucket_size_ (t.global_depth_ + 1)],
          dir_ := (t.dir_ ++ t.dir_).set (2 ^ t.global_depth_) t.heap.length } := by
    unfold ExtendibleHashTable.RedistributeBucket
    simp only [hderef, hbucket]
    simp only [ExtendibleHashTable.RedistributeLoop, hi0, Nat.zero_and, ne_eq, not_true_eq_false,
      if_false, Nat.zero_or, Nat.add_sub_cancel, Nat.one_shiftLeft, Option.map_some']
  refine ⟨{ t with
      global_depth_ := t.global_depth_ + 1,
      heap := t.heap.set 0 { size_ := 1, depth_ := t.global_depth_ + 1, list_ := [(0, 100)] }
        ++ [Bucket.new t.bucket_size_ (t.global_depth_ + 1)],
      dir_ := (t.dir_ ++ t.dir_).set (2 ^ t.global_depth_) t.heap.length }, ?_, rfl, ?_⟩
  rotate_left
  · simp only [ExtendibleHashTable.InsertLoop, hidx, hslot, hins, hdepth, hred]
    simp
  · refine ⟨?_, ?_, ?_, ?_, ?_, hcap⟩
    · show 3 ≤ t.global_depth_ + 1
      omega
    · simp only [List.length_set, List.length_append]
      rw [hlen, pow_succ]; omega
    · simp only []
      rw [List.getD_eq_getElem?_getD, List.getElem?_set_ne (by omega),
        List.getElem?_append_left (by omega), ← List.getD_eq_getElem?_getD]
      exact hslot
    · unfold ExtendibleHashTable.deref
      simp only []
      rw [List.getD_eq_getElem?_getD, List.getElem?_append_left (by simp; omega),
        List.getElem?_set_self (by omega)]
      rfl
    · simp only [List.length_set, List.length_append, List.length_singleton]
      omega

/-- After `Insert` of the keys 0, 1, 3, 5, 4 with bucket capacity 1 (no entry has changed
bucket so far), the call `Insert(6, v)` does not leave its loop within any number of iterations:
slot 6 still refers to the full bucket of key 0, and every iteration doubles the directory. -/
theorem hash_insert_never_returns (value : Int) :
    ∀ (fuel : Nat) (t : ExtendibleHashTable Int Int), StuckOnSlotSix t →
      ∃ t2 : ExtendibleHashTable Int Int,
        ExtendibleHashTable.InsertLoop intHash fuel t 6 value = InsertResult.running t2 ∧
        t2.global_depth_ = t.global_depth_ + fuel := by
  intro fuel
  induction fuel with
  | zero => intro t _; exact ⟨t, rfl, rfl⟩
  | succ fuel ih =>
    intro t h
    obtain ⟨t2, h2, hg, heq⟩ := hash_stuck_step t h value fuel
    rw [heq]
    obtain ⟨t3, a, b⟩ := ih t2 h2
    exact ⟨t3, a, by rw [b, hg]; omega⟩

theorem tableFiveKeys_stuck : StuckOnSlotSix tableFiveKeys := by
  unfold StuckOnSlotSix
  decide

/-- C1 (defect in the code). Identity hash.
With bucket capacity 1, `Insert` of the keys 0, 1, 3, 5, 4 returns each time and no entry ever
changes bucket; the split of the bucket of key 0 at local depth 1 under global depth 3 repoints
one slot only, so slot 6 still refers to the bucket of key 0, now full at local depth 3.  The
call `Insert(6, 106)` then does not leave its loop within any number of iterations: key 6 can
not be inserted and is never findable.
With bucket capacity 2, `Insert` of the keys 0, 6, 1, 3 returns each time, and the next call
`Insert(5, 105)` has to move key 3 to the new sibling: its behaviour is undefined (the list
node under the loop iterator is erased), for any number of iterations allowed. -/
theorem hash_insert_undefined_or_never_returns :
    (insertAll intHash 3 [(0, 100), (1, 101), (3, 103), (5, 105), (4, 104)]
        (ExtendibleHashTable.new 1) = InsertResult.returned tableFiveKeys ∧
      tableFiveKeys.global_depth_ = 3 ∧
      tableFiveKeys.dir_ = [0, 1, 4, 2, 5, 3, 0, 2] ∧
      (tableFiveKeys.deref 0).list_ = [(0, 100)] ∧
      ExtendibleHashTable.Find intHash tableFiveKeys 6 = none ∧
      (∀ fuel : Nat, ∃ t : ExtendibleHashTable Int Int,
        ExtendibleHashTable.InsertLoop intHash fuel tableFiveKeys 6 106
          = InsertResult.running t)) ∧
    (insertAll intHash 3 [(0, 100), (6, 106), (1, 101), (3, 103)]
        (ExtendibleHashTable.new 2) = InsertResult.returned tableFourKeys ∧
      (tableFourKeys.deref 1).list_ = [(1, 101), (3, 103)] ∧
      (∀ fuel : Nat,
        ExtendibleHashTable.InsertLoop intHash (fuel + 1) tableFourKeys 5 105
          = InsertResult.undefined)) :=
  ⟨⟨by decide, by decide, by decide, by decide, by decide,
      fun fuel =>
        (hash_insert_never_returns 106 fuel tableFiveKeys tableFiveKeys_stuck).imp
          (fun _ h => h.1)⟩,
    ⟨by decide, by decide, fun _ => rfl⟩⟩

/-! ## Internal page: merge and borrow -/

/-- C18. Internal merge `source.MoveAllTo(recipient, s)` for a source of size `n ≥ 1` and a
recipient of size `m` with room for `n` more entries: the recipient ends with size `m + n`
(within its capacity), its first `m` entries unchanged, `(s, source's former child 0)` in slot
`m` and the source's former entries `1 .. n-1` in slots `m+1 .. m+n-1`; the source ends with
size 0. -/
theorem internal_moveAllTo_spec {K V : Type} (p recipient : BPlusTreeInternalPage K V)
    (hn : 1 ≤ p.size_) (hroom : recipient.size_ + p.size_ ≤ recipient.max_size_) (s : K) :
    (p.MoveAllTo recipient s).2.size_ = recipient.size_ + p.size_ ∧
    (p.MoveAllTo recipient s).2.size_ ≤ (p.MoveAllTo recipient s).2.max_size_ ∧
    (∀ j, j < recipient.size_ → (p.MoveAllTo recipient s).2.array_ j = recipient.array_ j) ∧
    (p.MoveAllTo recipient s).2.array_ recipient.size_ = (s, p.ValueAt 0) ∧
    (∀ j, 1 ≤ j → j < p.size_ →
      (p.MoveAllTo recipient s).2.array_ (recipient.size_ + j) = p.array_ j) ∧
    (p.MoveAllTo recipient s).1.size_ = 0 := by
  refine ⟨rfl, hroom, ?_, ?_, ?_, rfl⟩
  · intro j hj
    simp only [BPlusTreeInternalPage.MoveAllTo, BPlusTreeInternalPage.CopyNFrom, copy_range]
    rw [if_neg (by omega)]
  · simp only [BPlusTreeInternalPage.MoveAllTo, BPlusTreeInternalPage.CopyNFrom, copy_range,
      BPlusTreeInternalPage.SetKeyAt, store, BPlusTreeInternalPage.ValueAt]
    rw [if_pos (by omega)]
    simp
  · intro j h1 h2
    simp only [BPlusTreeInternalPage.MoveAllTo, BPlusTreeInternalPage.CopyNFrom, copy_range,
      BPlusTreeInternalPage.SetKeyAt, store]
    rw [if_pos (by omega)]
    have e : 0 + (recipient.size_ + j - recipient.size_) = j := by omega
    rw [e, if_neg (by omega)]

/-- Witness for C18: merging the node with children 1, 2 into the node with children 1, 2, 3
of capacity 5 under the separator 25. -/
theorem internal_moveAllTo_spec_witness :
    (internalNode2.MoveAllTo { internalNode3 with max_size_ := 5 } 25).2.size_ = 5 ∧
    (internalNode2.MoveAllTo { internalNode3 with max_size_ := 5 } 25).2.array_ 3 = (25, 1) ∧
    (internalNode2.MoveAllTo { internalNode3 with max_size_ := 5 } 25).1.size_ = 0 :=
  have h := internal_moveAllTo_spec internalNode2 { internalNode3 with max_size_ := 5 }
    (by decide) (by decide) 25
  ⟨h.1, h.2.2.2.1, h.2.2.2.2.2⟩

theorem internal_children_congr {K V : Type} (p q : BPlusTreeInternalPage K V)
    (hs : p.size_ = q.size_) (h : ∀ j, j < p.size_ → (p.array_ j).2 = (q.array_ j).2) :
    p.children = q.children := by
  unfold BPlusTreeInternalPage.children
  rw [← hs]
  apply List.map_congr_left
  intro j hj
  exact h j (List.mem_range.1 hj)

/-- The children of a page of size `m + 1`: those of its first `m` slots, then slot `m`. -/
theorem internal_children_snoc {K V : Type} (q : BPlusTreeInternalPage K V) (m : Nat)
    (hs : q.size_ = m + 1) :
    q.children = (List.range m).map (fun i => (q.array_ i).2) ++ [(q.array_ m).2] := by
  unfold BPlusTreeInternalPage.children
  rw [hs, List.range_succ, List.map_append]
  rfl

/-- The children of a page of size `n + 1`: slot 0, then those of the slots `1 .. n`. -/
theorem internal_children_cons {K V : Type} (q : BPlusTreeInternalPage K V) (n : Nat)
    (hs : q.size_ = n + 1) :
    q.children = (q.array_ 0).2 :: (List.range n).map (fun i => (q.array_ (i + 1)).2) := by
  unfold BPlusTreeInternalPage.children
  rw [hs, List.range_succ_eq_map, List.map_cons, List.map_map]
  rfl

/-- C19. Internal borrow for a donor of size `n ≥ 1`, a recipient of size `m` below its
capacity and a separator `s`.
(a) `donor.MoveFirstToEndOf(recipient, s)`: the recipient ends with size `m + 1`, its first `m`
entries unchanged and `(s, donor's former child 0)` in slot `m`; the donor ends with size
`n - 1` holding its former entries `1 .. n-1` moved one slot to the left; the child sequence of
the pair (recipient, donor) is unchanged.
(b) `donor.MoveLastToFrontOf(recipient, s)`: the donor ends with size `n - 1` and its entries
`0 .. n-2` unchanged; the recipient ends with size `m + 1`, the donor's former last entry in
slot 0, `(s, recipient's former child 0)` in slot 1 (when `m ≥ 1`) and its former entries
`1 .. m-1` in slots `2 .. m`; the child sequence of the pair (donor, recipient) is unchanged. -/
theorem internal_borrow_spec {K V : Type} (p recipient : BPlusTreeInternalPage K V)
    (hn : 1 ≤ p.size_) (_hroom : recipient.size_ < recipient.max_size_) (s : K) :
    ((p.MoveFirstToEndOf recipient s).2.size_ = recipient.size_ + 1 ∧
      (∀ j, j < recipient.size_ →
        (p.MoveFirstToEndOf recipient s).2.array_ j = recipient.array_ j) ∧
      (p.MoveFirstToEndOf recipient s).2.array_ recipient.size_ = (s, p.ValueAt 0) ∧
      (p.MoveFirstToEndOf recipient s).1.size_ = p.size_ - 1 ∧
      (∀ j, j < p.size_ - 1 → (p.MoveFirstToEndOf recipient s).1.array_ j = p.array_ (j + 1)) ∧
      (p.MoveFirstToEndOf recipient s).2.children ++ (p.MoveFirstToEndOf recipient s).1.children
        = recipient.children ++ p.children) ∧
    ((p.MoveLastToFrontOf recipient s).1.size_ = p.size_ - 1 ∧
      (∀ j, j < p.size_ - 1 → (p.MoveLastToFrontOf recipient s).1.array_ j = p.array_ j) ∧
      (p.MoveLastToFrontOf recipient s).2.size_ = recipient.size_ + 1 ∧
      (p.MoveLastToFrontOf recipient s).2.array_ 0 = p.array_ (p.size_ - 1) ∧
      (1 ≤ recipient.size_ →
        (p.MoveLastToFrontOf recipient s).2.array_ 1 = (s, recipient.ValueAt 0)) ∧
      (∀ j, 2 ≤ j → j ≤ recipient.size_ →
        (p.MoveLastToFrontOf recipient s).2.array_ j = recipient.array_ (j - 1)) ∧
      (p.MoveLastToFrontOf recipient s).1.children ++ (p.MoveLastToFrontOf recipient s).2.children
        = p.children ++ recipient.children) := by
  have a2 : ∀ j, j < recipient.size_ →
      (p.MoveFirstToEndOf recipient s).2.array_ j = recipient.array_ j := by
    intro j hj
    simp only [BPlusTreeInternalPage.MoveFirstToEndOf, BPlusTreeInternalPage.CopyLastFrom, store]
    rw [if_neg (by omega)]
  have a3 : (p.MoveFirstToEndOf recipient s).2.array_ recipient.size_ = (s, p.ValueAt 0) := by
    simp [BPlusTreeInternalPage.MoveFirstToEndOf, BPlusTreeInternalPage.CopyLastFrom, store,
      BPlusTreeInternalPage.SetKeyAt, BPlusTreeInternalPage.ValueAt]
  have a5 : ∀ j, j < p.size_ - 1 →
      (p.MoveFirstToEndOf recipient s).1.array_ j = p.array_ (j + 1) := by
    intro j hj
    simp only [BPlusTreeInternalPage.MoveFirstToEndOf, BPlusTreeInternalPage.SetKeyAt,
      move_forward, store]
    have e : 1 + (j - 0) = j + 1 := by omega
    rw [if_pos (by omega), e, if_neg (by omega)]
  have b2 : ∀ j, j < p.size_ - 1 →
      (p.MoveLastToFrontOf recipient s).1.array_ j = p.array_ j := fun _ _ => rfl
  have b4 : (p.MoveLastToFrontOf recipient s).2.array_ 0 = p.array_ (p.size_ - 1) := by
    simp [BPlusTreeInternalPage.MoveLastToFrontOf, BPlusTreeInternalPage.CopyFirstFrom, store]
  have b6 : ∀ j, 1 ≤ j → j ≤ recipient.size_ →
      (p.MoveLastToFrontOf recipient s).2.array_ j
        = (if j = 1 then (s, recipient.ValueAt 0) else recipient.array_ (j - 1)) := by
    intro j h1 h2
    simp only [BPlusTreeInternalPage.MoveLastToFrontOf, BPlusTreeInternalPage.CopyFirstFrom,
      BPlusTreeInternalPage.SetKeyAt, store, move_backward, BPlusTreeInternalPage.ValueAt]
    have e : recipient.size_ - (recipient.size_ + 1 - j) = j - 1 := by omega
    rw [if_neg (by omega), if_pos (by omega), e]
    by_cases hj : j = 1
    · rw [if_pos hj, if_pos (by omega)]
    · rw [if_neg hj, if_neg (by omega)]
  refine ⟨⟨rfl, a2, a3, rfl, a5, ?_⟩, ⟨rfl, b2, rfl, b4, ?_, ?_, ?_⟩⟩
  · rw [internal_children_snoc (p.MoveFirstToEndOf recipient s).2 recipient.size_ rfl,
      internal_children_cons p (p.size_ - 1) (by omega), a3]
    simp only [List.append_assoc, List.singleton_append, BPlusTreeInternalPage.ValueAt]
    congr 1
    · unfold BPlusTreeInternalPage.children
      apply List.map_congr_left
      intro j hj
      rw [a2 j (List.mem_range.1 hj)]
    · congr 1
      unfold BPlusTreeInternalPage.children
      apply List.map_congr_left
      intro j hj
      rw [a5 j (List.mem_range.1 hj)]
  · intro h1
    rw [b6 1 (le_refl _) h1, if_pos rfl]
  · intro j h1 h2
    rw [b6 j (by omega) h2, if_neg (by omega)]
  · rw [internal_children_snoc p (p.size_ - 1) (by omega),
      internal_children_cons (p.MoveLastToFrontOf recipient s).2 recipient.size_ rfl, b4]
    simp only [List.append_assoc, List.singleton_append]
    congr 1
    congr 1
    unfold BPlusTreeInternalPage.children
    apply List.map_congr_left
    intro j hj
    have hj2 := List.mem_range.1 hj
    rw [b6 (j + 1) (by omega) (by omega)]
    by_cases h0 : j = 0
    · rw [if_pos (by omega), h0]; rfl
    · rw [if_neg (by omega)]; rfl

/-- Witness for C19: borrowing from the full node with children 1, 2, 3, 4 into the node with
children 1, 2, 3 under the separator 99. -/
theorem internal_borrow_spec_witness :
    (internalFull4.MoveFirstToEndOf internalNode3 99).2.array_ 3 = (99, 1) ∧
    (internalFull4.MoveFirstToEndOf internalNode3 99).1.size_ = 3 ∧
    (internalFull4.MoveLastToFrontOf internalNode3 99).2.array_ 0 = (30, 4) ∧
    (internalFull4.MoveLastToFrontOf internalNode3 99).2.array_ 1 = (99, 1) ∧
    (internalFull4.MoveLastToFrontOf internalNode3 99).1.children
        ++ (internalFull4.MoveLastToFrontOf internalNode3 99).2.children
      = [1, 2, 3, 4, 1, 2, 3] :=
  have h := internal_borrow_spec internalFull4 internalNode3 (by decide) (by decide) 99
  ⟨h.1.2.2.1, h.1.2.2.2.1, h.2.2.2.2.1, h.2.2.2.2.2.1 (by decide), h.2.2.2.2.2.2.2⟩

/-! ## Internal page: split -/

/-- The entries after the internal `MoveHalfTo` into an empty sibling, for a node that holds at
least `GetMinSize()` entries. -/
theorem internal_moveHalfTo_entries {K V : Type} (p sibling : BPlusTreeInternalPage K V)
    (_hmin : p.GetMinSize ≤ p.size_) (hempty : sibling.size_ = 0) :
    (p.MoveHalfTo sibling).1.size_ = p.GetMinSize ∧
    (∀ j, (p.MoveHalfTo sibling).1.array_ j = p.array_ j) ∧
    (p.MoveHalfTo sibling).2.size_ = p.size_ - p.GetMinSize ∧
    (∀ j, j < p.size_ - p.GetMinSize →
      (p.MoveHalfTo sibling).2.array_ j = p.array_ (p.GetMinSize + j)) := by
  refine ⟨rfl, fun _ => rfl, ?_, ?_⟩
  · simp only [BPlusTreeInternalPage.MoveHalfTo, BPlusTreeInternalPage.MoveHalfToAt,
      BPlusTreeInternalPage.CopyNFrom, hempty]
    omega
  · intro j hj
    simp only [BPlusTreeInternalPage.MoveHalfTo, BPlusTreeInternalPage.MoveHalfToAt,
      BPlusTreeInternalPage.CopyNFrom, copy_range, hempty]
    rw [if_pos (by omega)]
    simp

/-- Counterexample for C12: a full internal node of capacity 3 (keys 10, 20 ascending) split
into an empty sibling of capacity 3 leaves the sibling with 1 entry, below
`ceil(3 / 2) = 2`; and whatever the split slot, the two sizes are not both at least 2. -/
theorem internal_split_odd_capacity_sibling_below_minsize :
    (internalFull3.size_ = internalFull3.max_size_ ∧ 2 ≤ internalFull3.max_size_ ∧
      internalEmpty3.size_ = 0 ∧ internalEmpty3.max_size_ = internalFull3.max_size_ ∧
      internalFull3.GetMinSize = 2 ∧
      (internalFull3.MoveHalfTo internalEmpty3).2.size_ = 1 ∧
      ¬ (internalFull3.GetMinSize ≤ (internalFull3.MoveHalfTo internalEmpty3).2.size_)) ∧
    (∀ begin_idx : Nat,
      ¬ ((internalFull3.max_size_ + 1) / 2
            ≤ (internalFull3.MoveHalfToAt internalEmpty3 begin_idx).1.size_ ∧
        (internalFull3.MoveHalfToAt internalEmpty3 begin_idx).1.size_ ≤ internalFull3.max_size_ ∧
        (internalFull3.max_size_ + 1) / 2
            ≤ (internalFull3.MoveHalfToAt internalEmpty3 begin_idx).2.size_)) := by
  refine ⟨by decide, ?_⟩
  intro b h
  have h1 : 2 ≤ b := h.1
  have h2 : b ≤ 3 := h.2.1
  have h3 : 2 ≤ 0 + (3 - b) := h.2.2
  omega

/-- C12 (amended). For every full internal node (`size = max_size ≥ 2`) with strictly ascending
keys and every empty sibling with the same `max_size`, after `MoveHalfTo(sibling)` the source
holds `ceil(max_size / 2)` entries and the sibling `floor(max_size / 2)`, so both sizes lie in
`[floor(max_size / 2), max_size]`, and in `[minsize, max_size]` when `max_size` is even; every
key retained in the source in a slot `≥ 1` is strictly below every key of the sibling. -/
theorem internal_split_occupancy {K V : Type} [LinearOrder K]
    (p sibling : BPlusTreeInternalPage K V) (hfull : p.size_ = p.max_size_)
    (hmax : 2 ≤ p.max_size_) (hasc : KeysAscending p.array_ 1 p.size_)
    (hempty : sibling.size_ = 0) (hsame : sibling.max_size_ = p.max_size_) :
    (p.MoveHalfTo sibling).1.size_ = (p.max_size_ + 1) / 2 ∧
    (p.MoveHalfTo sibling).2.size_ = p.max_size_ / 2 ∧
    p.max_size_ / 2 ≤ (p.MoveHalfTo sibling).1.size_ ∧
    (p.MoveHalfTo sibling).1.size_ ≤ (p.MoveHalfTo sibling).1.max_size_ ∧
    p.max_size_ / 2 ≤ (p.MoveHalfTo sibling).2.size_ ∧
    (p.MoveHalfTo sibling).2.size_ ≤ (p.MoveHalfTo sibling).2.max_size_ ∧
    (p.max_size_ % 2 = 0 →
      (p.MoveHalfTo sibling).1.GetMinSize ≤ (p.MoveHalfTo sibling).1.size_ ∧
      (p.MoveHalfTo sibling).2.GetMinSize ≤ (p.MoveHalfTo sibling).2.size_) ∧
    (∀ i j, 1 ≤ i → i < (p.MoveHalfTo sibling).1.size_ → j < (p.MoveHalfTo sibling).2.size_ →
      (p.MoveHalfTo sibling).1.KeyAt i < (p.MoveHalfTo sibling).2.KeyAt j) := by
  have hmin : p.GetMinSize ≤ p.size_ := by
    unfold BPlusTreeInternalPage.GetMinSize; omega
  obtain ⟨h1, h2, h3, h4⟩ := internal_moveHalfTo_entries p sibling hmin hempty
  have hg : p.GetMinSize = (p.max_size_ + 1) / 2 := rfl
  have hm1 : (p.MoveHalfTo sibling).1.max_size_ = p.max_size_ := rfl
  have hm2 : (p.MoveHalfTo sibling).2.max_size_ = p.max_size_ := hsame
  have hg1 : (p.MoveHalfTo sibling).1.GetMinSize = (p.max_size_ + 1) / 2 := rfl
  have hg2 : (p.MoveHalfTo sibling).2.GetMinSize = (p.max_size_ + 1) / 2 := by
    unfold BPlusTreeInternalPage.GetMinSize; rw [hm2]
  refine ⟨by omega, by omega, by omega, by omega, by omega, by omega, ?_, ?_⟩
  · intro heven
    constructor <;> omega
  · intro i j hi1 hi2 hj
    unfold BPlusTreeInternalPage.KeyAt
    rw [h2 i, h4 j (by omega)]
    exact hasc i (p.GetMinSize + j) hi1 (by omega) (by omega)

/-- Witness for C12 (amended): the full node of capacity 4 with keys 10, 20, 30. -/
theorem internal_split_occupancy_witness :
    (internalFull4.MoveHalfTo internalEmpty4).1.size_ = 2 ∧
    (internalFull4.MoveHalfTo internalEmpty4).2.size_ = 2 ∧
    (internalFull4.MoveHalfTo internalEmpty4).1.KeyAt 1
      < (internalFull4.MoveHalfTo internalEmpty4).2.KeyAt 0 :=
  have h := internal_split_occupancy internalFull4 internalEmpty4 (by decide) (by decide)
    (by
      intro i j h1 h2 h3
      have h3 : j < 4 := h3
      interval_cases j <;> interval_cases i <;> decide)
    (by decide) (by decide)
  ⟨h.1, h.2.1, h.2.2.2.2.2.2.2 1 0 (by decide) (by decide) (by decide)⟩

/-- Counterexample for C13: a node of capacity 4 holding 2 entries keeps both entries and moves
none, although `ceil(2 / 2) = 1`; and no split slot that is the same for two nodes of capacity 4
with 2 and with 4 entries leaves `ceil(n / 2)` entries in both. -/
theorem internal_split_point_is_not_half_of_size :
    (2 ≤ internalNode2.size_ ∧ internalEmpty4.size_ = 0 ∧
      (internalNode2.MoveHalfTo internalEmpty4).1.size_ = 2 ∧
      (internalNode2.MoveHalfTo internalEmpty4).2.size_ = 0 ∧
      (internalNode2.MoveHalfTo internalEmpty4).1.size_ ≠ (internalNode2.size_ + 1) / 2) ∧
    (∀ begin_idx : Nat,
      ¬ ((internalNode2.MoveHalfToAt internalEmpty4 begin_idx).1.size_
            = (internalNode2.size_ + 1) / 2 ∧
         (internalFull4.MoveHalfToAt internalEmpty4 begin_idx).1.size_
            = (internalFull4.size_ + 1) / 2)) := by
  refine ⟨by decide, ?_⟩
  intro b h
  have h1 : b = 1 := h.1
  have h2 : b = 2 := h.2
  omega

/-- C13 (amended). For every internal node of size `n ≥ ceil(max_size / 2)` and every empty
sibling, `MoveHalfTo(sibling)` moves exactly the entries of the slots `[ceil(max_size/2), n)`
into the sibling in their original order and leaves the source with exactly its first
`ceil(max_size / 2)` entries; the split slot is `ceil(n / 2)` when the node is full
(`n = max_size`). -/
theorem internal_split_point {K V : Type} (p sibling : BPlusTreeInternalPage K V)
    (hmin : (p.max_size_ + 1) / 2 ≤ p.size_) (hempty : sibling.size_ = 0) :
    (p.MoveHalfTo sibling).1.size_ = (p.max_size_ + 1) / 2 ∧
    (∀ j, j < (p.max_size_ + 1) / 2 → (p.MoveHalfTo sibling).1.array_ j = p.array_ j) ∧
    (p.MoveHalfTo sibling).2.size_ = p.size_ - (p.max_size_ + 1) / 2 ∧
    (∀ j, j < p.size_ - (p.max_size_ + 1) / 2 →
      (p.MoveHalfTo sibling).2.array_ j = p.array_ ((p.max_size_ + 1) / 2 + j)) ∧
    (p.size_ = p.max_size_ → (p.MoveHalfTo sibling).1.size_ = (p.size_ + 1) / 2) := by
  obtain ⟨h1, h2, h3, h4⟩ := internal_moveHalfTo_entries p sibling hmin hempty
  refine ⟨h1, fun j _ => h2 j, h3, h4, ?_⟩
  intro hfull
  rw [h1, hfull]
  rfl

/-- Witness for C13 (amended): the node of capacity 4 holding 3 entries keeps slots 0, 1 and
moves slot 2. -/
theorem internal_split_point_witness :
    (internalNode3.MoveHalfTo internalEmpty4).1.size_ = 2 ∧
    (internalNode3.MoveHalfTo internalEmpty4).2.size_ = 1 ∧
    (internalNode3.MoveHalfTo internalEmpty4).2.array_ 0 = (20, 3) :=
  have h := internal_split_point internalNode3 internalEmpty4 (by decide) (by decide)
  ⟨h.1, h.2.2.1, h.2.2.2.1 0 (by decide)⟩

/-! ## Leaf page: `KeyIndex`, `Insert`, split -/

/-- On a leaf with ascending keys `KeyIndex` returns the first slot whose key is not below the
key looked for. -/
theorem leaf_keyIndex_spec {K V : Type} [LinearOrder K] (p : BPlusTreeLeafPage K V)
    (comparator : K → K → Int) (hc : LawfulComparator comparator)
    (hasc : KeysAscending p.array_ 0 p.size_) (k : K) :
    p.KeyIndex k comparator ≤ p.size_ ∧
    (∀ j, j < p.KeyIndex k comparator → (p.array_ j).1 < k) ∧
    (∀ j, p.KeyIndex k comparator ≤ j → j < p.size_ → k ≤ (p.array_ j).1) := by
  have hspec := lower_bound_spec (fun i => decide (comparator (p.array_ i).1 k < 0)) 0 p.size_
    (Nat.zero_le _)
    (by
      intro a b h1 h2 h3 h4
      simp only [decide_eq_true_eq] at h4 ⊢
      rw [hc.lt_iff] at h4 ⊢
      rcases Nat.eq_or_lt_of_le h2 with h | h
      · rw [h]; exact h4
      · exact lt_trans (hasc a b h1 h h3) h4)
  obtain ⟨_, s2, s3, s4⟩ := hspec
  refine ⟨s2, ?_, ?_⟩
  · intro j hj
    have := s3 j (Nat.zero_le _) hj
    simp only [decide_eq_true_eq] at this
    exact (hc.lt_iff _ _).1 this
  · intro j h1 h2
    have := s4 j h1 h2
    simp only [decide_eq_false_iff_not] at this
    rw [hc.lt_iff] at this
    exact not_lt.1 this

/-- The array after a new entry has been put into slot `idx` of `size` live slots. -/
theorem insert_at_array {α : Type} (a : Nat → α) (idx size : Nat) (x : α) (h : idx ≤ size)
    (j : Nat) (hj : j ≤ size) :
    store (move_backward a idx size (size + 1)) idx x j
      = if j < idx then a j else if j = idx then x else a (j - 1) := by
  unfold store move_backward
  by_cases h1 : j = idx
  · rw [if_pos h1, if_neg (by omega), if_pos h1]
  · by_cases h2 : j < idx
    · rw [if_neg h1, if_neg (by omega), if_pos h2]
    · have h4 : size - (size + 1 - j) = j - 1 := by omega
      rw [if_neg h1, if_pos (by omega), if_neg h2, if_neg h1, h4]

/-- Putting a key between its lower and upper neighbours keeps the keys ascending. -/
theorem ascending_insert {K V : Type} [LinearOrder K] (a b : Nat → K × V) (idx size : Nat)
    (k : K) (r : V) (hidx : idx ≤ size) (hasc : KeysAscending a 0 size)
    (hlo : ∀ j, j < idx → (a j).1 < k) (hhi : ∀ j, idx ≤ j → j < size → k < (a j).1)
    (hb : ∀ j, j ≤ size → b j = if j < idx then a j else if j = idx then (k, r) else a (j - 1)) :
    KeysAscending b 0 (size + 1) := by
  intro x y _ hxy hy
  rw [hb x (by omega), hb y (by omega)]
  by_cases hy1 : y < idx
  · rw [if_pos (by omega), if_pos hy1]
    exact hasc x y (Nat.zero_le _) hxy (by omega)
  · rw [if_neg hy1]
    by_cases hy2 : y = idx
    · rw [if_pos hy2, if_pos (by omega)]
      exact hlo x (by omega)
    · rw [if_neg hy2]
      by_cases hx1 : x < idx
      · rw [if_pos hx1]
        exact lt_trans (hlo x hx1) (hhi (y - 1) (by omega) (by omega))
      · rw [if_neg hx1]
        by_cases hx2 : x = idx
        · rw [if_pos hx2]
          exact hhi (y - 1) (by omega) (by omega)
        · rw [if_neg hx2]
          exact hasc (x - 1) (y - 1) (Nat.zero_le _) (by omega) (by omega)

/-- Leaf `Insert` of a key that is present returns the page as it is, with its size. -/
theorem leaf_insert_present {K V : Type} [LinearOrder K] (p : BPlusTreeLeafPage K V)
    (comparator : K → K → Int) (hc : LawfulComparator comparator)
    (hasc : KeysAscending p.array_ 0 p.size_) (k : K) (r : V)
    (hpresent : ∃ j, j < p.size_ ∧ (p.array_ j).1 = k) :
    p.Insert k r comparator = (p, p.size_) := by
  obtain ⟨j, hj, hjk⟩ := hpresent
  obtain ⟨s1, s2, s3⟩ := leaf_keyIndex_spec p comparator hc hasc k
  have hle : p.KeyIndex k comparator ≤ j := by
    by_contra hn
    have := s2 j (by omega)
    rw [hjk] at this
    exact lt_irrefl _ this
  have hkey : (p.array_ (p.KeyIndex k comparator)).1 = k := by
    apply le_antisymm
    · have hij : (p.array_ (p.KeyIndex k comparator)).1 ≤ (p.array_ j).1 := by
        rcases Nat.eq_or_lt_of_le hle with e | e
        · rw [e]
        · exact le_of_lt (hasc _ j (Nat.zero_le _) e hj)
      exact le_trans hij (le_of_eq hjk)
    · exact s3 _ (le_refl _) (by omega)
  unfold BPlusTreeLeafPage.Insert
  simp only []
  rw [if_neg (by omega), if_pos ((hc.eq_iff _ _).2 hkey)]

/-- Leaf `Insert` of a key that is absent: the size grows by one and the new pair sits in slot
`KeyIndex(k)`, between the entries before it and the entries after it moved right by one. -/
theorem leaf_insert_absent {K V : Type} [LinearOrder K] (p : BPlusTreeLeafPage K V)
    (comparator : K → K → Int) (hc : LawfulComparator comparator)
    (hasc : KeysAscending p.array_ 0 p.size_) (k : K) (r : V)
    (habsent : ∀ j, j < p.size_ → (p.array_ j).1 ≠ k) :
    (p.Insert k r comparator).2 = p.size_ + 1 ∧
    (p.Insert k r comparator).1.size_ = p.size_ + 1 ∧
    (p.Insert k r comparator).1.max_size_ = p.max_size_ ∧
    (∀ j, j ≤ p.size_ → (p.Insert k r comparator).1.array_ j
      = if j < p.KeyIndex k comparator then p.array_ j
        else if j = p.KeyIndex k comparator then (k, r) else p.array_ (j - 1)) := by
  obtain ⟨s1, _, _⟩ := leaf_keyIndex_spec p comparator hc hasc k
  unfold BPlusTreeLeafPage.Insert
  simp only []
  by_cases h1 : p.KeyIndex k comparator = p.size_
  · rw [if_pos h1]
    refine ⟨rfl, rfl, rfl, ?_⟩
    intro j hj
    simp only [store]
    by_cases h2 : j = p.KeyIndex k comparator
    · rw [if_pos h2, if_neg (by omega), if_pos h2]
    · rw [if_neg h2, if_pos (by omega)]
  · rw [if_neg h1]
    have hne : ¬ comparator (p.array_ (p.KeyIndex k comparator)).1 k = 0 := by
      intro h0
      exact habsent _ (by omega) ((hc.eq_iff _ _).1 h0)
    rw [if_neg hne]
    refine ⟨rfl, rfl, rfl, ?_⟩
    intro j hj
    simp only []
    exact insert_at_array p.array_ _ p.size_ (k, r) s1 j hj

/-- Leaf `Insert` keeps the keys ascending. -/
theorem leaf_insert_ascending {K V : Type} [LinearOrder K] (p : BPlusTreeLeafPage K V)
    (comparator : K → K → Int) (hc : LawfulComparator comparator)
    (hasc : KeysAscending p.array_ 0 p.size_) (k : K) (r : V) :
    KeysAscending (p.Insert k r comparator).1.array_ 0 (p.Insert k r comparator).1.size_ := by
  by_cases hpresent : ∃ j, j < p.size_ ∧ (p.array_ j).1 = k
  · rw [leaf_insert_present p comparator hc hasc k r hpresent]
    exact hasc
  · have habsent : ∀ j, j < p.size_ → (p.array_ j).1 ≠ k := by
      intro j hj hjk
      exact hpresent ⟨j, hj, hjk⟩
    obtain ⟨_, h2, _, h4⟩ := leaf_insert_absent p comparator hc hasc k r habsent
    obtain ⟨s1, s2, s3⟩ := leaf_keyIndex_spec p comparator hc hasc k
    rw [h2]
    exact ascending_insert p.array_ _ (p.KeyIndex k comparator) p.size_ k r s1 hasc s2
      (fun j hj1 hj2 => lt_of_le_of_ne (s3 j hj1 hj2) (fun e => habsent j hj2 e.symm)) h4

theorem leaf3_ascending : KeysAscending leaf3.array_ 0 leaf3.size_ := by
  intro i j _ h2 h3
  have h3 : j < 3 := h3
  interval_cases j <;> interval_cases i <;> decide

/-- C20. Leaf `Insert(k, r)` on a leaf with strictly ascending keys and room for one more
entry: the keys are still strictly ascending and the size stays within `max_size`; when `k` was
absent the returned size and the new size are the old size plus one, `(k, r)` sits in slot
`KeyIndex(k)`, the entries before that slot are unchanged and the entries from that slot on
have moved one slot to the right. -/
theorem leaf_insert_keeps_sorted {K V : Type} [LinearOrder K] (p : BPlusTreeLeafPage K V)
    (comparator : K → K → Int) (hc : LawfulComparator comparator)
    (hasc : KeysAscending p.array_ 0 p.size_) (hroom : p.size_ < p.max_size_) (k : K) (r : V) :
    KeysAscending (p.Insert k r comparator).1.array_ 0 (p.Insert k r comparator).1.size_ ∧
    (p.Insert k r comparator).1.size_ ≤ (p.Insert k r comparator).1.max_size_ ∧
    ((∀ j, j < p.size_ → p.KeyAt j ≠ k) →
      (p.Insert k r comparator).2 = p.size_ + 1 ∧
      (p.Insert k r comparator).1.size_ = p.size_ + 1 ∧
      p.KeyIndex k comparator ≤ p.size_ ∧
      (p.Insert k r comparator).1.array_ (p.KeyIndex k comparator) = (k, r) ∧
      (∀ j, j < p.KeyIndex k comparator → (p.Insert k r comparator).1.array_ j = p.array_ j) ∧
      (∀ j, p.KeyIndex k comparator ≤ j → j < p.size_ →
        (p.Insert k r comparator).1.array_ (j + 1) = p.array_ j)) := by
  refine ⟨leaf_insert_ascending p comparator hc hasc k r, ?_, ?_⟩
  · by_cases hpresent : ∃ j, j < p.size_ ∧ (p.array_ j).1 = k
    · rw [leaf_insert_present p comparator hc hasc k r hpresent]
      exact le_of_lt hroom
    · have habsent : ∀ j, j < p.size_ → (p.array_ j).1 ≠ k := by
        intro j hj hjk
        exact hpresent ⟨j, hj, hjk⟩
      obtain ⟨_, h2, h3, _⟩ := leaf_insert_absent p comparator hc hasc k r habsent
      rw [h2, h3]
      omega
  · intro habsent
    obtain ⟨h1, h2, _, h4⟩ := leaf_insert_absent p comparator hc hasc k r habsent
    obtain ⟨s1, _, _⟩ := leaf_keyIndex_spec p comparator hc hasc k
    refine ⟨h1, h2, s1, ?_, ?_, ?_⟩
    · rw [h4 _ s1, if_neg (lt_irrefl _), if_pos rfl]
    · intro j hj
      rw [h4 j (by omega), if_pos hj]
    · intro j hj1 hj2
      rw [h4 (j + 1) (by omega), if_neg (by omega), if_neg (by omega)]
      rfl

/-- Witness for C20: inserting `(15, 150)` into the leaf with keys 10, 20, 30 puts it in
slot 1. -/
theorem leaf_insert_keeps_sorted_witness :
    KeysAscending (leaf3.Insert 15 150 intComparator).1.array_ 0
      (leaf3.Insert 15 150 intComparator).1.size_ ∧
    (leaf3.Insert 15 150 intComparator).2 = 4 ∧
    (leaf3.Insert 15 150 intComparator).1.array_ 1 = (15, 150) :=
  have h := leaf_insert_keeps_sorted leaf3 intComparator intComparator_lawful leaf3_ascending
    (by decide) 15 150
  have h2 := h.2.2 (by
    intro j hj
    have hj : j < 3 := hj
    interval_cases j <;> decide)
  ⟨h.1, h2.1, h2.2.2.2.1⟩

/-- C14. Leaf `Insert(k, r)` on a leaf with strictly ascending keys: when `k` is already
present the call returns the unchanged size and the unchanged page (every entry, the record id
under `k` included); consequently, on a leaf with room, inserting `(k, r)` a second time gives
the same page and the same returned size as inserting it once. -/
theorem leaf_insert_duplicate_idempotent {K V : Type} [LinearOrder K]
    (p : BPlusTreeLeafPage K V) (comparator : K → K → Int) (hc : LawfulComparator comparator)
    (hasc : KeysAscending p.array_ 0 p.size_) (k : K) (r : V) :
    ((∃ j, j < p.size_ ∧ p.KeyAt j = k) → p.Insert k r comparator = (p, p.size_)) ∧
    (p.size_ < p.max_size_ →
      (p.Insert k r comparator).1.Insert k r comparator = p.Insert k r comparator) := by
  constructor
  · intro hpresent
    exact leaf_insert_present p comparator hc hasc k r hpresent
  · intro _
    have hasc2 := leaf_insert_ascending p comparator hc hasc k r
    have hfacts : (∃ j, j < (p.Insert k r comparator).1.size_ ∧
        ((p.Insert k r comparator).1.array_ j).1 = k) ∧
        (p.Insert k r comparator).2 = (p.Insert k r comparator).1.size_ := by
      by_cases hpresent : ∃ j, j < p.size_ ∧ (p.array_ j).1 = k
      · rw [leaf_insert_present p comparator hc hasc k r hpresent]
        exact ⟨hpresent, rfl⟩
      · have habsent : ∀ j, j < p.size_ → (p.array_ j).1 ≠ k := by
          intro j hj hjk
          exact hpresent ⟨j, hj, hjk⟩
        obtain ⟨h1, h2, _, h4⟩ := leaf_insert_absent p comparator hc hasc k r habsent
        obtain ⟨s1, _, _⟩ := leaf_keyIndex_spec p comparator hc hasc k
        refine ⟨⟨p.KeyIndex k comparator, by omega, ?_⟩, by rw [h1, h2]⟩
        rw [h4 _ s1, if_neg (lt_irrefl _), if_pos rfl]
    rw [leaf_insert_present (p.Insert k r comparator).1 comparator hc hasc2 k r hfacts.1]
    exact Prod.ext rfl hfacts.2.symm

/-- Witness for C14: inserting key 20 again into the leaf with keys 10, 20, 30 changes
nothing, and so does inserting `(15, 150)` a second time. -/
theorem leaf_insert_duplicate_idempotent_witness :
    leaf3.Insert 20 999 intComparator = (leaf3, 3) ∧
    (leaf3.Insert 15 150 intComparator).1.Insert 15 150 intComparator
      = leaf3.Insert 15 150 intComparator :=
  have h := leaf_insert_duplicate_idempotent leaf3 intComparator intComparator_lawful
    leaf3_ascending
  ⟨(h 20 999).1 ⟨1, by decide, by decide⟩, (h 15 150).2 (by decide)⟩

/-- C15 (defect in the code). On the leaf with keys 10, 20, 30 and an output cell holding 0:
`LookUp(35)`, a key above every stored key, returns false and leaves the cell untouched; but
`LookUp(15)`, an absent key whose lower bound lands on the stored key 20, returns true and
writes 200, the record id of key 20, into the cell. -/
theorem leaf_lookup_absent_key_reports_neighbour :
    leaf3.KeyIndex 35 intComparator = leaf3.size_ ∧
    leaf3.LookUp 35 0 intComparator = (false, 0) ∧
    leaf3.KeyIndex 15 intComparator = 1 ∧
    leaf3.KeyAt 1 = 20 ∧
    leaf3.LookUp 15 0 intComparator = (true, 200) := by
  decide

/-- Counterexample for C11: the leaf with keys 10, 20, 30 and capacity 4 holds
`3 ≥ minsize = 2` entries; after `MoveHalfTo` into an empty leaf the recipient has size 2, not
`3 - 2 = 1`, and its slot 1 holds `(0, 0)`, the content of the source's slot 3 beyond its size,
which is none of the source's entries.  Whatever the split slot `b ≤ 3`, the recipient ends
with `4 - b` entries, not `3 - b`. -/
theorem leaf_split_copies_up_to_max_size :
    (leaf3.GetMinSize ≤ leaf3.size_ ∧ emptyLeaf.size_ = 0 ∧
      (leaf3.MoveHalfTo emptyLeaf).2.size_ = 2 ∧
      (leaf3.MoveHalfTo emptyLeaf).2.size_ ≠ leaf3.size_ - leaf3.GetMinSize ∧
      (leaf3.MoveHalfTo emptyLeaf).2.array_ 1 = (0, 0) ∧
      (∀ j, j < leaf3.size_ → leaf3.array_ j ≠ (leaf3.MoveHalfTo emptyLeaf).2.array_ 1)) ∧
    (∀ begin_size : Nat, begin_size ≤ leaf3.size_ →
      (leaf3.MoveHalfToAt emptyLeaf begin_size).2.size_ ≠ leaf3.size_ - begin_size) := by
  refine ⟨⟨by decide, by decide, by decide, by decide, by decide, ?_⟩, ?_⟩
  · intro j hj
    have hj : j < 3 := hj
    interval_cases j <;> decide
  · intro b hb h
    have hb : b ≤ 3 := hb
    have h : 0 + (4 - b) = 3 - b := h
    omega

/-- C11 (amended). For every full leaf (`size = max_size`) and every empty recipient leaf, after
`MoveHalfTo(recipient)` the source holds exactly its former entries of the slots `[0, minsize)`
with size `minsize = ceil(max_size / 2)`, and the recipient holds exactly the source's former
entries of the slots `[minsize, size)`, in order, with size `size - minsize`. -/
theorem leaf_split_full {K V : Type} (p recipient : BPlusTreeLeafPage K V)
    (hfull : p.size_ = p.max_size_) (hempty : recipient.size_ = 0) :
    p.GetMinSize = (p.max_size_ + 1) / 2 ∧
    (p.MoveHalfTo recipient).1.size_ = p.GetMinSize ∧
    (∀ j, j < p.GetMinSize → (p.MoveHalfTo recipient).1.array_ j = p.array_ j) ∧
    (p.MoveHalfTo recipient).2.size_ = p.size_ - p.GetMinSize ∧
    (∀ j, j < p.size_ - p.GetMinSize →
      (p.MoveHalfTo recipient).2.array_ j = p.array_ (p.GetMinSize + j)) := by
  refine ⟨rfl, rfl, fun _ _ => rfl, ?_, ?_⟩
  · simp only [BPlusTreeLeafPage.MoveHalfTo, BPlusTreeLeafPage.MoveHalfToAt,
      BPlusTreeLeafPage.CopyNFrom, hempty, hfull]
    omega
  · intro j hj
    simp only [BPlusTreeLeafPage.MoveHalfTo, BPlusTreeLeafPage.MoveHalfToAt,
      BPlusTreeLeafPage.CopyNFrom, copy_range, hempty]
    rw [if_pos (by omega)]
    simp

/-- Witness for C11 (amended): the full leaf with keys 10, 20, 30, 40 keeps 10, 20 and hands
over 30, 40. -/
theorem leaf_split_full_witness :
    (leafFull4.MoveHalfTo emptyLeaf).1.size_ = 2 ∧
    (leafFull4.MoveHalfTo emptyLeaf).2.size_ = 2 ∧
    (leafFull4.MoveHalfTo emptyLeaf).2.array_ 0 = (30, 300) ∧
    (leafFull4.MoveHalfTo emptyLeaf).2.array_ 1 = (40, 400) :=
  have h := leaf_split_full leafFull4 emptyLeaf (by decide) (by decide)
  ⟨h.2.1, h.2.2.2.1, h.2.2.2.2 0 (by decide), h.2.2.2.2 1 (by decide)⟩

/-! ## Hash table: `Remove` followed by `Find` -/

theorem bucket_overwriteItem_keys {K V : Type} [DecidableEq K] (l : List (K × V)) (key : K)
    (value : V) : (Bucket.overwriteItem l key value).2.map Prod.fst = l.map Prod.fst := by
  induction l with
  | nil => rfl
  | cons i rest ih =>
    simp only [Bucket.overwriteItem]
    split_ifs
    · rfl
    · simp [ih]

theorem bucket_overwriteItem_false {K V : Type} [DecidableEq K] (l : List (K × V)) (key : K)
    (value : V) (h : (Bucket.overwriteItem l key value).1 = false) : key ∉ l.map Prod.fst := by
  induction l with
  | nil => simp
  | cons i rest ih =>
    simp only [Bucket.overwriteItem] at h
    split_ifs at h with he
    simp only [List.map_cons, List.mem_cons, not_or]
    exact ⟨fun e => he e.symm, ih h⟩

theorem bucket_removeItem_sublist {K V : Type} [DecidableEq K] (l : List (K × V)) (key : K) :
    (Bucket.removeItem l key).2.Sublist l := by
  induction l with
  | nil => exact List.Sublist.refl _
  | cons i rest ih =>
    simp only [Bucket.removeItem]
    split_ifs
    · exact List.sublist_cons_self _ _
    · exact ih.cons₂ _

theorem bucket_insert_nodup {K V : Type} [DecidableEq K] (b : Bucket K V) (key : K) (value : V)
    (h : (b.list_.map Prod.fst).Nodup) : ((b.Insert key value).2.list_.map Prod.fst).Nodup := by
  unfold Bucket.Insert
  split_ifs with h1 h2
  · simp only [bucket_overwriteItem_keys]
    exact h
  · exact h
  · simp only [List.map_append, List.map_cons, List.map_nil]
    rw [List.nodup_append]
    refine ⟨h, List.nodup_singleton _, ?_⟩
    intro a ha hb
    rw [List.mem_singleton] at hb
    rw [hb] at ha
    have hf : (Bucket.overwriteItem b.list_ key value).1 = false := by
      cases hv : (Bucket.overwriteItem b.list_ key value).1 with
      | false => rfl
      | true => exact absurd hv h1
    exact bucket_overwriteItem_false _ _ _ hf ha

theorem bucket_remove_nodup {K V : Type} [DecidableEq K] (b : Bucket K V) (key : K)
    (h : (b.list_.map Prod.fst).Nodup) : ((b.Remove key).2.list_.map Prod.fst).Nodup :=
  ((bucket_removeItem_sublist b.list_ key).map Prod.fst).nodup h

theorem hash_redistribute_nodup {K V : Type} [DecidableEq K] (hash : K → Nat)
    (t t2 : ExtendibleHashTable K V) (h : BucketsNodup t) (ref : Nat) (href : ref < t.heap.length)
    (hsome : ExtendibleHashTable.RedistributeBucket hash t ref = some t2) :
    BucketsNodup t2 := by
  have hb := h _ (hash_deref_mem t ref href)
  obtain ⟨slot, heq⟩ := hash_redistribute_some hash t t2 ref hsome
  rw [heq]
  intro b hbm
  rcases List.mem_append.1 hbm with h1 | h1
  · rcases List.mem_or_eq_of_mem_set h1 with h2 | h2
    · exact h b h2
    · rw [h2]; exact hb
  · rw [List.mem_singleton] at h1
    rw [h1]; simp [Bucket.new]

theorem hash_set_bucket_nodup {K V : Type} (t : ExtendibleHashTable K V) (h : BucketsNodup t)
    (ref : Nat) (b : Bucket K V) (hb : (b.list_.map Prod.fst).Nodup) :
    BucketsNodup { t with heap := t.heap.set ref b } := by
  intro x hx
  rcases List.mem_or_eq_of_mem_set hx with h1 | h1
  · exact h x h1
  · rw [h1]; exact hb

theorem hash_insertLoop_nodup {K V : Type} [DecidableEq K] (hash : K → Nat) (bucket_size : Nat)
    (key : K) (value : V) :
    ∀ (fuel : Nat) (t t2 : ExtendibleHashTable K V), DirInv bucket_size t → BucketsNodup t →
      (ExtendibleHashTable.InsertLoop hash fuel t key value).state? = some t2 →
      BucketsNodup t2 := by
  intro fuel
  induction fuel with
  | zero =>
    intro t t2 _ h hs
    simp only [ExtendibleHashTable.InsertLoop, InsertResult.state?, Option.some.injEq] at hs
    rw [← hs]; exact h
  | succ fuel ih =>
    intro t t2 hd h hs
    have hidx : ExtendibleHashTable.IndexOf hash t key < t.dir_.length := by
      rw [hd.dir_len]; exact hash_indexOf_lt hash t key
    have href := hash_slot_ref_lt bucket_size t hd _ hidx
    have hb := h _ (hash_deref_mem t _ href)
    have hdb := hd.buckets _ (hash_deref_mem t _ href)
    simp only [ExtendibleHashTable.InsertLoop] at hs
    split_ifs at hs with h1 h2
    · simp only [InsertResult.state?, Option.some.injEq] at hs
      rw [← hs]
      exact hash_set_bucket_nodup t h _ _ (bucket_insert_nodup _ key value hb)
    · split at hs
      · simp [InsertResult.state?] at hs
      · rename_i t3 hr
        exact ih t3 t2 (hash_redistribute_inv hash bucket_size t t3 hd _ href h2 hr)
          (hash_redistribute_nodup hash t t3 h _ href hr) hs
    · split at hs
      · simp [InsertResult.state?] at hs
      · rename_i t3 hr
        refine ih t3 t2 (hash_redistribute_inv hash bucket_size _ t3
          (hash_double_inv bucket_size t hd) _ href ?_ hr)
          (hash_redistribute_nodup hash
            { t with global_depth_ := t.global_depth_ + 1, dir_ := t.dir_ ++ t.dir_ } t3 h _
            href hr) hs
        show (t.deref (t.dir_.getD (ExtendibleHashTable.IndexOf hash t key) 0)).depth_
          < t.global_depth_ + 1
        omega

theorem hash_reachable_nodup {K V : Type} [DecidableEq K] (hash : K → Nat) (bucket_size : Nat)
    (t : ExtendibleHashTable K V) (hr : ExtendibleHashTable.Reachable hash bucket_size t) :
    BucketsNodup t := by
  induction hr with
  | init =>
    intro b hb
    simp [ExtendibleHashTable.new] at hb
    simp [hb, Bucket.new]
  | insert t key value fuel t2 hr0 hs ih =>
    exact hash_insertLoop_nodup hash bucket_size key value fuel t t2
      (hash_reachable_inv hash bucket_size t hr0) ih (by rw [hs]; rfl)
  | remove t key hr0 ih =>
    have hd := hash_reachable_inv hash bucket_size t hr0
    have hidx : ExtendibleHashTable.IndexOf hash t key < t.dir_.length := by
      rw [hd.dir_len]; exact hash_indexOf_lt hash t key
    have href := hash_slot_ref_lt bucket_size t hd _ hidx
    unfold ExtendibleHashTable.Remove
    exact hash_set_bucket_nodup t ih _ _
      (bucket_remove_nodup _ key (ih _ (hash_deref_mem t _ href)))

theorem bucket_find_after_remove {K V : Type} [DecidableEq K] (l : List (K × V)) (key : K)
    (h : (l.map Prod.fst).Nodup) : Bucket.findItem (Bucket.removeItem l key).2 key = none := by
  induction l with
  | nil => rfl
  | cons i rest ih =>
    simp only [List.map_cons, List.nodup_cons] at h
    simp only [Bucket.removeItem]
    split_ifs with he
    · have hnot : key ∉ rest.map Prod.fst := by rw [← he]; exact h.1
      clear ih h he
      induction rest with
      | nil => rfl
      | cons j rest2 ih2 =>
        simp only [List.map_cons, List.mem_cons, not_or] at hnot
        simp only [Bucket.findItem]
        rw [if_neg (fun e => hnot.1 e.symm)]
        exact ih2 hnot.2
    · simp only [Bucket.findItem]
      rw [if_neg he]
      exact ih h.2

theorem bucket_remove_true_iff {K V : Type} [DecidableEq K] (l : List (K × V)) (key : K) :
    (Bucket.removeItem l key).1 = true ↔ (Bucket.findItem l key).isSome = true := by
  induction l with
  | nil => simp [Bucket.removeItem, Bucket.findItem]
  | cons i rest ih =>
    simp only [Bucket.removeItem, Bucket.findItem]
    split_ifs with he
    · simp
    · exact ih

/-- C16. In every state reached by `Insert` and `Remove` calls that have returned, from a
freshly constructed table (bucket capacity at least 1, any hash function), and for every key:
`Find(key)` right after `Remove(key)` reports not-found, and `Remove(key)` returns true exactly
when `Find(key)` reports found just before the call.  (An `Insert` whose split has to move an
entry has undefined behaviour and reaches no state, see `RedistributeLoop`.) -/
theorem hash_remove_then_find {K V : Type} [DecidableEq K] (hash : K → Nat)
    (bucket_size : Nat) (_hcap : 1 ≤ bucket_size) (t : ExtendibleHashTable K V)
    (hr : ExtendibleHashTable.Reachable hash bucket_size t) (key : K) :
    ExtendibleHashTable.Find hash (ExtendibleHashTable.Remove hash t key).2 key = none ∧
    ((ExtendibleHashTable.Remove hash t key).1 = true ↔
      (ExtendibleHashTable.Find hash t key).isSome = true) := by
  have hd := hash_reachable_inv hash bucket_size t hr
  have hn := hash_reachable_nodup hash bucket_size t hr
  have hidx : ExtendibleHashTable.IndexOf hash t key < t.dir_.length := by
    rw [hd.dir_len]; exact hash_indexOf_lt hash t key
  have href := hash_slot_ref_lt bucket_size t hd _ hidx
  have hb := hn _ (hash_deref_mem t _ href)
  constructor
  · have hderef : (ExtendibleHashTable.Remove hash t key).2.deref
        (t.dir_.getD (ExtendibleHashTable.IndexOf hash t key) 0)
        = ((t.deref (t.dir_.getD (ExtendibleHashTable.IndexOf hash t key) 0)).Remove key).2 := by
      simp only [ExtendibleHashTable.Remove, ExtendibleHashTable.deref]
      rw [List.getD_eq_getElem?_getD, List.getElem?_set_self href]
      rfl
    have hfind : ExtendibleHashTable.Find hash (ExtendibleHashTable.Remove hash t key).2 key
        = ((ExtendibleHashTable.Remove hash t key).2.deref
            (t.dir_.getD (ExtendibleHashTable.IndexOf hash t key) 0)).Find key := rfl
    rw [hfind, hderef]
    exact bucket_find_after_remove _ key hb
  · exact bucket_remove_true_iff _ key

/-- Witness for C16: after `Insert` of the keys 0, 1, 3, 5, 4 (bucket capacity 1, identity
hash; every call returns and no entry changes bucket), `Remove(3)` returns true and `Find(3)`
then reports not-found. -/
theorem hash_remove_then_find_witness :
    (ExtendibleHashTable.Remove intHash tableFiveKeys 3).1 = true ∧
    ExtendibleHashTable.Find intHash (ExtendibleHashTable.Remove intHash tableFiveKeys 3).2 3
      = none :=
  have h := hash_remove_then_find intHash 1 (by decide) tableFiveKeys tableFiveKeys_reachable 3
  ⟨h.2.2 (by decide), h.1⟩

/-! ## Replacer: the history ring -/

theorem replacer_withLog_reachable (num_frames k n : Nat) (s : LRUKReplacer)
    (log : Int → List Nat) (h : LRUKReplacer.ReachableWithLog num_frames k n s log) :
    LRUKReplacer.Reachable num_frames k s := by
  induction h with
  | init => exact .init
  | recordAccess n s log f _ ih => exact .recordAccess s f ih
  | setEvictable n s log f b _ ih => exact .setEvictable s f b ih
  | evict n s log _ ih => exact .evict s ih
  | remove n s log f _ ih => exact .remove s f ih
  | reorder n s log mp _ hp ih => exact .reorder s mp ih hp

/-- Every reachable state of the replacer comes with a call count and an access log. -/
theorem replacer_reachable_withLog (num_frames k : Nat) (s : LRUKReplacer)
    (h : LRUKReplacer.Reachable num_frames k s) :
    ∃ n log, LRUKReplacer.ReachableWithLog num_frames k n s log := by
  induction h with
  | init => exact ⟨0, _, .init⟩
  | recordAccess s f _ ih =>
    obtain ⟨n, log, h⟩ := ih
    exact ⟨_, _, .recordAccess n s log f h⟩
  | setEvictable s f b _ ih =>
    obtain ⟨n, log, h⟩ := ih
    exact ⟨_, _, .setEvictable n s log f b h⟩
  | evict s _ ih =>
    obtain ⟨n, log, h⟩ := ih
    exact ⟨_, _, .evict n s log h⟩
  | remove s f _ ih =>
    obtain ⟨n, log, h⟩ := ih
    exact ⟨_, _, .remove n s log f h⟩
  | reorder s mp _ hp ih =>
    obtain ⟨n, log, h⟩ := ih
    exact ⟨_, _, .reorder n s log mp h hp⟩

theorem replacer_mostRecent_length (k : Nat) (l : List Nat) :
    (LRUKReplacer.mostRecent k l).length = min k l.length := by
  unfold LRUKReplacer.mostRecent
  rw [List.length_drop]
  omega

/-- Dropping the oldest of `k` retained timestamps and appending a new one retains the last `k`
timestamps of the extended log. -/
theorem replacer_mostRecent_snoc (k : Nat) (hk : 1 ≤ k) (l : List Nat) (x : Nat) :
    (if (LRUKReplacer.mostRecent k l).length = k then (LRUKReplacer.mostRecent k l).tail
      else LRUKReplacer.mostRecent k l) ++ [x]
      = LRUKReplacer.mostRecent k (l ++ [x]) := by
  have hlen := replacer_mostRecent_length k l
  unfold LRUKReplacer.mostRecent at *
  simp only [List.length_append, List.length_singleton]
  by_cases h : (List.drop (l.length - k) l).length = k
  · rw [if_pos h, List.tail_drop]
    have e : l.length + 1 - k = l.length - k + 1 := by omega
    rw [e, List.drop_append_of_le_length (by omega)]
  · rw [if_neg h]
    have e1 : l.length - k = 0 := by omega
    have e2 : l.length + 1 - k = 0 := by omega
    rw [e1, e2]
    rfl

theorem replacer_find_isSome_of_mem (mp : List (Int × FrameRecord)) (e : Int × FrameRecord)
    (he : e ∈ mp) : LRUKReplacer.find mp e.1 ≠ none := by
  intro h
  exact (replacer_find_none_iff mp e.1).1 h (List.mem_map_of_mem _ he)

theorem replacer_find_modify_none (mp : List (Int × FrameRecord)) (f g : Int)
    (u : FrameRecord → FrameRecord) :
    LRUKReplacer.find (LRUKReplacer.modify mp f u) g = none ↔ LRUKReplacer.find mp g = none := by
  rw [replacer_find_none_iff, replacer_find_none_iff, replacer_modify_keys]

theorem replacer_find_modify_self (mp : List (Int × FrameRecord)) (f : Int)
    (u : FrameRecord → FrameRecord) :
    LRUKReplacer.find (LRUKReplacer.modify mp f u) f = (LRUKReplacer.find mp f).map u := by
  induction mp with
  | nil => rfl
  | cons e rest ih =>
    have hm : LRUKReplacer.modify (e :: rest) f u
        = (if e.1 = f then (e.1, u e.2) else e) :: LRUKReplacer.modify rest f u := rfl
    rw [hm]
    by_cases he : e.1 = f
    · simp [LRUKReplacer.find, he]
    · simp only [LRUKReplacer.find, if_neg he]
      exact ih

/-- Destroying records keeps the history invariant for the pruned log. -/
theorem replacer_logInv_shrink (k n : Nat) (s s2 : LRUKReplacer) (log : Int → List Nat)
    (h : LRUKReplacer.LogInv k n s log) (hk : s2.k_ = s.k_)
    (hts : s2.current_timestamp_ = s.current_timestamp_)
    (hsub : ∀ e ∈ s2.mp_, e ∈ s.mp_) :
    LRUKReplacer.LogInv k n s2 (LRUKReplacer.pruneLog s2.mp_ log) := by
  constructor
  · rw [hk]; exact h.kk
  · rw [hts]; exact h.ts_le
  · intro g x hx
    unfold LRUKReplacer.pruneLog at hx
    rw [hts]
    split_ifs at hx with hg
    · simp at hx
    · exact h.fresh g x hx
  · intro g hg
    unfold LRUKReplacer.pruneLog
    rw [hg]
    rfl
  · intro g
    unfold LRUKReplacer.pruneLog
    split_ifs
    · exact List.Pairwise.nil
    · exact h.sorted g
  · intro e he
    have hne := replacer_find_isSome_of_mem s2.mp_ e he
    have hlog : LRUKReplacer.pruneLog s2.mp_ log e.1 = log e.1 := by
      unfold LRUKReplacer.pruneLog
      rw [if_neg]
      intro hn
      exact hne (Option.isNone_iff_eq_none.1 hn)
    rw [hlog]
    exact h.hist e (hsub e he)

theorem replacer_logInv_recordAccess (k n : Nat) (hk : 1 ≤ k) (hn : n + 1 < SIZE_T_RANGE)
    (s : LRUKReplacer) (log : Int → List Nat) (h : LRUKReplacer.LogInv k n s log) (f : Int) :
    LRUKReplacer.LogInv k (n + 1) (s.RecordAccess f) (LRUKReplacer.logAfterAccess s log f) := by
  unfold LRUKReplacer.RecordAccess LRUKReplacer.logAfterAccess
  by_cases hfull : (LRUKReplacer.find s.mp_ f).isNone ∧ s.mp_.length = s.replacer_size_
  · rw [if_pos hfull, if_pos hfull]
    exact ⟨h.kk, Nat.le_succ_of_le h.ts_le, h.fresh, h.untracked, h.sorted, h.hist⟩
  · rw [if_neg hfull, if_neg hfull]
    have hts := h.ts_le
    have hinc : size_t_inc s.current_timestamp_ = s.current_timestamp_ + 1 :=
      size_t_inc_eq _ (by omega)
    have hmp1 : ∀ e0 ∈ (if (LRUKReplacer.find s.mp_ f).isNone = true then
          s.mp_ ++ [(f, ({ list_ := [], evictable_ := false } : FrameRecord))] else s.mp_),
        e0.2.list_ = LRUKReplacer.mostRecent k (log e0.1) ∧ (e0.1 ≠ f → log e0.1 ≠ []) := by
      intro e0 he0
      have hold : e0 ∈ s.mp_ → e0.2.list_ = LRUKReplacer.mostRecent k (log e0.1) ∧
          (e0.1 ≠ f → log e0.1 ≠ []) := fun hm => ⟨(h.hist e0 hm).2, fun _ => (h.hist e0 hm).1⟩
      split_ifs at he0 with hnone
      · rcases List.mem_append.1 he0 with hm | hm
        · exact hold hm
        · rw [List.mem_singleton] at hm
          rw [hm]
          simp only []
          rw [h.untracked f (Option.isNone_iff_eq_none.1 hnone)]
          exact ⟨by simp [LRUKReplacer.mostRecent], fun hne => absurd rfl hne⟩
      · exact hold he0
    have hkeys : ∀ g, LRUKReplacer.find (if (LRUKReplacer.find s.mp_ f).isNone = true then
          s.mp_ ++ [(f, ({ list_ := [], evictable_ := false } : FrameRecord))] else s.mp_) g
          = none → g ≠ f ∧ LRUKReplacer.find s.mp_ g = none := by
      intro g hg
      split_ifs at hg with hnone
      · rw [replacer_find_none_iff] at hg
        simp only [List.map_append, List.map_cons, List.map_nil, List.mem_append,
          List.mem_singleton, not_or] at hg
        exact ⟨hg.2, (replacer_find_none_iff _ _).2 hg.1⟩
      · refine ⟨?_, hg⟩
        intro e
        rw [e] at hg
        rw [hg] at hnone
        exact hnone rfl
    constructor
    · exact h.kk
    · show size_t_inc s.current_timestamp_ ≤ n + 1
      omega
    · intro g x hx
      show x < size_t_inc s.current_timestamp_
      rw [hinc]
      unfold LRUKReplacer.logSet at hx
      split_ifs at hx with hg
      · rcases List.mem_append.1 hx with h1 | h1
        · exact Nat.lt_succ_of_lt (h.fresh f x h1)
        · rw [List.mem_singleton] at h1
          omega
      · exact Nat.lt_succ_of_lt (h.fresh g x hx)
    · intro g hg
      simp only [] at hg
      have hg2 := hkeys g ((replacer_find_modify_none _ f g _).1 hg)
      unfold LRUKReplacer.logSet
      rw [if_neg hg2.1]
      exact h.untracked g hg2.2
    · intro g
      unfold LRUKReplacer.logSet
      split_ifs
      · rw [List.pairwise_append]
        refine ⟨h.sorted f, List.pairwise_singleton _ _, ?_⟩
        intro a ha b hb
        rw [List.mem_singleton] at hb
        rw [hb]
        exact h.fresh f a ha
      · exact h.sorted g
    · intro e he
      simp only [LRUKReplacer.modify, List.mem_map] at he
      obtain ⟨e0, he0, heq⟩ := he
      have hb := hmp1 e0 he0
      unfold LRUKReplacer.logSet
      by_cases hef : e0.1 = f
      · rw [if_pos hef] at heq
        rw [← heq]
        simp only []
        rw [if_pos hef, hb.1, h.kk, hef]
        exact ⟨by simp, replacer_mostRecent_snoc k hk (log f) s.current_timestamp_⟩
      · rw [if_neg hef] at heq
        rw [← heq, if_neg hef]
        exact ⟨hb.2 hef, hb.1⟩

theorem replacer_logInv_setEvictable (k n : Nat) (s : LRUKReplacer) (log : Int → List Nat)
    (h : LRUKReplacer.LogInv k n s log) (f : Int) (b : Bool) :
    LRUKReplacer.LogInv k n (s.SetEvictable f b) log := by
  unfold LRUKReplacer.SetEvictable
  cases hf : LRUKReplacer.find s.mp_ f with
  | none => exact h
  | some temp =>
    simp only []
    refine ⟨h.kk, h.ts_le, h.fresh, ?_, h.sorted, ?_⟩
    · intro g hg
      simp only [] at hg
      exact h.untracked g ((replacer_find_modify_none _ f g _).1 hg)
    · intro e he
      simp only [LRUKReplacer.modify, List.mem_map] at he
      obtain ⟨e0, he0, heq⟩ := he
      have hb := h.hist e0 he0
      by_cases hef : e0.1 = f
      · rw [if_pos hef] at heq
        rw [← heq]
        exact hb
      · rw [if_neg hef] at heq
        rw [← heq]
        exact hb

theorem replacer_logInv_reachable (num_frames k n : Nat) (hk : 1 ≤ k) (s : LRUKReplacer)
    (log : Int → List Nat) (hr : LRUKReplacer.ReachableWithLog num_frames k n s log) :
    n < SIZE_T_RANGE → LRUKReplacer.LogInv k n s log := by
  induction hr with
  | init =>
    intro _
    refine ⟨rfl, Nat.le_refl _, ?_, fun _ _ => rfl, fun _ => List.Pairwise.nil, ?_⟩
    · intro g x hx; simp at hx
    · intro e he; simp [LRUKReplacer.new] at he
  | recordAccess n s log f _ ih =>
    intro hn
    exact replacer_logInv_recordAccess k n hk hn s log (ih (by omega)) f
  | setEvictable n s log f b _ ih =>
    intro hn
    exact replacer_logInv_setEvictable k n s log (ih hn) f b
  | evict n s log _ ih =>
    intro hn
    apply replacer_logInv_shrink k n s _ log (ih hn)
    · unfold LRUKReplacer.Evict; simp only []; split_ifs <;> rfl
    · unfold LRUKReplacer.Evict; simp only []; split_ifs <;> rfl
    · intro e he
      unfold LRUKReplacer.Evict at he
      simp only [] at he
      split_ifs at he
      · exact he
      · exact List.mem_of_mem_filter he
  | remove n s log f _ ih =>
    intro hn
    apply replacer_logInv_shrink k n s _ log (ih hn)
    · unfold LRUKReplacer.Remove; split <;> [rfl; (split_ifs <;> rfl)]
    · unfold LRUKReplacer.Remove; split <;> [rfl; (split_ifs <;> rfl)]
    · intro e he
      unfold LRUKReplacer.Remove at he
      split at he
      · exact he
      · split_ifs at he
        · exact he
        · exact List.mem_of_mem_filter he
  | reorder n s log mp _ hp ih =>
    intro hn
    have h := ih hn
    refine ⟨h.kk, h.ts_le, h.fresh, ?_, h.sorted, ?_⟩
    · intro g hg
      apply h.untracked g
      rw [replacer_find_none_iff] at hg ⊢
      intro hm
      exact hg (((hp.map Prod.fst).mem_iff).2 hm)
    · intro e he
      exact h.hist e (hp.mem_iff.1 he)

/-- C17. Start from a freshly constructed replacer with `k ≥ 1` (capacity a `size_t`) and make
any sequence of calls containing fewer than `2 ^ 64` `RecordAccess` calls.  Then the history of
every tracked frame is non-empty, holds at most `k` timestamps, is strictly increasing, and is
the list of the last `min(k, number of accesses recorded for the frame since its record was
created)` timestamps of those accesses, which are strictly increasing themselves.  A
`RecordAccess` on a tracked frame that holds `k` timestamps leaves it with its former history
without the oldest timestamp, followed by the timestamp of this access. -/
theorem replacer_history_ring (num_frames k n : Nat) (hk : 1 ≤ k)
    (hnf : num_frames < SIZE_T_RANGE) (hn : n < SIZE_T_RANGE) (s : LRUKReplacer)
    (log : Int → List Nat) (hr : LRUKReplacer.ReachableWithLog num_frames k n s log) :
    (∀ e ∈ s.mp_,
      e.2.list_ ≠ [] ∧ e.2.list_.length ≤ k ∧ e.2.list_.Pairwise (fun a b => a < b) ∧
      (log e.1).Pairwise (fun a b => a < b) ∧
      e.2.list_ = LRUKReplacer.mostRecent (min k (log e.1).length) (log e.1)) ∧
    (∀ e ∈ s.mp_, e.2.list_.length = k →
      LRUKReplacer.find (s.RecordAccess e.1).mp_ e.1
        = some { list_ := e.2.list_.tail ++ [s.current_timestamp_],
                 evictable_ := e.2.evictable_ }) := by
  have h := replacer_logInv_reachable num_frames k n hk s log hr hn
  have hnd := (replacer_countInv_reachable num_frames k hnf s
    (replacer_withLog_reachable num_frames k n s log hr)).nodup
  constructor
  · intro e he
    obtain ⟨h1, h2⟩ := h.hist e he
    have hlen := replacer_mostRecent_length k (log e.1)
    have hpos : 0 < (log e.1).length := List.length_pos.2 h1
    have hmin : LRUKReplacer.mostRecent (min k (log e.1).length) (log e.1)
        = LRUKReplacer.mostRecent k (log e.1) := by
      unfold LRUKReplacer.mostRecent
      congr 1
      omega
    refine ⟨?_, ?_, ?_, h.sorted e.1, ?_⟩
    · intro hnil
      rw [h2] at hnil
      rw [hnil] at hlen
      simp only [List.length_nil] at hlen
      omega
    · rw [h2, hlen]
      omega
    · rw [h2]
      exact (h.sorted e.1).sublist (List.drop_sublist _ _)
    · rw [hmin]; exact h2
  · intro e he hlen
    have hf := replacer_find_of_mem s.mp_ hnd e he
    have hnone : ¬ ((LRUKReplacer.find s.mp_ e.1).isNone = true) := by
      rw [hf]; simp
    unfold LRUKReplacer.RecordAccess
    rw [if_neg (fun hc => hnone hc.1)]
    simp only [hnone, Bool.false_eq_true, if_false]
    rw [replacer_find_modify_self, hf]
    simp only [Option.map_some', h.kk, hlen, if_true]

theorem ringScenario_withLog :
    LRUKReplacer.ReachableWithLog 3 2 3 ringScenario ringScenarioLog :=
  .recordAccess 2 _ _ 1 (.recordAccess 1 _ _ 1 (.recordAccess 0 _ _ 1 .init))

/-- Witness for C17: with `k = 2`, after three accesses to frame 1 at the timestamps 0, 1, 2
the frame retains 1, 2, and a fourth access leaves it with 2, 3. -/
theorem replacer_history_ring_witness :
    ringScenarioLog 1 = [0, 1, 2] ∧
    (∀ e ∈ ringScenario.mp_,
      e.2.list_ ≠ [] ∧ e.2.list_.length ≤ 2 ∧ e.2.list_.Pairwise (fun a b => a < b) ∧
      (ringScenarioLog e.1).Pairwise (fun a b => a < b) ∧
      e.2.list_ = LRUKReplacer.mostRecent (min 2 (ringScenarioLog e.1).length)
        (ringScenarioLog e.1)) ∧
    LRUKReplacer.find (ringScenario.RecordAccess 1).mp_ 1
      = some { list_ := [2, 3], evictable_ := false } :=
  have h := replacer_history_ring 3 2 3 (by decide) (by unfold SIZE_T_RANGE; norm_num)
    (by unfold SIZE_T_RANGE; norm_num) ringScenario ringScenarioLog ringScenario_withLog
  ⟨by decide, h.1, h.2 (1, ⟨[1, 2], false⟩) (by decide) (by decide)⟩

/-! ## Hash table: the bucket counter -/

theorem hash_redistribute_num_buckets {K V : Type} [DecidableEq K] (hash : K → Nat)
    (t t2 : ExtendibleHashTable K V) (ref : Nat)
    (h : ExtendibleHashTable.RedistributeBucket hash t ref = some t2) :
    t2.num_buckets_ = t.num_buckets_ := by
  obtain ⟨slot, heq⟩ := hash_redistribute_some hash t t2 ref h
  rw [heq]

theorem hash_insertLoop_num_buckets {K V : Type} [DecidableEq K] (hash : K → Nat) (key : K)
    (value : V) :
    ∀ (fuel : Nat) (t t2 : ExtendibleHashTable K V),
      (ExtendibleHashTable.InsertLoop hash fuel t key value).state? = some t2 →
      t2.num_buckets_ = t.num_buckets_ := by
  intro fuel
  induction fuel with
  | zero =>
    intro t t2 hs
    simp only [ExtendibleHashTable.InsertLoop, InsertResult.state?, Option.some.injEq] at hs
    rw [← hs]
  | succ fuel ih =>
    intro t t2 hs
    simp only [ExtendibleHashTable.InsertLoop] at hs
    split_ifs at hs
    · simp only [InsertResult.state?, Option.some.injEq] at hs
      rw [← hs]
    · split at hs
      · simp [InsertResult.state?] at hs
      · rename_i t3 hr
        rw [ih t3 t2 hs, hash_redistribute_num_buckets hash t t3 _ hr]
    · split at hs
      · simp [InsertResult.state?] at hs
      · rename_i t3 hr
        rw [ih t3 t2 hs, hash_redistribute_num_buckets hash _ t3 _ hr]

/-- No call changes `num_buckets_`: it is 1 in every state of the table, whatever the number of
bucket splits. -/
theorem hash_num_buckets_stays_one {K V : Type} [DecidableEq K] (hash : K → Nat)
    (bucket_size : Nat) (t : ExtendibleHashTable K V)
    (hr : ExtendibleHashTable.Reachable hash bucket_size t) : t.GetNumBucketsInternal = 1 := by
  induction hr with
  | init => rfl
  | insert t key value fuel t2 _ hs ih =>
    unfold ExtendibleHashTable.GetNumBucketsInternal at *
    rw [hash_insertLoop_num_buckets hash key value fuel t t2 (by rw [hs]; rfl), ih]
  | remove t key _ ih => exact ih

/-- C21 (defect in the code). Bucket capacity 1, identity hash.  A fresh table has one bucket
and `GetNumBuckets()` is 1.  After `Insert(0, 100)` and `Insert(1, 101)`, which both return (the
second one doubles the directory and splits the bucket, moving no entry), the directory refers
to two distinct buckets, holding key 0 and key 1, while `GetNumBuckets()` is still 1: the split
does not count the new bucket. -/
theorem hash_num_buckets_not_updated_by_split :
    (ExtendibleHashTable.new 1 : ExtendibleHashTable Int Int).GetNumBucketsInternal = 1 ∧
    (ExtendibleHashTable.new 1 : ExtendibleHashTable Int Int).distinctBuckets = 1 ∧
    insertAll intHash 2 [(0, 100), (1, 101)] (ExtendibleHashTable.new 1)
      = InsertResult.returned tableTwoKeys ∧
    tableTwoKeys.dir_ = [0, 1] ∧
    (tableTwoKeys.deref 0).list_ = [(0, 100)] ∧
    (tableTwoKeys.deref 1).list_ = [(1, 101)] ∧
    tableTwoKeys.distinctBuckets = 2 ∧
    tableTwoKeys.GetNumBucketsInternal = 1 ∧
    tableTwoKeys.GetNumBucketsInternal ≠ tableTwoKeys.distinctBuckets := by
  decide
